import Mathlib

/-!
Verification of the name-resolution and module-linking layer: definition
collection, import resolution, flattening of module instances, and type-alias
inlining. Each TypeScript pass is shallowly embedded as executable Lean
definitions; theorems below settle the specification claims against them.
-/

/-- Identifiers of the Builtin Registry, as listed by the collector's default
definitions (the fixed catalog of built-in operator names available in every
module without import). -/
def builtinIdentifiers : List String :=
  ["not", "and", "or", "iff", "implies", "exists", "guess", "forall",
   "in", "notin", "union", "contains", "fold", "intersect", "exclude",
   "subseteq", "map", "applyTo", "filter", "powerset", "flatten",
   "allLists", "chooseSome", "isFinite", "size", "get", "put", "keys",
   "mapBy", "setToMap", "setOfMaps", "update", "updateAs", "fields",
   "with", "tuples", "append", "concat", "head", "tail", "length",
   "nth", "indices", "replaceAt", "slice", "select", "foldl", "foldr",
   "to", "always", "eventually", "next", "shift", "stutter", "nostutter",
   "enabled", "weakFair", "strongFair", "guarantees", "existsConst",
   "forallConst", "chooseConst", "Bool", "Int", "Nat", "set", "mapOf",
   "list", "range", "tup", "rec", "igt", "ilt", "igte", "ilte", "iadd",
   "isub", "iuminus", "imul", "idiv", "imod", "ipow", "actionAll",
   "actionAny", "field", "fieldNames", "item", "match", "assign", "of",
   "eq", "neq", "ite", "cross", "difference"]

namespace Quint

mutual
/-- Row types (for tuple/record/union shapes); a concrete row carries named
fields and a tail, mirroring the Row type of the quint IR. -/
inductive Row where
  | row (fields : List (String × QuintType)) (other : Row)
  | rvar (name : String)
  | rempty

/-- Types of the quint IR, each node carrying a numeric id (0 plays the role
of a falsy/absent id, as a JavaScript bigint 0 or an undefined id is falsy). -/
inductive QuintType where
  | tbool (id : Nat)
  | tint (id : Nat)
  | tstr (id : Nat)
  | tvar (id : Nat) (name : String)
  | tconst (id : Nat) (name : String)
  | tset (id : Nat) (elem : QuintType)
  | tlist (id : Nat) (elem : QuintType)
  | tfun (id : Nat) (arg : QuintType) (res : QuintType)
  | toper (id : Nat) (args : List QuintType) (res : QuintType)
  | ttup (id : Nat) (fields : Row)
  | trec (id : Nat) (fields : Row)
  | tunion (id : Nat) (tag : String) (records : List (String × Row))
end

/-- Lambda parameter of the quint IR: a name together with a node id. -/
structure LambdaParameter where
  id : Nat
  name : String

mutual
/-- Expressions of the quint IR. -/
inductive QuintEx where
  | ename (id : Nat) (name : String)
  | ebool (id : Nat) (value : Bool)
  | eint (id : Nat) (value : Int)
  | estr (id : Nat) (value : String)
  | eapp (id : Nat) (opcode : String) (args : List QuintEx)
  | elambda (id : Nat) (params : List LambdaParameter) (body : QuintEx)
  | elet (id : Nat) (opdef : QuintOpDef) (body : QuintEx)

/-- Operator definition of the quint IR (kind def), with a qualifier, an
optional type annotation and a body expression. -/
inductive QuintOpDef where
  | mk (id : Nat) (name : String) (qualifier : String)
      (typeAnn : Option QuintType) (expr : QuintEx)
end

/-- Name of an operator definition. -/
def QuintOpDef.name : QuintOpDef → String
  | .mk _ n _ _ _ => n

/-- Node id of an operator definition. -/
def QuintOpDef.id : QuintOpDef → Nat
  | .mk i _ _ _ _ => i

/-- Type annotation of an operator definition. -/
def QuintOpDef.typeAnn : QuintOpDef → Option QuintType
  | .mk _ _ _ a _ => a

/-- Declarations of the quint IR (the QuintDef union). -/
inductive QuintDef where
  | opdef (d : QuintOpDef)
  | constDef (id : Nat) (name : String) (typeAnn : Option QuintType)
  | varDef (id : Nat) (name : String) (typeAnn : Option QuintType)
  | typeDef (id : Nat) (name : String) (type : Option QuintType)
  | assumeDef (id : Nat) (name : String) (assump : QuintEx)
  | importDef (id : Nat) (name : String) (path : String)
  | instanceDef (id : Nat) (name : String) (protoName : String)
      (overrides : List (LambdaParameter × QuintEx))

/-- Name of a declaration (every QuintDef carries a name field). -/
def QuintDef.name : QuintDef → String
  | .opdef d => d.name
  | .constDef _ n _ => n
  | .varDef _ n _ => n
  | .typeDef _ n _ => n
  | .assumeDef _ n _ => n
  | .importDef _ n _ => n
  | .instanceDef _ n _ _ => n

/-- Kind tag of a declaration, as the string discriminant of the IR. -/
def QuintDef.kind : QuintDef → String
  | .opdef _ => "def"
  | .constDef _ _ _ => "const"
  | .varDef _ _ _ => "var"
  | .typeDef _ _ _ => "typedef"
  | .assumeDef _ _ _ => "assume"
  | .importDef _ _ _ => "import"
  | .instanceDef _ _ _ _ => "instance"

/-- Type annotation carried by a declaration, if its shape has one
(operator, constant and variable declarations are the annotated shapes).
Modelled from the spec: quintIr.ts is not under src; the spec (section 6)
lists which declaration shapes carry a stable annotation. -/
def QuintDef.typeAnn : QuintDef → Option QuintType
  | .opdef d => d.typeAnn
  | .constDef _ _ a => a
  | .varDef _ _ a => a
  | _ => none

/-- The isAnnotatedDef predicate of the quint IR: a declaration with a
present type annotation. Modelled from the spec: quintIr.ts is not under
src; flattening treats a declaration as annotated when it carries a type. -/
def isAnnotatedDef (d : QuintDef) : Bool :=
  d.typeAnn.isSome

/-- Replace the type annotation of a declaration (the spread
update performed by flatten on a namespaced annotated declaration). -/
def QuintDef.withTypeAnn (d : QuintDef) (t : QuintType) : QuintDef :=
  match d with
  | .opdef (.mk i n q _ e) => .opdef (.mk i n q (some t) e)
  | .constDef i n _ => .constDef i n (some t)
  | .varDef i n _ => .varDef i n (some t)
  | d => d

/-- A module of the quint IR: an id, a name and a declaration list. -/
structure QuintModule where
  id : Nat
  name : String
  defs : List QuintDef

/-- An entry of the id-keyed lookup table used by flattening: the kind of
the defining occurrence and its optional type annotation. Modelled from the
spec: lookupTable.ts is not under src; flattening reads exactly the kind
and the type annotation of an entry. -/
structure LookupDef where
  kind : String
  typeAnn : Option QuintType

/-- The id-keyed lookup table consumed by flattening and alias inlining. -/
def LookupTable := List (Nat × LookupDef)

/-- Table lookup by node id. -/
def LookupTable.get (t : LookupTable) (id : Nat) : Option LookupDef :=
  List.lookup id t

/-- Errors with which a flattening run aborts: the two explicit throws of
the source (an unresolved reference, an instance remaining inside a
prototype, the impossible-kind guard) and the two implicit crashes behind
non-null assertions (a missing prototype module, a missing table entry for
an override parameter). -/
inductive FlattenErr where
  | unknownName (id : Nat) (name : String)
  | instanceInProto
  | impossibleKind
  | missingProto (name : String)
  | missingOverride (id : Nat)

/-- Flattening context: the lookup table and the builtin name set (the id
generator is threaded separately as a counter value). -/
structure FlatteningContext where
  table : LookupTable
  builtinNames : List String

/-- The monotonic id generator: minting an id increments the counter and
returns it. Modelled from the spec: idGenerator.ts is not under src; the
spec describes a monotonic generator handing out fresh ids above its seed. -/
def nextId (gen : Nat) : Nat × Nat :=
  (gen + 1, gen + 1)

/-- JavaScript array indexing: a negative or out-of-range index reads as
undefined (None). -/
def jsIndex (l : List α) (i : Int) : Option α :=
  if 0 ≤ i then l.get? i.toNat else none

/-- The namespace-rewrite decision of flattening: a reference is rewritten
unless its name is a builtin or the table entry for its id has kind param;
a missing table entry is a fatal error. -/
def shouldAddNamespace (ctx : FlatteningContext) (name : String) (id : Nat) :
    Except FlattenErr Bool :=
  if name ∈ ctx.builtinNames then .ok false
  else
    match ctx.table.get id with
    | none => .error (.unknownName id name)
    | some d => .ok (d.kind ≠ "param")

mutual
/-- Rewrite of a type under a namespace: a fresh id is minted for the node
first, then named (const) types get the namespace prefixed and composite
shapes are rewritten recursively; the generator counter is threaded. -/
def addNamespaceToType (ctx : FlatteningContext) (ns : String) :
    QuintType → Nat → QuintType × Nat
  | t, gen =>
    let (id, gen) := nextId gen
    match t with
    | .tbool _ => (.tbool id, gen)
    | .tint _ => (.tint id, gen)
    | .tstr _ => (.tstr id, gen)
    | .tvar _ n => (.tvar id n, gen)
    | .tconst _ n => (.tconst id (ns ++ "::" ++ n), gen)
    | .tset _ e =>
      let (e2, gen) := addNamespaceToType ctx ns e gen
      (.tset id e2, gen)
    | .tlist _ e =>
      let (e2, gen) := addNamespaceToType ctx ns e gen
      (.tlist id e2, gen)
    | .tfun _ a r =>
      let (a2, gen) := addNamespaceToType ctx ns a gen
      let (r2, gen) := addNamespaceToType ctx ns r gen
      (.tfun id a2 r2, gen)
    | .toper _ args r =>
      let (args2, gen) := addNamespaceToTypeList ctx ns args gen
      let (r2, gen) := addNamespaceToType ctx ns r gen
      (.toper id args2 r2, gen)
    | .ttup _ f =>
      let (f2, gen) := addNamespaceToRow ctx ns f gen
      (.ttup id f2, gen)
    | .trec _ f =>
      let (f2, gen) := addNamespaceToRow ctx ns f gen
      (.trec id f2, gen)
    | .tunion _ tag records =>
      let (rs2, gen) := addNamespaceToRecords ctx ns records gen
      (.tunion id tag rs2, gen)

/-- Sequential rewrite of a list of types (the map over operator argument
types, threading the generator left to right). -/
def addNamespaceToTypeList (ctx : FlatteningContext) (ns : String) :
    List QuintType → Nat → List QuintType × Nat
  | [], gen => ([], gen)
  | t :: ts, gen =>
    let (t2, gen) := addNamespaceToType ctx ns t gen
    let (ts2, gen) := addNamespaceToTypeList ctx ns ts gen
    (t2 :: ts2, gen)

/-- Rewrite of a row: a concrete row has each field type rewritten (its tail
is spread unchanged); variable and empty rows are returned as they are. -/
def addNamespaceToRow (ctx : FlatteningContext) (ns : String) :
    Row → Nat → Row × Nat
  | .row fields other, gen =>
    let (fs2, gen) := addNamespaceToRowFields ctx ns fields gen
    (.row fs2 other, gen)
  | r, gen => (r, gen)

/-- Sequential rewrite of the named fields of a concrete row. -/
def addNamespaceToRowFields (ctx : FlatteningContext) (ns : String) :
    List (String × QuintType) → Nat → List (String × QuintType) × Nat
  | [], gen => ([], gen)
  | (fn, ft) :: fs, gen =>
    let (ft2, gen) := addNamespaceToType ctx ns ft gen
    let (fs2, gen) := addNamespaceToRowFields ctx ns fs gen
    ((fn, ft2) :: fs2, gen)

/-- Sequential rewrite of the records of a union type (each record keeps its
tag and has its field row rewritten). -/
def addNamespaceToRecords (ctx : FlatteningContext) (ns : String) :
    List (String × Row) → Nat → List (String × Row) × Nat
  | [], gen => ([], gen)
  | (tag, r) :: rs, gen =>
    let (r2, gen) := addNamespaceToRow ctx ns r gen
    let (rs2, gen) := addNamespaceToRecords ctx ns rs gen
    ((tag, r2) :: rs2, gen)
end

/-- Sequential re-id of lambda parameters (each parameter keeps its name and
receives a freshly minted id). -/
def freshParams : List LambdaParameter → Nat → List LambdaParameter × Nat
  | [], gen => ([], gen)
  | p :: ps, gen =>
    let (id, gen) := nextId gen
    let (ps2, gen) := freshParams ps gen
    ({ p with id := id } :: ps2, gen)

mutual
/-- Rewrite of an expression under a namespace: a fresh id is minted first;
name and application heads are prefixed when shouldAddNamespace says so (a
missing table entry for a non-builtin reference aborts); recursion follows
the source's evaluation order. -/
def addNamespaceToExpr (ctx : FlatteningContext) (ns : String) :
    QuintEx → Nat → Except FlattenErr (QuintEx × Nat)
  | e, gen =>
    let (id, gen) := nextId gen
    match e with
    | .ename eid n =>
      match shouldAddNamespace ctx n eid with
      | .error err => .error err
      | .ok true => .ok (.ename id (ns ++ "::" ++ n), gen)
      | .ok false => .ok (.ename id n, gen)
    | .ebool _ v => .ok (.ebool id v, gen)
    | .eint _ v => .ok (.eint id v, gen)
    | .estr _ v => .ok (.estr id v, gen)
    | .eapp eid op args =>
      match shouldAddNamespace ctx op eid with
      | .error err => .error err
      | .ok b =>
        match addNamespaceToExprList ctx ns args gen with
        | .error err => .error err
        | .ok (args2, gen) =>
          .ok (.eapp id (if b then ns ++ "::" ++ op else op) args2, gen)
    | .elambda _ params body =>
      let (params2, gen) := freshParams params gen
      match addNamespaceToExpr ctx ns body gen with
      | .error err => .error err
      | .ok (body2, gen) => .ok (.elambda id params2 body2, gen)
    | .elet _ od body =>
      match addNamespaceToOpDef ctx ns od gen with
      | .error err => .error err
      | .ok (od2, gen) =>
        match addNamespaceToExpr ctx ns body gen with
        | .error err => .error err
        | .ok (body2, gen) => .ok (.elet id od2 body2, gen)

/-- Sequential rewrite of a list of argument expressions. -/
def addNamespaceToExprList (ctx : FlatteningContext) (ns : String) :
    List QuintEx → Nat → Except FlattenErr (List QuintEx × Nat)
  | [], gen => .ok ([], gen)
  | e :: es, gen =>
    match addNamespaceToExpr ctx ns e gen with
    | .error err => .error err
    | .ok (e2, gen) =>
      match addNamespaceToExprList ctx ns es gen with
      | .error err => .error err
      | .ok (es2, gen) => .ok (e2 :: es2, gen)

/-- Rewrite of an operator definition: the name is prefixed, the body is
rewritten, and a fresh id is minted after the body (the source mints the id
last in the object literal); the annotation is spread unchanged. -/
def addNamespaceToOpDef (ctx : FlatteningContext) (ns : String) :
    QuintOpDef → Nat → Except FlattenErr (QuintOpDef × Nat)
  | .mk _ name qual ann expr, gen =>
    match addNamespaceToExpr ctx ns expr gen with
    | .error err => .error err
    | .ok (expr2, gen) =>
      let (id, gen) := nextId gen
      .ok (.mk id (ns ++ "::" ++ name) qual ann expr2, gen)
end

/-- Rewrite of a declaration under a namespace, following addNamespaceToDef
of the source: operator, assumption, constant, variable and type
declarations get prefixed names and fresh ids; an instance is a fatal error
(it should have been flattened already); an import is returned unchanged. -/
def addNamespaceToDef (ctx : FlatteningContext) (ns : String) :
    QuintDef → Nat → Except FlattenErr (QuintDef × Nat)
  | .opdef od, gen =>
    match addNamespaceToOpDef ctx ns od gen with
    | .error err => .error err
    | .ok (od2, gen) => .ok (.opdef od2, gen)
  | .assumeDef _ name a, gen =>
    match addNamespaceToExpr ctx ns a gen with
    | .error err => .error err
    | .ok (a2, gen) =>
      let (id, gen) := nextId gen
      .ok (.assumeDef id (ns ++ "::" ++ name) a2, gen)
  | .constDef _ name ann, gen =>
    let (id, gen) := nextId gen
    .ok (.constDef id (ns ++ "::" ++ name) ann, gen)
  | .varDef _ name ann, gen =>
    let (id, gen) := nextId gen
    .ok (.varDef id (ns ++ "::" ++ name) ann, gen)
  | .typeDef _ name ty, gen =>
    let (ty2, gen) :=
      match ty with
      | some t =>
        let (t2, gen) := addNamespaceToType ctx ns t gen
        (some t2, gen)
      | none => (none, gen)
    let (id, gen) := nextId gen
    .ok (.typeDef id (ns ++ "::" ++ name) ty2, gen)
  | .instanceDef _ _ _ _, _ => .error .instanceInProto
  | .importDef i name path, gen => .ok (.importDef i name path, gen)

/-- Processing of the overrides of one instance declaration: for each
override parameter the table entry is fetched (its absence is the crash
behind the non-null assertion), a pureval operator definition named
instanceName::param is appended, bound to the override expression, with the
entry's annotation rewritten under the namespace when present; the fresh id
of the new declaration is minted after the annotation rewrite. -/
def processOverrides (ctx : FlatteningContext) (instName : String) :
    List (LambdaParameter × QuintEx) → List QuintDef → Nat →
    Except FlattenErr (List QuintDef × Nat)
  | [], acc, gen => .ok (acc, gen)
  | (param, expr) :: rest, acc, gen =>
    match ctx.table.get param.id with
    | none => .error (.missingOverride param.id)
    | some constDef =>
      let (ann, gen) :=
        match constDef.typeAnn with
        | some t =>
          let (t2, gen) := addNamespaceToType ctx instName t gen
          (some t2, gen)
        | none => (none, gen)
      let (id, gen) := nextId gen
      processOverrides ctx instName rest
        (acc ++ [.opdef (.mk id (instName ++ "::" ++ param.name) "pureval" ann expr)])
        gen

/-- Processing of the prototype's declarations for one instance: a
declaration whose namespaced name is already in the accumulator (covered by
an override or an earlier push) is skipped; otherwise a namespaced copy is
appended, with the annotated-declaration branch rewriting the annotation
first and re-checking the copy's annotatedness (the impossible-kind guard). -/
def processProtoDefs (ctx : FlatteningContext) (instName : String) :
    List QuintDef → List QuintDef → Nat →
    Except FlattenErr (List QuintDef × Nat)
  | [], acc, gen => .ok (acc, gen)
  | pd :: rest, acc, gen =>
    if acc.any (fun d => d.name == instName ++ "::" ++ pd.name) then
      processProtoDefs ctx instName rest acc gen
    else
      match pd.typeAnn with
      | some t =>
        let (t2, gen) := addNamespaceToType ctx instName t gen
        match addNamespaceToDef ctx instName pd gen with
        | .error err => .error err
        | .ok (newDef, gen) =>
          if isAnnotatedDef newDef then
            processProtoDefs ctx instName rest (acc ++ [newDef.withTypeAnn t2]) gen
          else
            .error .impossibleKind
      | none =>
        match addNamespaceToDef ctx instName pd gen with
        | .error err => .error err
        | .ok (newDef, gen) =>
          processProtoDefs ctx instName rest (acc ++ [newDef]) gen

/-- One step of the flattening fold over the module's declarations: an
instance declaration is replaced by its override definitions followed by
the namespaced prototype copies (a missing prototype module is the crash
behind the non-null assertion); any other declaration is passed through. -/
def flattenDef (ctx : FlatteningContext) (modules : List (String × QuintModule)) :
    List QuintDef × Nat → QuintDef → Except FlattenErr (List QuintDef × Nat)
  | (acc, gen), .instanceDef _ name protoName overrides =>
    match List.lookup protoName modules with
    | none => .error (.missingProto protoName)
    | some protoModule =>
      match processOverrides ctx name overrides acc gen with
      | .error err => .error err
      | .ok (acc, gen) => processProtoDefs ctx name protoModule.defs acc gen
  | (acc, gen), d => .ok (acc ++ [d], gen)

/-- The flattening fold over a declaration list. -/
def flattenDefs (ctx : FlatteningContext) (modules : List (String × QuintModule)) :
    List QuintDef → List QuintDef × Nat → Except FlattenErr (List QuintDef × Nat)
  | [], st => .ok st
  | d :: ds, st =>
    match flattenDef ctx modules st d with
    | .error err => .error err
    | .ok st2 => flattenDefs ctx modules ds st2

/-- The seed computation of flatten: the ids of all known modules are
sorted ascending and the element at JavaScript index -1 is read (which is
always undefined, since JavaScript arrays have no negative indexing). -/
def flattenLastId (modules : List (String × QuintModule)) : Option Nat :=
  jsIndex ((modules.map (fun p => p.2.id)).mergeSort (· ≤ ·)) (-1)

/-- Construction of the id generator from an optional seed. Modelled from
the spec: idGenerator.ts is not under src; an absent seed falls back to the
default start of the generator, zero. -/
def newIdGenerator (lastId : Option Nat) : Nat :=
  lastId.getD 0

/-- The flatten entry point: seeds the generator from flattenLastId, takes
the builtin registry identifiers as builtin names, folds flattenDef over
the module's declarations and rebuilds the module with the new list. -/
def flatten (m : QuintModule) (table : LookupTable)
    (modules : List (String × QuintModule)) : Except FlattenErr QuintModule :=
  let gen0 := newIdGenerator (flattenLastId modules)
  let ctx : FlatteningContext := ⟨table, builtinIdentifiers⟩
  match flattenDefs ctx modules m.defs ([], gen0) with
  | .error err => .error err
  | .ok (defs, _) => .ok { m with defs := defs }

/-- Name-and-kind projection of a declaration list. -/
def defsSignature (ds : List QuintDef) : List (String × String) :=
  ds.map (fun d => (d.name, d.kind))

/-- Spec-side contribution of the prototype declarations of one instance:
declarations covered by an override contribute nothing, imports are copied
with their own name, and all others get the namespaced name with their kind. -/
def protoSig (instName : String) (overrides : List (LambdaParameter × QuintEx))
    (pds : List QuintDef) : List (String × String) :=
  pds.filterMap (fun pd =>
    if overrides.any (fun po => po.1.name == pd.name) then none
    else if pd.kind == "import" then some (pd.name, "import")
    else some (instName ++ "::" ++ pd.name, pd.kind))

/-- Spec-side contribution of one declaration to the flattened module, as
the amended claim words it: an instance is replaced by one pureval operator
definition per override named instanceName::param, followed by the
prototype contributions of protoSig; any other declaration stays. -/
def defSig (modules : List (String × QuintModule)) : QuintDef → List (String × String)
  | .instanceDef _ instName protoName overrides =>
    overrides.map (fun po => (instName ++ "::" ++ po.1.name, "def"))
    ++ protoSig instName overrides
        ((List.lookup protoName modules).getD ⟨0, "", []⟩).defs
  | d => [(d.name, d.kind)]

/-- Spec-side signature of the flattened module (the refinement target for
the amended C2 claim). -/
def flattenedSignature (modules : List (String × QuintModule)) (m : QuintModule) :
    List (String × String) :=
  m.defs.flatMap (defSig modules)

/-- Hygiene check: no produced name of the flattened signature coincides
with the namespaced form of a prototype import's name. -/
def importsFresh (modules : List (String × QuintModule)) (m : QuintModule) : Bool :=
  m.defs.all fun d =>
    match d with
    | .instanceDef _ iN iP _ =>
      ((List.lookup iP modules).getD ⟨0, "", []⟩).defs.all fun pd =>
        pd.kind != "import" ||
          ((flattenedSignature modules m).all fun sg => sg.1 != iN ++ "::" ++ pd.name)
    | _ => true

def c2wproto : QuintModule := ⟨10, "P", [.varDef 1 "x" none, .constDef 2 "c" none]⟩

def c2wmod : QuintModule :=
  ⟨20, "W", [.varDef 5 "w" none, .instanceDef 3 "N" "P" [(⟨30, "c"⟩, .eint 31 5)]]⟩

def c2wout : QuintModule :=
  ⟨20, "W", [.varDef 5 "w" none, .opdef (.mk 1 "N::c" "pureval" none (.eint 31 5)),
    .varDef 2 "N::x" none]⟩

/-- Classifier for the two error situations named by the claim. -/
def FlattenErr.isListedSituation : FlattenErr → Bool
  | .unknownName _ _ => true
  | .instanceInProto => true
  | _ => false

def c3wproto : QuintModule := ⟨10, "P", [.instanceDef 8 "J" "K" []]⟩
def c3wmod : QuintModule := ⟨20, "W", [.instanceDef 3 "N" "P" []]⟩

/-- The resolveAlias function of the inliner, fuel-indexed: a const type
with a truthy (nonzero) id whose table entry carries a type annotation is
resolved by recursing on the annotation (following the alias chain); any
other type is returned unchanged. Fuel exhaustion (none) models the
divergence of a cyclic alias table. -/
def resolveAlias (table : LookupTable) : Nat → QuintType → Option QuintType
  | 0, _ => none
  | fuel + 1, t =>
    match t with
    | .tconst id name =>
      if id ≠ 0 then
        match table.get id with
        | some d =>
          match d.typeAnn with
          | some ann => resolveAlias table fuel ann
          | none => some (.tconst id name)
        | none => some (.tconst id name)
      else some (.tconst id name)
    | t => some t

mutual
/-- The type rewrite of the alias inliner. Modelled from the spec: the
IRTransformer driver is not under src; the transformer applies the
enterType hook (resolveAlias) on a node and then recurses into the
children of the replaced node, so alias references are replaced by their
fully resolved types recursively. -/
def inlineType (table : LookupTable) : Nat → QuintType → Option QuintType
  | 0, _ => none
  | fuel + 1, t =>
    match resolveAlias table (fuel + 1) t with
    | none => none
    | some t2 =>
      match t2 with
      | .tbool id => some (.tbool id)
      | .tint id => some (.tint id)
      | .tstr id => some (.tstr id)
      | .tvar id n => some (.tvar id n)
      | .tconst id n => some (.tconst id n)
      | .tset id e =>
        match inlineType table fuel e with
        | none => none
        | some e2 => some (.tset id e2)
      | .tlist id e =>
        match inlineType table fuel e with
        | none => none
        | some e2 => some (.tlist id e2)
      | .tfun id a r =>
        match inlineType table fuel a with
        | none => none
        | some a2 =>
          match inlineType table fuel r with
          | none => none
          | some r2 => some (.tfun id a2 r2)
      | .toper id args r =>
        match inlineTypeList table fuel args with
        | none => none
        | some args2 =>
          match inlineType table fuel r with
          | none => none
          | some r2 => some (.toper id args2 r2)
      | .ttup id f =>
        match inlineRow table fuel f with
        | none => none
        | some f2 => some (.ttup id f2)
      | .trec id f =>
        match inlineRow table fuel f with
        | none => none
        | some f2 => some (.trec id f2)
      | .tunion id tag records =>
        match inlineRecords table fuel records with
        | none => none
        | some rs2 => some (.tunion id tag rs2)

/-- Inlining over a list of types. -/
def inlineTypeList (table : LookupTable) : Nat → List QuintType → Option (List QuintType)
  | _, [] => some []
  | fuel, t :: ts =>
    match inlineType table fuel t with
    | none => none
    | some t2 =>
      match inlineTypeList table fuel ts with
      | none => none
      | some ts2 => some (t2 :: ts2)

/-- Inlining over a row: field types and the tail are rewritten. -/
def inlineRow (table : LookupTable) : Nat → Row → Option Row
  | fuel, .row fields other =>
    match inlineRowFields table fuel fields with
    | none => none
    | some fs2 =>
      match inlineRow table fuel other with
      | none => none
      | some o2 => some (.row fs2 o2)
  | _, .rvar n => some (.rvar n)
  | _, .rempty => some .rempty

/-- Inlining over the named fields of a row. -/
def inlineRowFields (table : LookupTable) :
    Nat → List (String × QuintType) → Option (List (String × QuintType))
  | _, [] => some []
  | fuel, (fn, ft) :: fs =>
    match inlineType table fuel ft with
    | none => none
    | some ft2 =>
      match inlineRowFields table fuel fs with
      | none => none
      | some fs2 => some ((fn, ft2) :: fs2)

/-- Inlining over the records of a union type. -/
def inlineRecords (table : LookupTable) :
    Nat → List (String × Row) → Option (List (String × Row))
  | _, [] => some []
  | fuel, (tag, r) :: rs =>
    match inlineRow table fuel r with
    | none => none
    | some r2 =>
      match inlineRecords table fuel rs with
      | none => none
      | some rs2 => some ((tag, r2) :: rs2)
end

/-- Inlining over an optional type. -/
def inlineTypeOpt (table : LookupTable) (fuel : Nat) :
    Option QuintType → Option (Option QuintType)
  | none => some none
  | some t => (inlineType table fuel t).map some

mutual
/-- Inlining over an operator definition: the annotation (when present)
and the body are rewritten. -/
def inlineOpDef (table : LookupTable) : Nat → QuintOpDef → Option QuintOpDef
  | fuel, .mk i n q a ex =>
    match inlineTypeOpt table fuel a with
    | none => none
    | some a2 =>
      match inlineEx table fuel ex with
      | none => none
      | some ex2 => some (.mk i n q a2 ex2)

/-- Inlining over an expression: ids and names are untouched; only the
type annotations of let-bound operator definitions are rewritten. -/
def inlineEx (table : LookupTable) : Nat → QuintEx → Option QuintEx
  | _, .ename i n => some (.ename i n)
  | _, .ebool i v => some (.ebool i v)
  | _, .eint i v => some (.eint i v)
  | _, .estr i v => some (.estr i v)
  | fuel, .eapp i op args =>
    match inlineExList table fuel args with
    | none => none
    | some args2 => some (.eapp i op args2)
  | fuel, .elambda i ps body =>
    match inlineEx table fuel body with
    | none => none
    | some b2 => some (.elambda i ps b2)
  | fuel, .elet i od body =>
    match inlineOpDef table fuel od with
    | none => none
    | some od2 =>
      match inlineEx table fuel body with
      | none => none
      | some b2 => some (.elet i od2 b2)

/-- Inlining over a list of expressions. -/
def inlineExList (table : LookupTable) : Nat → List QuintEx → Option (List QuintEx)
  | _, [] => some []
  | fuel, e :: es =>
    match inlineEx table fuel e with
    | none => none
    | some e2 =>
      match inlineExList table fuel es with
      | none => none
      | some es2 => some (e2 :: es2)
end

/-- Inlining over a list of instance overrides (their expressions). -/
def inlineOverrides (table : LookupTable) (fuel : Nat) :
    List (LambdaParameter × QuintEx) → Option (List (LambdaParameter × QuintEx))
  | [] => some []
  | (p, e) :: rest =>
    match inlineEx table fuel e with
    | none => none
    | some e2 =>
      match inlineOverrides table fuel rest with
      | none => none
      | some rest2 => some ((p, e2) :: rest2)

/-- Inlining over a declaration: every stored type and expression is
rewritten; names, ids and kinds are untouched. -/
def inlineDef (table : LookupTable) (fuel : Nat) : QuintDef → Option QuintDef
  | .opdef od => (inlineOpDef table fuel od).map .opdef
  | .constDef i n a => (inlineTypeOpt table fuel a).map (.constDef i n)
  | .varDef i n a => (inlineTypeOpt table fuel a).map (.varDef i n)
  | .typeDef i n ty => (inlineTypeOpt table fuel ty).map (.typeDef i n)
  | .assumeDef i n ex => (inlineEx table fuel ex).map (.assumeDef i n)
  | .importDef i n p => some (.importDef i n p)
  | .instanceDef i n pn ovr => (inlineOverrides table fuel ovr).map (.instanceDef i n pn)

/-- Inlining over a declaration list. -/
def inlineDefs (table : LookupTable) (fuel : Nat) : List QuintDef → Option (List QuintDef)
  | [] => some []
  | d :: ds =>
    match inlineDef table fuel d with
    | none => none
    | some d2 =>
      match inlineDefs table fuel ds with
      | none => none
      | some ds2 => some (d2 :: ds2)

/-- Inlining over a module: every declaration is rewritten. -/
def inlineModule (table : LookupTable) (fuel : Nat) (m : QuintModule) :
    Option QuintModule :=
  (inlineDefs table fuel m.defs).map (fun ds => { m with defs := ds })

/-- Inlining over a list of modules. -/
def inlineModules (table : LookupTable) (fuel : Nat) :
    List QuintModule → Option (List QuintModule)
  | [] => some []
  | m :: ms =>
    match inlineModule table fuel m with
    | none => none
    | some m2 =>
      match inlineModules table fuel ms with
      | none => none
      | some ms2 => some (m2 :: ms2)

/-- The table rewrite of inlineTypeAliases, entry by entry: an entry
without a type annotation is kept as is; an entry with one gets the
annotation inlined against the full original table. -/
def inlineTableEntries (table : LookupTable) (fuel : Nat) :
    List (Nat × LookupDef) → Option (List (Nat × LookupDef))
  | [] => some []
  | p :: rest =>
    match (match p.2.typeAnn with
           | none => some p
           | some ann =>
             (inlineType table fuel ann).map (fun t => (p.1, ⟨p.2.kind, some t⟩))) with
    | none => none
    | some p2 =>
      match inlineTableEntries table fuel rest with
      | none => none
      | some rest2 => some (p2 :: rest2)

/-- The table rewrite of inlineTypeAliases. -/
def inlineTable (fuel : Nat) (table : LookupTable) : Option LookupTable :=
  inlineTableEntries table fuel table

/-- The inlineTypeAliases entry point: every module is rewritten with the
given table, and the table itself is rewritten entrywise. -/
def inlineTypeAliases (fuel : Nat) (modules : List QuintModule)
    (table : LookupTable) : Option (List QuintModule × LookupTable) :=
  match inlineModules table fuel modules with
  | none => none
  | some ms =>
    match inlineTable fuel table with
    | none => none
    | some tb => some (ms, tb)

/-- Head irresolvability: the node, examined at its head, is not replaced
by resolveAlias (it is not a const type with a truthy id whose table entry
has an annotation). -/
def headIrr (table : LookupTable) : QuintType → Bool
  | .tconst id _ =>
    if id ≠ 0 then
      match table.get id with
      | some d => d.typeAnn.isNone
      | none => true
    else true
  | _ => true

mutual
/-- Full inlinedness of a type: every node is head-irresolvable. -/
def inlinedType (table : LookupTable) : QuintType → Bool
  | .tconst id n => headIrr table (.tconst id n)
  | .tset _ e => inlinedType table e
  | .tlist _ e => inlinedType table e
  | .tfun _ a r => inlinedType table a && inlinedType table r
  | .toper _ args r => inlinedTypeList table args && inlinedType table r
  | .ttup _ f => inlinedRow table f
  | .trec _ f => inlinedRow table f
  | .tunion _ _ records => inlinedRecords table records
  | _ => true

/-- Full inlinedness of a list of types. -/
def inlinedTypeList (table : LookupTable) : List QuintType → Bool
  | [] => true
  | t :: ts => inlinedType table t && inlinedTypeList table ts

/-- Full inlinedness of a row. -/
def inlinedRow (table : LookupTable) : Row → Bool
  | .row fields other => inlinedRowFields table fields && inlinedRow table other
  | _ => true

/-- Full inlinedness of row fields. -/
def inlinedRowFields (table : LookupTable) : List (String × QuintType) → Bool
  | [] => true
  | (_, ft) :: fs => inlinedType table ft && inlinedRowFields table fs

/-- Full inlinedness of union records. -/
def inlinedRecords (table : LookupTable) : List (String × Row) → Bool
  | [] => true
  | (_, r) :: rs => inlinedRow table r && inlinedRecords table rs
end

/-- A three-step acyclic alias chain: id 100 (T1) aliases id 101 (T2),
which aliases id 102 (T3), which aliases int. -/
def chainTable : LookupTable :=
  [(100, ⟨"typedef", some (.tconst 101 "T2")⟩),
   (101, ⟨"typedef", some (.tconst 102 "T3")⟩),
   (102, ⟨"typedef", some (.tint 5)⟩)]

/-- A one-module input whose single type declaration references the head
alias of chainTable. -/
def c8wms : List QuintModule :=
  [⟨1, "m", [.typeDef 50 "T1" (some (.tconst 100 "T1"))]⟩]

/-- The modules produced by inlining c8wms against chainTable. -/
def c8wms2 : List QuintModule :=
  [⟨1, "m", [.typeDef 50 "T1" (some (.tint 5))]⟩]

/-- The table produced by inlining the entries of chainTable. -/
def c8wt2 : LookupTable :=
  [(100, ⟨"typedef", some (.tint 5)⟩),
   (101, ⟨"typedef", some (.tint 5)⟩),
   (102, ⟨"typedef", some (.tint 5)⟩)]

end Quint

namespace Tnt

/-- The identifiers of the built-in definitions of defaultDefinitions
(part_001), in source order; each entry there is a value definition of
kind def with no reference and no scope. -/
def builtinNames : List String :=
  [   "not", "and", "or", "iff", "implies", "exists",
   "guess", "forall", "in", "notin", "union", "contains",
   "fold", "intersect", "exclude", "subseteq", "map", "applyTo",
   "filter", "powerset", "flatten", "allLists", "chooseSome", "isFinite",
   "size", "get", "put", "keys", "mapBy", "setToMap",
   "setOfMaps", "update", "updateAs", "fields", "with", "tuples",
   "append", "concat", "head", "tail", "length", "nth",
   "indices", "replaceAt", "slice", "select", "foldl", "foldr",
   "to", "always", "eventually", "next", "shift", "stutter",
   "nostutter", "enabled", "weakFair", "strongFair", "guarantees", "existsConst",
   "forallConst", "chooseConst", "Bool", "Int", "Nat", "set",
   "mapOf", "list", "range", "tup", "rec", "igt",
   "ilt", "igte", "ilte", "iadd", "isub", "iuminus",
   "imul", "idiv", "imod", "ipow", "actionAll", "actionAny",
   "field", "fieldNames", "item", "match", "assign", "of",
   "eq", "neq", "ite", "cross", "difference"]

/-- A TNT type; the collector stores a type declaration annotation
opaquely, so the flattener AST type is reused for it. -/
abbrev TntType := Quint.QuintType

/-- A named operator definition collected into a table: kind, identifier,
optional reference (the introducing node id) and optional scope (the id
of the enclosing lambda or let), bigints modelled as Nat. -/
structure ValueDefinition where
  kind : String
  identifier : String
  reference : Option Nat
  scope : Option Nat
deriving DecidableEq

/-- A type alias definition collected into a table: the alias identifier,
the aliased type (none for an uninterpreted type) and the optional
reference. -/
structure TypeDefinition where
  identifier : String
  type : Option TntType
  reference : Option Nat

/-- A table cell: the ordered value definitions and type definitions
recorded under one identifier. -/
structure DefinitionTable where
  valueDefinitions : List ValueDefinition
  typeDefinitions : List TypeDefinition

/-- The empty cell created by emptyTable. -/
def emptyTable : DefinitionTable := ⟨[], []⟩

/-- A JavaScript Map from identifier to a DefinitionTable object,
modelled as an insertion-ordered association list from identifier to the
address of a heap cell; distinct maps holding the same address alias the
same cell, as distinct JS Maps can hold the same object. -/
abbrev MapAssoc := List (String × Nat)

/-- The collector state: the heap of DefinitionTable cells, the heap of
identifier maps, the tables map from module name to map address, the
current table (a map address), and the module and scope stacks (head is
the top). Map address 0 holds defaultDefinitions, address 1 the initial
(empty) current table. -/
structure CState where
  cells : List DefinitionTable
  maps : List MapAssoc
  tables : List (String × Nat)
  currentTable : Nat
  moduleStack : List String
  scopeStack : List Nat

/-- The cells of defaultDefinitions: one fresh cell per built-in name,
holding a single unscoped value definition of kind def. -/
def defaultCells : List DefinitionTable :=
  builtinNames.map (fun n => ⟨[⟨"def", n, none, none⟩], []⟩)

/-- The association list of a map whose keys are the given names bound
to consecutive cell addresses starting at the given one. -/
def assocOfNames : List String → Nat → MapAssoc
  | [], _ => []
  | n :: ns, i => (n, i) :: assocOfNames ns (i + 1)

/-- The association list of the defaultDefinitions map: every built-in
name bound to its own cell. -/
def defaultAssoc : MapAssoc := assocOfNames builtinNames 0

/-- The visitor's initial state: the default cells, the default map at
address 0, the initial empty current table at address 1, no module
tables, empty stacks. -/
def initState : CState :=
  ⟨defaultCells, [defaultAssoc, []], [], 1, [], []⟩

/-- Read a map from the heap (total, for a valid address). -/
def getMap (st : CState) (a : Nat) : MapAssoc := st.maps.getD a []

/-- Read a cell from the heap (total, for a valid address). -/
def getCell (st : CState) (a : Nat) : DefinitionTable := st.cells.getD a emptyTable

/-- Overwrite a cell in the heap. -/
def setCell (st : CState) (a : Nat) (c : DefinitionTable) : CState :=
  { st with cells := st.cells.set a c }

/-- Overwrite a map in the heap. -/
def setMap (st : CState) (a : Nat) (m : MapAssoc) : CState :=
  { st with maps := st.maps.set a m }

/-- Push a value definition onto the cell at the given address. -/
def pushValueDef (st : CState) (a : Nat) (v : ValueDefinition) : CState :=
  let cell := getCell st a
  setCell st a ⟨cell.valueDefinitions ++ [v], cell.typeDefinitions⟩

/-- Push a type definition onto the cell at the given address. -/
def pushTypeDef (st : CState) (a : Nat) (t : TypeDefinition) : CState :=
  let cell := getCell st a
  setCell st a ⟨cell.valueDefinitions, cell.typeDefinitions ++ [t]⟩

/-- Allocate a fresh empty cell and bind the identifier to it in the
current table (appended, as a JS Map set of a new key appends). -/
def allocCell (st : CState) (identifier : String) : CState :=
  setMap { st with cells := st.cells ++ [emptyTable] }
    st.currentTable ((getMap st st.currentTable) ++ [(identifier, st.cells.length)])

/-- collectValueDefinition: an identifier that is the anonymous discard
is skipped; otherwise, when the current table has no entry for the
identifier, a fresh empty cell is allocated and bound to it, and the
definition is pushed onto the (possibly shared) cell now recorded for
the identifier - the existing one, or the fresh cell just bound. -/
def collectValueDefinition (st : CState) (kind identifier : String)
    (reference scope : Option Nat) : CState :=
  if identifier = "_" then st
  else
    match (getMap st st.currentTable).lookup identifier with
    | some a => pushValueDef st a ⟨kind, identifier, reference, scope⟩
    | none =>
      pushValueDef (allocCell st identifier) st.cells.length
        ⟨kind, identifier, reference, scope⟩

/-- collectTypeDefinition: as collectValueDefinition but pushing onto the
type definitions of the cell, and without the discard guard. -/
def collectTypeDefinition (st : CState) (identifier : String)
    (type : Option TntType) (reference : Option Nat) : CState :=
  match (getMap st st.currentTable).lookup identifier with
  | some a => pushTypeDef st a ⟨identifier, type, reference⟩
  | none =>
    pushTypeDef (allocCell st identifier) st.cells.length
      ⟨identifier, type, reference⟩

/-- updateCurrentModule: when the module stack is nonempty, the table of
the top module becomes current; if that module has no table yet, a fresh
map is allocated as a shallow copy of defaultDefinitions (same cell
addresses) and recorded in tables. -/
def updateCurrentModule (st : CState) : CState :=
  match st.moduleStack with
  | [] => st
  | name :: _ =>
    match st.tables.lookup name with
    | some maddr => { st with currentTable := maddr }
    | none =>
      let maddr := st.maps.length
      { st with maps := st.maps ++ [getMap st 0],
                tables := st.tables ++ [(name, maddr)],
                currentTable := maddr }

/-- enterModuleDef: push the module name and update the current table. -/
def enterModuleDef (st : CState) (name : String) : CState :=
  updateCurrentModule { st with moduleStack := name :: st.moduleStack }

/-- A bigint scope field is falsy when absent or zero (JS 0n). -/
def falsyScope : Option Nat → Bool
  | none => true
  | some s => s = 0

/-- exitModuleDef: snapshot the inner table's associations, pop the
module stack and restore the outer table; when still inside a module,
copy every value definition with a falsy scope from each inner cell into
the current (outer) table under the inner-name prefix, then record a
module-kind entry for the inner module. -/
def exitModuleDef (st : CState) (name : String) (id : Nat) : CState :=
  let innerAssoc := getMap st st.currentTable
  let st1 := updateCurrentModule { st with moduleStack := st.moduleStack.tail }
  if st1.moduleStack.length > 0 then
    let st2 := innerAssoc.foldl (fun s p =>
      ((getCell s p.2).valueDefinitions.filter (fun d => falsyScope d.scope)).foldl
        (fun s2 d =>
          collectValueDefinition s2 d.kind (name ++ "::" ++ d.identifier) d.reference none)
        s) st1
    collectValueDefinition st2 "module" name (some id) none
  else st1

/-- enterOpDef: a top-level operator definition is unscoped; one visited
with a nonempty scope stack is scoped to the innermost scope id. -/
def enterOpDef (st : CState) (name : String) (id : Nat) : CState :=
  match st.scopeStack with
  | scope :: _ => collectValueDefinition st "def" name (some id) (some scope)
  | [] => collectValueDefinition st "def" name (some id) none

/-- enterLambda: each parameter is recorded as a param definition scoped
to the lambda's own id. -/
def enterLambda (st : CState) (params : List String) (id : Nat) : CState :=
  params.foldl (fun s p => collectValueDefinition s "param" p (some id) (some id)) st

/-- One visitor callback occurrence during the walk of a module. -/
inductive Event where
  | enterModule (name : String)
  | exitModule (name : String) (id : Nat)
  | evar (name : String) (id : Nat)
  | econst (name : String) (id : Nat)
  | eop (name : String) (id : Nat)
  | etype (name : String) (ty : Option TntType) (id : Nat)
  | eassume (name : String) (id : Nat)
  | elambda (params : List String) (id : Nat)
  | eletEnter (id : Nat)
  | eletExit

/-- Dispatch one visitor callback on the state, as the visitor methods
of part_001 do. -/
def step (st : CState) : Event → CState
  | .enterModule name => enterModuleDef st name
  | .exitModule name id => exitModuleDef st name id
  | .evar name id => collectValueDefinition st "var" name (some id) none
  | .econst name id => collectValueDefinition st "const" name (some id) none
  | .eop name id => enterOpDef st name id
  | .etype name ty id => collectTypeDefinition st name ty (some id)
  | .eassume name id => collectValueDefinition st "assumption" name (some id) none
  | .elambda params id => enterLambda st params id
  | .eletEnter id => { st with scopeStack := id :: st.scopeStack }
  | .eletExit => { st with scopeStack := st.scopeStack.tail }

/-- Replay a callback trace from the initial state. -/
def replay (events : List Event) : CState := events.foldl step initState

mutual
/-- A TNT expression: names, literals, applications, lambdas and lets. -/
inductive TntEx where
  | ename (id : Nat) (name : String)
  | elit (id : Nat)
  | eapp (id : Nat) (op : String) (args : List TntEx)
  | elambda (id : Nat) (params : List String) (body : TntEx)
  | elet (id : Nat) (opdef : TntOpDef) (body : TntEx)

/-- A TNT operator definition (kind def): id, name and body. -/
inductive TntOpDef where
  | mk (id : Nat) (name : String) (expr : TntEx)
end

mutual
/-- A TNT module declaration: variables, constants, operator definitions,
type declarations, assumptions, imports and nested modules. -/
inductive TntDef where
  | dvar (id : Nat) (name : String)
  | dconst (id : Nat) (name : String)
  | dop (od : TntOpDef)
  | dtype (id : Nat) (name : String) (ty : Option TntType)
  | dassume (id : Nat) (name : String) (ex : TntEx)
  | dimport (id : Nat)
  | dmodule (m : TntModule)

/-- A TNT module: id, name and declarations. -/
inductive TntModule where
  | mk (id : Nat) (name : String) (defs : List TntDef)
end

/-- The name of a module. -/
def TntModule.name : TntModule → String
  | .mk _ n _ => n

mutual
/-- Modelled from the spec: the callback trace of the IRVisitor walk of
an expression - a lambda fires enterLambda then walks its body; a let
pushes its scope, walks the bound operator and the body, then pops. -/
def eventsOfEx : TntEx → List Event
  | .ename _ _ => []
  | .elit _ => []
  | .eapp _ _ args => eventsOfExList args
  | .elambda id params body => Event.elambda params id :: eventsOfEx body
  | .elet id od body =>
    Event.eletEnter id :: (eventsOfOpDef od ++ eventsOfEx body ++ [Event.eletExit])

/-- The callback trace of a list of expressions, in order. -/
def eventsOfExList : List TntEx → List Event
  | [] => []
  | e :: es => eventsOfEx e ++ eventsOfExList es

/-- The callback trace of an operator definition: enterOpDef, then the
walk of its body. -/
def eventsOfOpDef : TntOpDef → List Event
  | .mk id name expr => Event.eop name id :: eventsOfEx expr
end

mutual
/-- Modelled from the spec: the callback trace of the walk of a
declaration, in document order; imports collect nothing. -/
def eventsOfDef : TntDef → List Event
  | .dvar id name => [Event.evar name id]
  | .dconst id name => [Event.econst name id]
  | .dop od => eventsOfOpDef od
  | .dtype id name ty => [Event.etype name ty id]
  | .dassume id name ex => Event.eassume name id :: eventsOfEx ex
  | .dimport _ => []
  | .dmodule m => eventsOfModule m

/-- The callback trace of a declaration list, in order. -/
def eventsOfDefList : List TntDef → List Event
  | [] => []
  | d :: ds => eventsOfDef d ++ eventsOfDefList ds

/-- The callback trace of a module: enterModuleDef, the declarations in
document order, exitModuleDef. -/
def eventsOfModule : TntModule → List Event
  | .mk id name defs =>
    Event.enterModule name :: (eventsOfDefList defs ++ [Event.exitModule name id])
end

/-- collectDefinitions: walk the module with the collector visitor over
the initial state and return the resulting state (whose tables field is
the visitor's result). -/
def collectDefinitions (m : TntModule) : CState := replay (eventsOfModule m)

/-- The cell recorded for an identifier in the map at the given address,
reading through the heap. -/
def lookupCell (st : CState) (maddr : Nat) (name : String) : Option DefinitionTable :=
  ((getMap st maddr).lookup name).map (getCell st)

/-- The control skeleton of a state transition: tables, current table,
module stack, scope stack and map count are unchanged. -/
def CtrlEq (st st2 : CState) : Prop :=
  st2.tables = st.tables ∧ st2.currentTable = st.currentTable ∧
  st2.moduleStack = st.moduleStack ∧ st2.scopeStack = st.scopeStack ∧
  st2.maps.length = st.maps.length

/-- The collector heap invariant: the defaultDefinitions map at address 0
is never changed, the current table is a valid non-default map, every
module table is a valid non-default map, and every module table records
every built-in name at the same cell address as defaultDefinitions (the
shallow copies share the built-in cells). -/
def Inv (st : CState) : Prop :=
  getMap st 0 = defaultAssoc
  ∧ st.currentTable ≠ 0
  ∧ st.currentTable < st.maps.length
  ∧ (∀ p ∈ st.tables, p.2 ≠ 0 ∧ p.2 < st.maps.length)
  ∧ (∀ p ∈ st.tables, ∀ b ∈ builtinNames,
      (getMap st p.2).lookup b = defaultAssoc.lookup b)

def c4wmod : TntModule := .mk 1 "M" []

def c6xmod : TntModule := .mk 1 "M" [.dtype 5 "_" none]

/-- Every value definition stored in any cell of the heap carries an
identifier other than the anonymous discard. -/
def NoDiscardValues (st : CState) : Prop :=
  ∀ (a : Nat), ∀ v ∈ (getCell st a).valueDefinitions, v.identifier ≠ "_"

/-- State st2 extends st cellwise: every value definition recorded at any
cell address is still recorded there (collection only appends). -/
def ValuesGrow (st st2 : CState) : Prop :=
  ∀ (a : Nat), ∀ v ∈ (getCell st a).valueDefinitions,
    v ∈ (getCell st2 a).valueDefinitions

/-- A root module R holding two nested modules: A declares a module-level
operator named like the built-in head; B declares nothing. -/
def c10mod : TntModule :=
  .mk 1 "R" [.dmodule (.mk 2 "A" [.dop (.mk 7 "head" (.elit 8))]),
             .dmodule (.mk 3 "B" [])]

/-- The collector state right after entering R. -/
def c10st1 : CState :=
  ⟨defaultCells, [defaultAssoc, [], defaultAssoc], [("R", 2)], 2, ["R"], []⟩

/-- The collector state right after entering A. -/
def c10st2 : CState :=
  ⟨defaultCells, [defaultAssoc, [], defaultAssoc, defaultAssoc],
   [("R", 2), ("A", 3)], 3, ["A", "R"], []⟩

/-- The value definition collected for the head operator of module A. -/
def c10vd : ValueDefinition := ⟨"def", "head", some 7, none⟩

/-- The spec-side view of one copied definition: the inner definition
renamed under the inner-module prefix and recorded unscoped. -/
def retagDef (n : String) (d : ValueDefinition) : ValueDefinition :=
  ⟨d.kind, n ++ "::" ++ d.identifier, d.reference, none⟩

/-- The spec-side view of the copies contributed by one inner cell: its
falsy-scope value definitions, renamed and unscoped. -/
def prefixedCopies (n : String) (cell : DefinitionTable) : List ValueDefinition :=
  (cell.valueDefinitions.filter (fun d => falsyScope d.scope)).map (retagDef n)

/-- Push one definition through collectValueDefinition. -/
def applyCvd (s : CState) (d : ValueDefinition) : CState :=
  collectValueDefinition s d.kind d.identifier d.reference d.scope

/-- The spec-side view of everything exitModuleDef copies for inner
module n: the falsy-scope value definitions of every cell of the current
(inner) table, in table order, renamed and unscoped. -/
def exitContribs (st : CState) (n : String) : List ValueDefinition :=
  (getMap st st.currentTable).flatMap (fun p => prefixedCopies n (getCell st p.2))

/-- A collector state about to exit inner module In: the inner table
(map 1) holds a value definition f scoped to id 0, a value definition g
scoped to id 9, and an uninterpreted type definition T; the outer table
(map 2, of module Out) is empty. -/
def c5xstate : CState :=
  ⟨[⟨[⟨"def", "f", some 4, some 0⟩], []⟩,
    ⟨[⟨"def", "g", some 5, some 9⟩], []⟩,
    ⟨[], [⟨"T", none, some 6⟩]⟩],
   [[], [("f", 0), ("g", 1), ("T", 2)], []],
   [("Out", 2)], 1, ["In", "Out"], []⟩

/-- A collector state about to exit inner module In whose inner table
holds a single unscoped variable definition x. -/
def c5wstate : CState :=
  ⟨[⟨[⟨"var", "x", some 4, none⟩], []⟩],
   [[], [("x", 0)], []],
   [("Out", 2)], 1, ["In", "Out"], []⟩

/-- Modelled from the spec: the resolver consumes pure per-module
tables - a mapping from identifier to its DefinitionTable cell per
module - with insertion order, as produced by definition collection. -/
abbrev RTable := List (String × DefinitionTable)

/-- Modelled from the spec: the mapping from module name to its table. -/
abbrev RTableByModule := List (String × RTable)

/-- A resolution error: the unresolved module name, or the unresolved
definition name, exactly one of which is set. -/
structure ImportError where
  moduleName : Option String
  defName : Option String
deriving DecidableEq

/-- Modelled from the spec: the import and instantiation declarations of
the importing module that the resolver processes - a named import
(import M.x, where x may name a definition or a nested module), a
wildcard import (import M.*) and a module instantiation
(N = M(p1 = e1, ...), of which the resolver uses the override names). -/
inductive ImportDecl where
  | importNamed (moduleName : String) (name : String)
  | importAll (moduleName : String)
  | instanceDecl (instName : String) (protoName : String) (overrides : List String)

/-- A cell is exportable when every definition in it is unscoped:
scoped (locally visible) definitions are never exported. -/
def allUnscoped (t : DefinitionTable) : Bool :=
  t.valueDefinitions.all (fun d => d.scope = none)

/-- A cell names a nested module when it holds a module-kind
definition. -/
def isModuleKind (t : DefinitionTable) : Bool :=
  t.valueDefinitions.any (fun d => d.kind = "module")

/-- The exportable entries of a table, renamed under a prefix. -/
def prefixTable (n : String) (t : RTable) : RTable :=
  (t.filter (fun p => allUnscoped p.2)).map (fun p => (n ++ "::" ++ p.1, p.2))

/-- Modelled from the spec: resolve one declaration against the tables,
producing the error entries it contributes and the entries it adds to
the importing module's table. A named import looks up the module, then
the identifier in its table; when the identifier resolves to a nested
module, the nested module's own table is imported under the identifier
prefix, and its absence from the tables is a definition-name error. A
wildcard import copies every exportable entry. An instantiation looks up
the prototype, reports every override name missing from the prototype's
table as a definition-name error, and copies the prototype's exportable
entries renamed under the instance prefix. -/
def resolveDecl (tables : RTableByModule) :
    ImportDecl → List ImportError × RTable
  | .importNamed m x =>
    match tables.lookup m with
    | none => ([⟨some m, none⟩], [])
    | some mt =>
      match mt.lookup x with
      | none => ([⟨none, some x⟩], [])
      | some cell =>
        if isModuleKind cell then
          match tables.lookup x with
          | none => ([⟨none, some x⟩], [])
          | some nt => ([], prefixTable x nt)
        else ([], [(x, cell)])
  | .importAll m =>
    match tables.lookup m with
    | none => ([⟨some m, none⟩], [])
    | some mt => ([], mt.filter (fun p => allUnscoped p.2))
  | .instanceDecl inst proto overrides =>
    match tables.lookup proto with
    | none => ([⟨some proto, none⟩], [])
    | some mt =>
      ((overrides.filter (fun p => (mt.lookup p).isNone)).map
          (fun p => ⟨none, some p⟩),
       prefixTable inst mt)

/-- The errors accumulated over every declaration of the module, in
order - resolution does not stop at the first failure. -/
def importErrors (tables : RTableByModule) (decls : List ImportDecl) :
    List ImportError :=
  decls.flatMap (fun d => (resolveDecl tables d).1)

/-- The table entries accumulated over every declaration. -/
def importAdditions (tables : RTableByModule) (decls : List ImportDecl) : RTable :=
  decls.flatMap (fun d => (resolveDecl tables d).2)

/-- The resolver's result: the updated tables, or the full error list. -/
inductive ResolutionResult where
  | ok (definitions : RTableByModule)
  | err (errors : List ImportError)

/-- Modelled from the spec: resolveImports processes every declaration,
and either returns the tables with the importing module's table extended
by all additions (when no declaration contributed an error), or the full
accumulated error list with no merged table. -/
def resolveImports (name : String) (decls : List ImportDecl)
    (tables : RTableByModule) : ResolutionResult :=
  if (importErrors tables decls).isEmpty then
    .ok (tables.map (fun p =>
      if p.1 = name then (p.1, p.2 ++ importAdditions tables decls) else p))
  else .err (importErrors tables decls)

/-- The importing module's table from the test of resolveImports:
wrapper is empty, test_module defines a, b, scoped c, and the
module-kind entries nested_module and unexisting_module, and
nested_module defines d and scoped e. -/
def c7tables : RTableByModule :=
  [("wrapper", []),
   ("test_module",
     [("a", ⟨[⟨"def", "a", some 1, none⟩], []⟩),
      ("b", ⟨[⟨"def", "b", some 2, none⟩], []⟩),
      ("c", ⟨[⟨"def", "c", some 3, some 10⟩], []⟩),
      ("nested_module", ⟨[⟨"module", "nested_module", some 4, none⟩], []⟩),
      ("unexisting_module", ⟨[⟨"module", "unexisting_module", some 5, none⟩], []⟩)]),
   ("nested_module",
     [("d", ⟨[⟨"def", "d", some 1, none⟩], []⟩),
      ("e", ⟨[⟨"def", "e", some 2, some 10⟩], []⟩)])]

end Tnt

namespace Quint

/-- C1: the claim fails on the code: the seed expression of flatten sorts
the known module ids ascending and then reads JavaScript array index -1,
which is always undefined, so the generator is never seeded above the
maximum id observed across the known modules (first conjunct: the computed
seed is none for every module map). Flattening the concrete two-module
example then mints id 1 for the synthesized declaration N::x — colliding
with the prototype's own declaration id 1 — although the maximum known
module id is 10 and the claim requires every synthesized id to exceed it. -/
theorem c1_seed_not_above_max :
    (∀ modules : List (String × QuintModule), flattenLastId modules = none) ∧
    flatten ⟨20, "W", [.instanceDef 3 "N" "M" []]⟩ []
      [("M", ⟨10, "M", [.varDef 1 "x" none]⟩)] =
      .ok ⟨20, "W", [.varDef 1 "N::x" none]⟩ :=
  ⟨fun _ => rfl, rfl⟩

/-- A non-instance declaration is passed through by the flattening fold. -/
theorem flattenDef_passthrough (ctx : FlatteningContext)
    (ms : List (String × QuintModule)) (acc : List QuintDef) (gen : Nat)
    (d : QuintDef) (h : d.kind ≠ "instance") :
    flattenDef ctx ms (acc, gen) d = .ok (acc ++ [d], gen) := by
  cases d <;> simp_all [flattenDef, QuintDef.kind]

/-- The flattening fold over instance-free declarations appends them
unchanged and leaves the generator untouched. -/
theorem flattenDefs_passthrough (ctx : FlatteningContext)
    (ms : List (String × QuintModule)) (ds : List QuintDef) :
    ∀ (acc : List QuintDef) (gen : Nat), (∀ d ∈ ds, d.kind ≠ "instance") →
    flattenDefs ctx ms ds (acc, gen) = .ok (acc ++ ds, gen) := by
  induction ds with
  | nil => intro acc gen _; simp [flattenDefs]
  | cons d ds ih =>
    intro acc gen h
    rw [flattenDefs, flattenDef_passthrough ctx ms acc gen d (h d (by simp))]
    show flattenDefs ctx ms ds (acc ++ [d], gen) = _
    rw [ih (acc ++ [d]) gen (fun x hx => h x (by simp [hx]))]
    simp

/-- C9: flattening a module that contains no instance declaration is a
no-op: flatten returns the input module itself, with every declaration
unchanged, in the same order, with the same ids. -/
theorem c9_flatten_noop (m : QuintModule) (table : LookupTable)
    (modules : List (String × QuintModule))
    (h : ∀ d ∈ m.defs, d.kind ≠ "instance") :
    flatten m table modules = .ok m := by
  rw [flatten]
  rw [flattenDefs_passthrough _ modules m.defs [] _ h]
  rfl

/-- Witness for C9 at a concrete instance-free module. -/
theorem c9_flatten_noop_witness :
    (∀ d ∈ (⟨1, "A", [QuintDef.varDef 2 "x" none]⟩ : QuintModule).defs,
      d.kind ≠ "instance") ∧
    flatten ⟨1, "A", [QuintDef.varDef 2 "x" none]⟩ [] [] =
      .ok ⟨1, "A", [QuintDef.varDef 2 "x" none]⟩ :=
  ⟨by decide, c9_flatten_noop _ [] [] (by decide)⟩

/-- Replacing a type annotation preserves the declaration's name. -/
theorem withTypeAnn_name (d : QuintDef) (t : QuintType) :
    (d.withTypeAnn t).name = d.name := by
  cases d with
  | opdef od => cases od; rfl
  | constDef i n a => rfl
  | varDef i n a => rfl
  | typeDef i n a => rfl
  | assumeDef i n a => rfl
  | importDef i n p => rfl
  | instanceDef i n p o => rfl

/-- Replacing a type annotation preserves the declaration's kind. -/
theorem withTypeAnn_kind (d : QuintDef) (t : QuintType) :
    (d.withTypeAnn t).kind = d.kind := by
  cases d with
  | opdef od => cases od; rfl
  | constDef i n a => rfl
  | varDef i n a => rfl
  | typeDef i n a => rfl
  | assumeDef i n a => rfl
  | importDef i n p => rfl
  | instanceDef i n p o => rfl

/-- A successfully namespaced operator definition has the prefixed name and
keeps its annotation. -/
theorem addNamespaceToOpDef_shape (ctx : FlatteningContext) (ns : String)
    (od od2 : QuintOpDef) (gen g2 : Nat)
    (h : addNamespaceToOpDef ctx ns od gen = .ok (od2, g2)) :
    od2.name = ns ++ "::" ++ od.name ∧ od2.typeAnn = od.typeAnn := by
  cases od with
  | mk i n q a ex =>
    cases e : addNamespaceToExpr ctx ns ex gen with
    | error err => simp [addNamespaceToOpDef, e] at h
    | ok p =>
      obtain ⟨e2, g3⟩ := p
      simp only [addNamespaceToOpDef, e, nextId, Except.ok.injEq, Prod.mk.injEq] at h
      obtain ⟨rfl, rfl⟩ := h
      simp [QuintOpDef.name, QuintOpDef.typeAnn]

/-- A successfully namespaced declaration keeps its kind and annotatedness;
imports are returned unchanged and every other declaration gets the
prefixed name. -/
theorem addNamespaceToDef_sig (ctx : FlatteningContext) (ns : String)
    (pd newDef : QuintDef) (gen gen2 : Nat)
    (h : addNamespaceToDef ctx ns pd gen = .ok (newDef, gen2)) :
    newDef.kind = pd.kind ∧ isAnnotatedDef newDef = isAnnotatedDef pd ∧
    (pd.kind = "import" → newDef = pd) ∧
    (pd.kind ≠ "import" → newDef.name = ns ++ "::" ++ pd.name) := by
  cases pd with
  | opdef od =>
    rcases h2 : addNamespaceToOpDef ctx ns od gen with err | ⟨od2, g2⟩ <;>
      simp only [addNamespaceToDef, h2] at h
    · exact absurd h (by simp)
    · simp only [Except.ok.injEq, Prod.mk.injEq] at h
      obtain ⟨rfl, rfl⟩ := h
      obtain ⟨hn, ha⟩ := addNamespaceToOpDef_shape ctx ns od od2 gen g2 h2
      simp [QuintDef.kind, isAnnotatedDef, QuintDef.typeAnn, QuintDef.name, hn, ha]
  | assumeDef i n a =>
    cases e : addNamespaceToExpr ctx ns a gen with
    | error err => simp [addNamespaceToDef, e] at h
    | ok p =>
      obtain ⟨a2, g3⟩ := p
      simp only [addNamespaceToDef, e, nextId, Except.ok.injEq, Prod.mk.injEq] at h
      obtain ⟨rfl, rfl⟩ := h
      simp [QuintDef.kind, isAnnotatedDef, QuintDef.typeAnn, QuintDef.name]
  | constDef i n a =>
    simp only [addNamespaceToDef, nextId, Except.ok.injEq, Prod.mk.injEq] at h
    obtain ⟨rfl, rfl⟩ := h
    simp [QuintDef.kind, isAnnotatedDef, QuintDef.typeAnn, QuintDef.name]
  | varDef i n a =>
    simp only [addNamespaceToDef, nextId, Except.ok.injEq, Prod.mk.injEq] at h
    obtain ⟨rfl, rfl⟩ := h
    simp [QuintDef.kind, isAnnotatedDef, QuintDef.typeAnn, QuintDef.name]
  | typeDef i n ty =>
    simp only [addNamespaceToDef, nextId, Except.ok.injEq, Prod.mk.injEq] at h
    obtain ⟨rfl, rfl⟩ := h
    simp [QuintDef.kind, isAnnotatedDef, QuintDef.typeAnn, QuintDef.name]
  | importDef i n p =>
    simp only [addNamespaceToDef, Except.ok.injEq, Prod.mk.injEq] at h
    obtain ⟨rfl, rfl⟩ := h
    simp [QuintDef.kind, QuintDef.name]
  | instanceDef i n pn ov =>
    simp [addNamespaceToDef] at h

/-- Namespacing never produces an instance declaration. -/
theorem addNamespaceToDef_not_instance (ctx : FlatteningContext) (ns : String)
    (pd newDef : QuintDef) (gen gen2 : Nat)
    (h : addNamespaceToDef ctx ns pd gen = .ok (newDef, gen2)) :
    newDef.kind ≠ "instance" := by
  have hs := addNamespaceToDef_sig ctx ns pd newDef gen gen2 h
  cases pd with
  | instanceDef i n pn ov => simp [addNamespaceToDef] at h
  | opdef od => simp_all [QuintDef.kind]
  | constDef i n a => simp_all [QuintDef.kind]
  | varDef i n a => simp_all [QuintDef.kind]
  | typeDef i n a => simp_all [QuintDef.kind]
  | assumeDef i n a => simp_all [QuintDef.kind]
  | importDef i n p => simp_all [QuintDef.kind]

/-- Accumulator name check as signature membership. -/
theorem any_name_eq (acc : List QuintDef) (X : String) :
    (acc.any (fun d => d.name == X)) = true ↔
      X ∈ (defsSignature acc).map Prod.fst := by
  simp only [List.any_eq_true, beq_iff_eq, defsSignature, List.map_map,
    List.mem_map, Function.comp_def]

/-- An import declaration carries no type annotation. -/
theorem kind_import_typeAnn_none (pd : QuintDef) (h : pd.kind = "import") :
    pd.typeAnn = none := by
  cases pd <;> simp_all [QuintDef.kind, QuintDef.typeAnn]

/-- A value in the middle of a duplicate-free list occurs nowhere to its left. -/
theorem nodup_middle_not_mem {α : Type} {l₁ l₂ : List α} {x : α}
    (h : (l₁ ++ x :: l₂).Nodup) : x ∉ l₁ := by
  rcases List.nodup_append.mp h with ⟨_, _, hdisj⟩
  intro hx
  exact (hdisj hx) (by simp)

/-- A declaration of kind instance is an instanceDef node. -/
theorem kind_instance_shape (d : QuintDef) (h : d.kind = "instance") :
    ∃ oid iN iP ovr, d = QuintDef.instanceDef oid iN iP ovr := by
  cases d <;> simp_all [QuintDef.kind]

/-- Non-instance declarations contribute their own name and kind. -/
theorem defSig_non_instance (ms : List (String × QuintModule)) (d : QuintDef)
    (h : d.kind ≠ "instance") : defSig ms d = [(d.name, d.kind)] := by
  cases d <;> simp_all [defSig, QuintDef.kind]

/-- Instance declarations contribute the override block followed by the
prototype block. -/
theorem defSig_instance (ms : List (String × QuintModule)) (oid : Nat)
    (iN iP : String) (ovr : List (LambdaParameter × QuintEx)) :
    defSig ms (.instanceDef oid iN iP ovr) =
      ovr.map (fun po => (iN ++ "::" ++ po.1.name, "def")) ++
        protoSig iN ovr ((List.lookup iP ms).getD ⟨0, "", []⟩).defs := rfl

/-- Successful override processing appends one pureval operator definition
per override, named with the instance prefix. -/
theorem processOverrides_sig (ctx : FlatteningContext) (instName : String) :
    ∀ (ovr : List (LambdaParameter × QuintEx)) (acc : List QuintDef) (gen : Nat)
      (out : List QuintDef × Nat),
    processOverrides ctx instName ovr acc gen = .ok out →
    defsSignature out.1 = defsSignature acc ++
      ovr.map (fun po => (instName ++ "::" ++ po.1.name, "def")) := by
  intro ovr
  induction ovr with
  | nil =>
    intro acc gen out h
    simp only [processOverrides, Except.ok.injEq] at h
    subst h
    simp
  | cons po rest ih =>
    obtain ⟨param, expr⟩ := po
    intro acc gen out h
    rcases hg : ctx.table.get param.id with _ | cd
    · simp [processOverrides, hg] at h
    · simp only [processOverrides, hg] at h
      rcases ha : cd.typeAnn with _ | t <;> simp only [ha] at h
      · have := ih _ _ _ h
        rw [this]
        simp [defsSignature, QuintDef.name, QuintDef.kind, QuintOpDef.name]
      · have := ih _ _ _ h
        rw [this]
        simp [defsSignature, QuintDef.name, QuintDef.kind, QuintOpDef.name]

/-- Override processing only appends operator definitions. -/
theorem processOverrides_noInstance (ctx : FlatteningContext) (instName : String) :
    ∀ (ovr : List (LambdaParameter × QuintEx)) (acc : List QuintDef) (gen : Nat)
      (out : List QuintDef × Nat),
    processOverrides ctx instName ovr acc gen = .ok out →
    (∀ d ∈ acc, d.kind ≠ "instance") → ∀ d ∈ out.1, d.kind ≠ "instance" := by
  intro ovr
  induction ovr with
  | nil =>
    intro acc gen out h hacc
    simp only [processOverrides, Except.ok.injEq] at h
    subst h
    exact hacc
  | cons po rest ih =>
    obtain ⟨param, expr⟩ := po
    intro acc gen out h hacc
    rcases hg : ctx.table.get param.id with _ | cd
    · simp [processOverrides, hg] at h
    · simp only [processOverrides, hg] at h
      rcases ha : cd.typeAnn with _ | t <;> simp only [ha] at h <;>
        refine ih _ _ _ h (fun d hd => ?_) <;>
        rcases List.mem_append.mp hd with hm | hm
      · exact hacc d hm
      · simp only [List.mem_singleton] at hm
        subst hm
        simp [QuintDef.kind]
      · exact hacc d hm
      · simp only [List.mem_singleton] at hm
        subst hm
        simp [QuintDef.kind]

/-- Successful prototype processing appends exactly the protoSig block:
covered declarations are skipped, imports are copied unchanged, everything
else becomes a namespaced copy; the hygiene hypotheses rule out accidental
name collisions with the accumulated block. -/
theorem processProtoDefs_sig (ctx : FlatteningContext) (instName : String)
    (overrides : List (LambdaParameter × QuintEx)) :
    ∀ (pds : List QuintDef) (done : List (String × String))
      (acc : List QuintDef) (gen : Nat) (out : List QuintDef × Nat),
    processProtoDefs ctx instName pds acc gen = .ok out →
    defsSignature acc = done →
    (∀ po ∈ overrides, (instName ++ "::" ++ po.1.name) ∈ done.map Prod.fst) →
    ((done ++ protoSig instName overrides pds).map Prod.fst).Nodup →
    (∀ pd ∈ pds, pd.kind = "import" →
      (overrides.any (fun po => po.1.name == pd.name)) = false →
      (instName ++ "::" ++ pd.name) ∉ (done ++ protoSig instName overrides pds).map Prod.fst) →
    defsSignature out.1 = done ++ protoSig instName overrides pds := by
  intro pds
  induction pds with
  | nil =>
    intro done acc gen out h hdone _ _ _
    simp only [processProtoDefs, Except.ok.injEq] at h
    subst h
    simp [protoSig, hdone]
  | cons pd rest ih =>
    intro done acc gen out h hdone hov hnodup himp
    by_cases hc : (overrides.any (fun po => po.1.name == pd.name)) = true
    · -- covered by an override: the namespaced name is already in acc
      have hb : (acc.any (fun d => d.name == instName ++ "::" ++ pd.name)) = true := by
        rw [any_name_eq, hdone]
        obtain ⟨po, hpo, hname⟩ := by
          simpa only [List.any_eq_true, beq_iff_eq] using hc
        rw [← hname]
        exact hov po hpo
      rw [processProtoDefs, if_pos hb] at h
      have hps : protoSig instName overrides (pd :: rest) =
          protoSig instName overrides rest := by
        simp [protoSig, List.filterMap_cons, hc]
      rw [hps] at hnodup ⊢
      refine ih done acc gen out h hdone hov hnodup (fun q hq hk hnc => ?_)
      have hq2 := himp q (by simp [hq]) hk hnc
      rw [hps] at hq2
      exact hq2
    · -- not covered: a copy is pushed
      simp only [Bool.not_eq_true] at hc
      by_cases hk : pd.kind = "import"
      · -- an import declaration: pushed unchanged, with its own name
        have hA : pd.typeAnn = none := kind_import_typeAnn_none pd hk
        have hps : protoSig instName overrides (pd :: rest) =
            (pd.name, "import") :: protoSig instName overrides rest := by
          simp [protoSig, List.filterMap_cons, hc, hk]
        have hb : (acc.any (fun d => d.name == instName ++ "::" ++ pd.name)) = false := by
          rw [← Bool.not_eq_true, any_name_eq, hdone]
          intro hmem
          exact himp pd (by simp) hk hc (by simp [hmem])
        have hbn : ¬((acc.any (fun d => d.name == instName ++ "::" ++ pd.name)) = true) := by
          simp [hb]
        rw [processProtoDefs, if_neg hbn] at h
        simp only [hA] at h
        rcases hD : addNamespaceToDef ctx instName pd gen with err | ⟨newDef, gen3⟩
        · simp only [hD] at h
          exact (Except.noConfusion h)
        · simp only [hD] at h
          obtain ⟨hkind, hann2, himpEq, hname⟩ :=
            addNamespaceToDef_sig ctx instName pd newDef gen gen3 hD
          have hsig : defsSignature (acc ++ [newDef]) =
              done ++ [(pd.name, "import")] := by
            rw [himpEq hk, ← hdone]
            simp [defsSignature, hk]
          have hres := ih (done ++ [(pd.name, "import")]) (acc ++ [newDef]) gen3 out h hsig
            (fun po hpo => by simp [hov po hpo])
            (by rw [hps] at hnodup; simpa using hnodup)
            (fun q hq hkq hnq => by
              have hq2 := himp q (by simp [hq]) hkq hnq
              rw [hps] at hq2
              simpa using hq2)
          rw [hres, hps]
          simp
      · -- a regular declaration: a namespaced copy is pushed
        have hps : protoSig instName overrides (pd :: rest) =
            (instName ++ "::" ++ pd.name, pd.kind) :: protoSig instName overrides rest := by
          simp [protoSig, List.filterMap_cons, hc, hk]
        have hb : (acc.any (fun d => d.name == instName ++ "::" ++ pd.name)) = false := by
          rw [← Bool.not_eq_true, any_name_eq, hdone]
          rw [hps] at hnodup
          exact nodup_middle_not_mem (by simpa using hnodup)
        have hbn : ¬((acc.any (fun d => d.name == instName ++ "::" ++ pd.name)) = true) := by
          simp [hb]
        rw [processProtoDefs, if_neg hbn] at h
        rcases hA : pd.typeAnn with _ | t
        · simp only [hA] at h
          rcases hD : addNamespaceToDef ctx instName pd gen with err | ⟨newDef, gen3⟩
          · simp only [hD] at h
            exact (Except.noConfusion h)
          · simp only [hD] at h
            obtain ⟨hkind, _, _, hname⟩ :=
              addNamespaceToDef_sig ctx instName pd newDef gen gen3 hD
            have hsig : defsSignature (acc ++ [newDef]) =
                done ++ [(instName ++ "::" ++ pd.name, pd.kind)] := by
              rw [← hdone]
              simp [defsSignature, hname hk, hkind]
            have hres := ih (done ++ [(instName ++ "::" ++ pd.name, pd.kind)])
              (acc ++ [newDef]) gen3 out h hsig
              (fun po hpo => by simp [hov po hpo])
              (by rw [hps] at hnodup; simpa using hnodup)
              (fun q hq hkq hnq => by
                have hq2 := himp q (by simp [hq]) hkq hnq
                rw [hps] at hq2
                simpa using hq2)
            rw [hres, hps]
            simp
        · simp only [hA] at h
          rcases hT : addNamespaceToType ctx instName t gen with ⟨t2, gen2⟩
          simp only [hT] at h
          rcases hD : addNamespaceToDef ctx instName pd gen2 with err | ⟨newDef, gen3⟩
          · simp only [hD] at h
            exact (Except.noConfusion h)
          · simp only [hD] at h
            obtain ⟨hkind, hann2, _, hname⟩ :=
              addNamespaceToDef_sig ctx instName pd newDef gen2 gen3 hD
            have hisA : isAnnotatedDef newDef = true := by
              rw [hann2]
              simp [isAnnotatedDef, hA]
            rw [if_pos hisA] at h
            have hsig : defsSignature (acc ++ [newDef.withTypeAnn t2]) =
                done ++ [(instName ++ "::" ++ pd.name, pd.kind)] := by
              rw [← hdone]
              simp [defsSignature, withTypeAnn_name, withTypeAnn_kind, hname hk, hkind]
            have hres := ih (done ++ [(instName ++ "::" ++ pd.name, pd.kind)])
              (acc ++ [newDef.withTypeAnn t2]) gen3 out h hsig
              (fun po hpo => by simp [hov po hpo])
              (by rw [hps] at hnodup; simpa using hnodup)
              (fun q hq hkq hnq => by
                have hq2 := himp q (by simp [hq]) hkq hnq
                rw [hps] at hq2
                simpa using hq2)
            rw [hres, hps]
            simp

/-- Prototype processing never appends an instance declaration. -/
theorem processProtoDefs_noInstance (ctx : FlatteningContext) (instName : String) :
    ∀ (pds acc : List QuintDef) (gen : Nat) (out : List QuintDef × Nat),
    processProtoDefs ctx instName pds acc gen = .ok out →
    (∀ d ∈ acc, d.kind ≠ "instance") → ∀ d ∈ out.1, d.kind ≠ "instance" := by
  intro pds
  induction pds with
  | nil =>
    intro acc gen out h hacc
    simp only [processProtoDefs, Except.ok.injEq] at h
    subst h
    exact hacc
  | cons pd rest ih =>
    intro acc gen out h hacc
    rw [processProtoDefs] at h
    by_cases hb : (acc.any (fun d => d.name == instName ++ "::" ++ pd.name)) = true
    · rw [if_pos hb] at h
      exact ih _ _ _ h hacc
    · rw [if_neg hb] at h
      rcases hA : pd.typeAnn with _ | t
      · simp only [hA] at h
        rcases hD : addNamespaceToDef ctx instName pd gen with err | ⟨newDef, gen3⟩
        · simp only [hD] at h
          exact Except.noConfusion h
        · simp only [hD] at h
          refine ih _ _ _ h (fun d hd => ?_)
          rcases List.mem_append.mp hd with hm | hm
          · exact hacc d hm
          · simp only [List.mem_singleton] at hm
            subst hm
            exact addNamespaceToDef_not_instance ctx instName pd d gen gen3 hD
      · simp only [hA] at h
        rcases hT : addNamespaceToType ctx instName t gen with ⟨t2, gen2⟩
        simp only [hT] at h
        rcases hD : addNamespaceToDef ctx instName pd gen2 with err | ⟨newDef, gen3⟩
        · simp only [hD] at h
          exact Except.noConfusion h
        · simp only [hD] at h
          by_cases hisA : isAnnotatedDef newDef = true
          · rw [if_pos hisA] at h
            refine ih _ _ _ h (fun d hd => ?_)
            rcases List.mem_append.mp hd with hm | hm
            · exact hacc d hm
            · simp only [List.mem_singleton] at hm
              subst hm
              rw [withTypeAnn_kind]
              exact addNamespaceToDef_not_instance ctx instName pd newDef gen2 gen3 hD
          · rw [if_neg hisA] at h
            exact Except.noConfusion h

/-- One successful flattening step never leaves an instance declaration in
the accumulator. -/
theorem flattenDef_noInstance (ctx : FlatteningContext)
    (ms : List (String × QuintModule)) (acc : List QuintDef) (gen : Nat)
    (d : QuintDef) (out : List QuintDef × Nat)
    (h : flattenDef ctx ms (acc, gen) d = .ok out)
    (hacc : ∀ x ∈ acc, x.kind ≠ "instance") : ∀ x ∈ out.1, x.kind ≠ "instance" := by
  by_cases hinst : d.kind = "instance"
  · obtain ⟨oid, iN, iP, ovr, rfl⟩ := kind_instance_shape d hinst
    simp only [flattenDef] at h
    rcases hL : List.lookup iP ms with _ | pm
    · simp only [hL] at h
      exact Except.noConfusion h
    · simp only [hL] at h
      rcases hO : processOverrides ctx iN ovr acc gen with err | ⟨acc1, gen1⟩
      · simp only [hO] at h
        exact Except.noConfusion h
      · simp only [hO] at h
        exact processProtoDefs_noInstance ctx iN pm.defs acc1 gen1 out h
          (processOverrides_noInstance ctx iN ovr acc gen (acc1, gen1) hO hacc)
  · rw [flattenDef_passthrough ctx ms acc gen d hinst] at h
    simp only [Except.ok.injEq] at h
    subst h
    intro x hx
    rcases List.mem_append.mp hx with hm | hm
    · exact hacc x hm
    · simp only [List.mem_singleton] at hm
      subst hm
      exact hinst

/-- A successful flattening fold leaves no instance declaration. -/
theorem flattenDefs_noInstance (ctx : FlatteningContext)
    (ms : List (String × QuintModule)) :
    ∀ (ds acc : List QuintDef) (gen : Nat) (out : List QuintDef × Nat),
    flattenDefs ctx ms ds (acc, gen) = .ok out →
    (∀ d ∈ acc, d.kind ≠ "instance") → ∀ d ∈ out.1, d.kind ≠ "instance" := by
  intro ds
  induction ds with
  | nil =>
    intro acc gen out h hacc
    simp only [flattenDefs, Except.ok.injEq] at h
    subst h
    exact hacc
  | cons d rest ih =>
    intro acc gen out h hacc
    rw [flattenDefs] at h
    rcases hF : flattenDef ctx ms (acc, gen) d with err | ⟨acc2, gen2⟩
    · simp only [hF] at h
      exact Except.noConfusion h
    · simp only [hF] at h
      exact ih acc2 gen2 out h (flattenDef_noInstance ctx ms acc gen d (acc2, gen2) hF hacc)

/-- A successful flattening fold produces exactly the spec-side signature,
given duplicate-free produced names and fresh import names. -/
theorem flattenDefs_sig (ctx : FlatteningContext)
    (ms : List (String × QuintModule)) :
    ∀ (ds : List QuintDef) (done : List (String × String))
      (acc : List QuintDef) (gen : Nat) (out : List QuintDef × Nat),
    flattenDefs ctx ms ds (acc, gen) = .ok out →
    defsSignature acc = done →
    ((done ++ ds.flatMap (defSig ms)).map Prod.fst).Nodup →
    (∀ oid iN iP ovr, (QuintDef.instanceDef oid iN iP ovr) ∈ ds →
      ∀ pd ∈ ((List.lookup iP ms).getD ⟨0, "", []⟩).defs, pd.kind = "import" →
        (ovr.any (fun po => po.1.name == pd.name)) = false →
        (iN ++ "::" ++ pd.name) ∉ (done ++ ds.flatMap (defSig ms)).map Prod.fst) →
    defsSignature out.1 = done ++ ds.flatMap (defSig ms) := by
  intro ds
  induction ds with
  | nil =>
    intro done acc gen out h hdone _ _
    simp only [flattenDefs, Except.ok.injEq] at h
    subst h
    simp [hdone]
  | cons d rest ih =>
    intro done acc gen out h hdone hnodup hfresh
    rw [flattenDefs] at h
    rcases hF : flattenDef ctx ms (acc, gen) d with err | ⟨acc2, gen2⟩
    · simp only [hF] at h
      exact Except.noConfusion h
    simp only [hF] at h
    by_cases hinst : d.kind = "instance"
    · obtain ⟨oid, iN, iP, ovr, rfl⟩ := kind_instance_shape d hinst
      simp only [flattenDef] at hF
      rcases hL : List.lookup iP ms with _ | pm
      · simp only [hL] at hF
        exact Except.noConfusion hF
      simp only [hL] at hF
      rcases hO : processOverrides ctx iN ovr acc gen with err | ⟨acc1, gen1⟩
      · simp only [hO] at hF
        exact Except.noConfusion hF
      simp only [hO] at hF
      have hsig1 : defsSignature acc1 =
          done ++ ovr.map (fun po => (iN ++ "::" ++ po.1.name, "def")) := by
        have := processOverrides_sig ctx iN ovr acc gen (acc1, gen1) hO
        simpa [hdone] using this
      have hds : (QuintDef.instanceDef oid iN iP ovr :: rest).flatMap (defSig ms) =
          (ovr.map (fun po => (iN ++ "::" ++ po.1.name, "def")) ++
            protoSig iN ovr pm.defs) ++ rest.flatMap (defSig ms) := by
        simp [defSig_instance, hL]
      have hsig2 := processProtoDefs_sig ctx iN ovr pm.defs
        (done ++ ovr.map (fun po => (iN ++ "::" ++ po.1.name, "def")))
        acc1 gen1 (acc2, gen2) hF hsig1
        (fun po hpo => by
          simp only [List.map_append, List.mem_append, List.map_map, List.mem_map,
            Function.comp_def]
          exact Or.inr ⟨po, hpo, rfl⟩)
        (by
          rw [hds] at hnodup
          have hnodup2 : (((done ++ ovr.map (fun po => (iN ++ "::" ++ po.1.name, "def")) ++
              protoSig iN ovr pm.defs).map Prod.fst) ++
              ((rest.flatMap (defSig ms)).map Prod.fst)).Nodup := by
            simpa [List.append_assoc] using hnodup
          simpa [List.append_assoc] using hnodup2.of_append_left)
        (fun pd hpd hk hnc => by
          have hx := hfresh oid iN iP ovr (by simp) pd (by simpa [hL] using hpd) hk hnc
          rw [hds] at hx
          simp only [List.map_append, List.mem_append, not_or] at hx ⊢
          tauto)
      have hres := ih (done ++ (ovr.map (fun po => (iN ++ "::" ++ po.1.name, "def")) ++
          protoSig iN ovr pm.defs)) acc2 gen2 out h
        (by simpa [List.append_assoc] using hsig2)
        (by rw [hds] at hnodup; simpa [List.append_assoc] using hnodup)
        (fun oid2 iN2 iP2 ovr2 hmem pd hpd hk hnc => by
          have hx := hfresh oid2 iN2 iP2 ovr2 (by simp [hmem]) pd hpd hk hnc
          rw [hds] at hx
          simp only [List.map_append, List.mem_append, not_or] at hx ⊢
          tauto)
      rw [hres, hds]
      simp [List.append_assoc]
    · have hFp := flattenDef_passthrough ctx ms acc gen d hinst
      rw [hFp] at hF
      simp only [Except.ok.injEq, Prod.mk.injEq] at hF
      obtain ⟨rfl, rfl⟩ := hF
      have hds : (d :: rest).flatMap (defSig ms) =
          (d.name, d.kind) :: rest.flatMap (defSig ms) := by
        simp [defSig_non_instance ms d hinst]
      have hres := ih (done ++ [(d.name, d.kind)]) (acc ++ [d]) gen out h
        (by rw [← hdone]; simp [defsSignature])
        (by rw [hds] at hnodup; simpa using hnodup)
        (fun oid iN iP ovr hmem pd hpd hk hnc => by
          have hx := hfresh oid iN iP ovr (by simp [hmem]) pd hpd hk hnc
          rw [hds] at hx
          simp only [List.map_append, List.map_cons, List.mem_append,
            List.mem_cons, not_or] at hx ⊢
          tauto)
      rw [hres, hds]
      simp

/-- The Bool hygiene check implies the freshness hypotheses of the fold. -/
theorem importsFresh_spec (ms : List (String × QuintModule)) (m : QuintModule)
    (h : importsFresh ms m = true) :
    ∀ oid iN iP ovr, (QuintDef.instanceDef oid iN iP ovr) ∈ m.defs →
      ∀ pd ∈ ((List.lookup iP ms).getD ⟨0, "", []⟩).defs, pd.kind = "import" →
        (ovr.any (fun po => po.1.name == pd.name)) = false →
        (iN ++ "::" ++ pd.name) ∉ (m.defs.flatMap (defSig ms)).map Prod.fst := by
  intro oid iN iP ovr hmem pd hpd hk _
  simp only [importsFresh, List.all_eq_true] at h
  have h1 := h _ hmem
  simp only at h1
  have h2 := (List.all_eq_true.mp h1) pd hpd
  rw [hk] at h2
  simp only [bne_self_eq_false, Bool.false_or, List.all_eq_true] at h2
  intro hx
  simp only [flattenedSignature] at h2
  obtain ⟨sg, hsg, hfst⟩ := List.mem_map.mp hx
  have := h2 sg hsg
  simp only [bne_iff_ne, ne_eq] at this
  exact this hfst

/-- C2 (amended): when flatten succeeds, its output contains no declaration
of kind instance; and, provided the names of the flattened declarations are
pairwise distinct and no produced name collides with the namespaced form of
a prototype import's name, the output's declaration list consists, name and
kind, of: the original non-instance declarations unchanged, and, for each
instance N = M(overrides), one pureval operator definition per override
named N::param followed by, for every prototype declaration d not covered
by an override, a namespaced copy named N::d of the same kind — except
prototype import declarations, which are copied unchanged without the N::
prefix (the correction the counterexample forces on the original claim). -/
theorem c2_flatten_signature (m : QuintModule) (table : LookupTable)
    (modules : List (String × QuintModule)) (m' : QuintModule)
    (hok : flatten m table modules = .ok m')
    (hnodup : ((flattenedSignature modules m).map Prod.fst).Nodup)
    (hfresh : importsFresh modules m = true) :
    (∀ d ∈ m'.defs, d.kind ≠ "instance") ∧
    defsSignature m'.defs = flattenedSignature modules m := by
  simp only [flatten] at hok
  rcases hF : flattenDefs ⟨table, builtinIdentifiers⟩ modules m.defs
      ([], newIdGenerator (flattenLastId modules)) with err | ⟨defs, g⟩
  · rw [hF] at hok
    exact Except.noConfusion hok
  · rw [hF] at hok
    simp only [Except.ok.injEq] at hok
    have hdefs : m'.defs = defs := by rw [← hok]
    constructor
    · rw [hdefs]
      exact flattenDefs_noInstance ⟨table, builtinIdentifiers⟩ modules m.defs [] _
        (defs, g) hF (by simp)
    · rw [hdefs]
      have := flattenDefs_sig ⟨table, builtinIdentifiers⟩ modules m.defs [] []
        _ (defs, g) hF rfl
        (by simpa [flattenedSignature] using hnodup)
        (fun oid iN iP ovr hmem pd hpd hk hnc => by
          have := importsFresh_spec modules m hfresh oid iN iP ovr hmem pd hpd hk hnc
          simpa using this)
      simpa [flattenedSignature] using this

/-- C2 counterexample: flattening an instance of a prototype that contains
an import declaration copies the import unchanged — the output has no
declaration named with the instance prefix, contradicting the claim that
every prototype declaration d not covered by an override yields a
namespaced copy named N::d. -/
theorem c2_counterexample :
    flatten ⟨20, "W", [.instanceDef 3 "N" "P" []]⟩ []
        [("P", ⟨10, "P", [.importDef 7 "imp" "path"]⟩)] =
      .ok ⟨20, "W", [.importDef 7 "imp" "path"]⟩ ∧
    ([QuintDef.importDef 7 "imp" "path"].all
      (fun d => d.name != "N::imp")) = true :=
  ⟨rfl, rfl⟩

/-- Witness for the amended C2 theorem at a concrete module with one
instance, one override and one inherited prototype declaration. -/
theorem c2_flatten_signature_witness :
    defsSignature c2wout.defs = flattenedSignature [("P", c2wproto)] c2wmod :=
  (c2_flatten_signature c2wmod [(30, ⟨"const", none⟩)] [("P", c2wproto)] c2wout
    rfl (by decide) rfl).2

theorem shouldAddNamespace_err (ctx : FlatteningContext) (name : String)
    (id : Nat) (err : FlattenErr)
    (h : shouldAddNamespace ctx name id = .error err) :
    err = .unknownName id name := by
  rw [shouldAddNamespace] at h
  by_cases hb : name ∈ ctx.builtinNames
  · rw [if_pos hb] at h
    exact Except.noConfusion h
  · rw [if_neg hb] at h
    rcases hg : ctx.table.get id with _ | d <;> simp only [hg] at h
    · simp only [Except.error.injEq] at h
      exact h.symm
    · exact Except.noConfusion h

mutual
theorem addNamespaceToExpr_err (ctx : FlatteningContext) (ns : String) :
    ∀ (e : QuintEx) (gen : Nat) (err : FlattenErr),
    addNamespaceToExpr ctx ns e gen = .error err → ∃ i n, err = .unknownName i n
  | .ename eid n, gen, err => by
    intro h
    simp only [addNamespaceToExpr, nextId] at h
    rcases hs : shouldAddNamespace ctx n eid with e2 | b
    · simp only [hs, Except.error.injEq] at h
      subst h
      exact ⟨eid, n, shouldAddNamespace_err ctx n eid e2 hs⟩
    · simp only [hs] at h
      cases b <;> simp at h
  | .ebool eid v, gen, err => by
    intro h
    rw [addNamespaceToExpr] at h
    simp only [nextId] at h
    exact Except.noConfusion h
  | .eint eid v, gen, err => by
    intro h
    rw [addNamespaceToExpr] at h
    simp only [nextId] at h
    exact Except.noConfusion h
  | .estr eid v, gen, err => by
    intro h
    rw [addNamespaceToExpr] at h
    simp only [nextId] at h
    exact Except.noConfusion h
  | .eapp eid op args, gen, err => by
    intro h
    simp only [addNamespaceToExpr, nextId] at h
    rcases hs : shouldAddNamespace ctx op eid with e2 | b
    · simp only [hs, Except.error.injEq] at h
      subst h
      exact ⟨eid, op, shouldAddNamespace_err ctx op eid e2 hs⟩
    · simp only [hs] at h
      rcases hl : addNamespaceToExprList ctx ns args (gen + 1) with e3 | ⟨es2, g2⟩
      · simp only [hl, Except.error.injEq] at h
        subst h
        exact addNamespaceToExprList_err ctx ns args (gen + 1) e3 hl
      · simp only [hl] at h
        exact Except.noConfusion h
  | .elambda eid params body, gen, err => by
    intro h
    rw [addNamespaceToExpr] at h
    simp only [nextId] at h
    rcases hp : freshParams params (gen + 1) with ⟨ps2, g2⟩
    simp only [hp] at h
    rcases hb : addNamespaceToExpr ctx ns body g2 with e3 | ⟨b2, g3⟩
    · simp only [hb, Except.error.injEq] at h
      subst h
      exact addNamespaceToExpr_err ctx ns body g2 e3 hb
    · simp only [hb] at h
      exact Except.noConfusion h
  | .elet eid od body, gen, err => by
    intro h
    rw [addNamespaceToExpr] at h
    simp only [nextId] at h
    rcases ho : addNamespaceToOpDef ctx ns od (gen + 1) with e3 | ⟨od2, g2⟩
    · simp only [ho, Except.error.injEq] at h
      subst h
      exact addNamespaceToOpDef_err ctx ns od (gen + 1) e3 ho
    · simp only [ho] at h
      rcases hb : addNamespaceToExpr ctx ns body g2 with e4 | ⟨b2, g3⟩
      · simp only [hb, Except.error.injEq] at h
        subst h
        exact addNamespaceToExpr_err ctx ns body g2 e4 hb
      · simp only [hb] at h
        exact Except.noConfusion h

theorem addNamespaceToExprList_err (ctx : FlatteningContext) (ns : String) :
    ∀ (es : List QuintEx) (gen : Nat) (err : FlattenErr),
    addNamespaceToExprList ctx ns es gen = .error err → ∃ i n, err = .unknownName i n
  | [], gen, err => by
    intro h
    rw [addNamespaceToExprList] at h
    exact Except.noConfusion h
  | e :: es, gen, err => by
    intro h
    rw [addNamespaceToExprList] at h
    rcases he : addNamespaceToExpr ctx ns e gen with e2 | ⟨e2v, g2⟩
    · simp only [he, Except.error.injEq] at h
      subst h
      exact addNamespaceToExpr_err ctx ns e gen e2 he
    · simp only [he] at h
      rcases hl : addNamespaceToExprList ctx ns es g2 with e3 | ⟨es2, g3⟩
      · simp only [hl, Except.error.injEq] at h
        subst h
        exact addNamespaceToExprList_err ctx ns es g2 e3 hl
      · simp only [hl] at h
        exact Except.noConfusion h

theorem addNamespaceToOpDef_err (ctx : FlatteningContext) (ns : String) :
    ∀ (od : QuintOpDef) (gen : Nat) (err : FlattenErr),
    addNamespaceToOpDef ctx ns od gen = .error err → ∃ i n, err = .unknownName i n
  | .mk i n q a ex, gen, err => by
    intro h
    rw [addNamespaceToOpDef] at h
    rcases he : addNamespaceToExpr ctx ns ex gen with e2 | ⟨e2v, g2⟩
    · simp only [he, Except.error.injEq] at h
      subst h
      exact addNamespaceToExpr_err ctx ns ex gen e2 he
    · simp only [he] at h
      exact Except.noConfusion h
end

theorem addNamespaceToDef_err (ctx : FlatteningContext) (ns : String)
    (d : QuintDef) (gen : Nat) (err : FlattenErr)
    (h : addNamespaceToDef ctx ns d gen = .error err) :
    (∃ i n, err = .unknownName i n) ∨ err = .instanceInProto := by
  cases d with
  | opdef od =>
    rcases ho : addNamespaceToOpDef ctx ns od gen with e2 | ⟨od2, g2⟩ <;>
      simp only [addNamespaceToDef, ho] at h
    · simp only [Except.error.injEq] at h
      subst h
      exact Or.inl (addNamespaceToOpDef_err ctx ns od gen e2 ho)
    · exact Except.noConfusion h
  | assumeDef i n a =>
    rcases he : addNamespaceToExpr ctx ns a gen with e2 | ⟨a2, g2⟩ <;>
      simp only [addNamespaceToDef, he, nextId] at h
    · simp only [Except.error.injEq] at h
      subst h
      exact Or.inl (addNamespaceToExpr_err ctx ns a gen e2 he)
    · exact Except.noConfusion h
  | constDef i n a =>
    simp only [addNamespaceToDef, nextId] at h
    exact Except.noConfusion h
  | varDef i n a =>
    simp only [addNamespaceToDef, nextId] at h
    exact Except.noConfusion h
  | typeDef i n ty =>
    simp only [addNamespaceToDef, nextId] at h
    exact Except.noConfusion h
  | importDef i n p =>
    simp only [addNamespaceToDef] at h
    exact Except.noConfusion h
  | instanceDef i n pn ov =>
    simp only [addNamespaceToDef, Except.error.injEq] at h
    subst h
    exact Or.inr rfl

theorem processOverrides_ok (ctx : FlatteningContext) (instName : String) :
    ∀ (ovr : List (LambdaParameter × QuintEx)) (acc : List QuintDef) (gen : Nat),
    (∀ po ∈ ovr, (ctx.table.get po.1.id).isSome = true) →
    ∃ out, processOverrides ctx instName ovr acc gen = .ok out := by
  intro ovr
  induction ovr with
  | nil =>
    intro acc gen _
    exact ⟨(acc, gen), rfl⟩
  | cons po rest ih =>
    obtain ⟨param, expr⟩ := po
    intro acc gen hs
    have hp := hs (param, expr) (by simp)
    rcases hg : ctx.table.get param.id with _ | cd
    · rw [hg] at hp
      simp at hp
    · rcases ha : cd.typeAnn with _ | t
      · obtain ⟨out, hout⟩ := ih _ _ (fun q hq => hs q (by simp [hq]))
        exact ⟨out, by simp only [processOverrides, hg, ha]; exact hout⟩
      · obtain ⟨out, hout⟩ := ih _ _ (fun q hq => hs q (by simp [hq]))
        exact ⟨out, by simp only [processOverrides, hg, ha]; exact hout⟩

theorem processProtoDefs_err (ctx : FlatteningContext) (instName : String) :
    ∀ (pds acc : List QuintDef) (gen : Nat) (err : FlattenErr),
    processProtoDefs ctx instName pds acc gen = .error err →
    (∃ i n, err = .unknownName i n) ∨ err = .instanceInProto := by
  intro pds
  induction pds with
  | nil =>
    intro acc gen err h
    rw [processProtoDefs] at h
    exact Except.noConfusion h
  | cons pd rest ih =>
    intro acc gen err h
    rw [processProtoDefs] at h
    by_cases hb : (acc.any (fun d => d.name == instName ++ "::" ++ pd.name)) = true
    · rw [if_pos hb] at h
      exact ih _ _ _ h
    · rw [if_neg hb] at h
      rcases hA : pd.typeAnn with _ | t
      · simp only [hA] at h
        rcases hD : addNamespaceToDef ctx instName pd gen with e2 | ⟨newDef, g2⟩
        · simp only [hD, Except.error.injEq] at h
          subst h
          exact addNamespaceToDef_err ctx instName pd gen e2 hD
        · simp only [hD] at h
          exact ih _ _ _ h
      · simp only [hA] at h
        rcases hT : addNamespaceToType ctx instName t gen with ⟨t2, gen2⟩
        simp only [hT] at h
        rcases hD : addNamespaceToDef ctx instName pd gen2 with e2 | ⟨newDef, g2⟩
        · simp only [hD, Except.error.injEq] at h
          subst h
          exact addNamespaceToDef_err ctx instName pd gen2 e2 hD
        · simp only [hD] at h
          obtain ⟨_, hann2, _, _⟩ := addNamespaceToDef_sig ctx instName pd newDef gen2 g2 hD
          have hisA : isAnnotatedDef newDef = true := by
            rw [hann2]
            simp [isAnnotatedDef, hA]
          rw [if_pos hisA] at h
          exact ih _ _ _ h

theorem flattenDef_err (ctx : FlatteningContext)
    (ms : List (String × QuintModule)) (acc : List QuintDef) (gen : Nat)
    (d : QuintDef) (err : FlattenErr)
    (h : flattenDef ctx ms (acc, gen) d = .error err)
    (hL : ∀ oid iN iP ovr, d = .instanceDef oid iN iP ovr →
      (List.lookup iP ms).isSome = true)
    (hOv : ∀ oid iN iP ovr, d = .instanceDef oid iN iP ovr →
      ∀ po ∈ ovr, (ctx.table.get po.1.id).isSome = true) :
    (∃ i n, err = .unknownName i n) ∨ err = .instanceInProto := by
  by_cases hinst : d.kind = "instance"
  · obtain ⟨oid, iN, iP, ovr, rfl⟩ := kind_instance_shape d hinst
    simp only [flattenDef] at h
    rcases hLk : List.lookup iP ms with _ | pm
    · have := hL oid iN iP ovr rfl
      rw [hLk] at this
      simp at this
    · simp only [hLk] at h
      obtain ⟨out, hout⟩ := processOverrides_ok ctx iN ovr acc gen
        (hOv oid iN iP ovr rfl)
      rcases out with ⟨acc1, gen1⟩
      simp only [hout] at h
      exact processProtoDefs_err ctx iN pm.defs acc1 gen1 err h
  · rw [flattenDef_passthrough ctx ms acc gen d hinst] at h
    exact Except.noConfusion h

theorem flattenDefs_err (ctx : FlatteningContext)
    (ms : List (String × QuintModule)) :
    ∀ (ds acc : List QuintDef) (gen : Nat) (err : FlattenErr),
    flattenDefs ctx ms ds (acc, gen) = .error err →
    (∀ oid iN iP ovr, (QuintDef.instanceDef oid iN iP ovr) ∈ ds →
      (List.lookup iP ms).isSome = true) →
    (∀ oid iN iP ovr, (QuintDef.instanceDef oid iN iP ovr) ∈ ds →
      ∀ po ∈ ovr, (ctx.table.get po.1.id).isSome = true) →
    (∃ i n, err = .unknownName i n) ∨ err = .instanceInProto := by
  intro ds
  induction ds with
  | nil =>
    intro acc gen err h _ _
    rw [flattenDefs] at h
    exact Except.noConfusion h
  | cons d rest ih =>
    intro acc gen err h hL hOv
    rw [flattenDefs] at h
    rcases hF : flattenDef ctx ms (acc, gen) d with e2 | ⟨acc2, gen2⟩
    · simp only [hF, Except.error.injEq] at h
      subst h
      exact flattenDef_err ctx ms acc gen d e2 hF
        (fun oid iN iP ovr hd => hL oid iN iP ovr (by simp [hd]))
        (fun oid iN iP ovr hd => hOv oid iN iP ovr (by simp [hd]))
    · simp only [hF] at h
      exact ih acc2 gen2 err h
        (fun oid iN iP ovr hd => hL oid iN iP ovr (by simp [hd]))
        (fun oid iN iP ovr hd => hOv oid iN iP ovr (by simp [hd]))

/-- C3 (amended): the two listed situations do abort flattening — a
non-builtin reference whose id has no table entry makes shouldAddNamespace
throw the unresolved-reference error, and namespacing an instance
declaration found inside a prototype throws the instance-in-prototype
error; and, provided every instance's prototype is present in the modules
map and every override parameter id has a table entry (the two non-null
assertions of the source, whose failure also crashes the run), these two
situations are the only ones in which flatten returns an error. -/
theorem c3_error_conditions :
    (∀ (ctx : FlatteningContext) (name : String) (id : Nat),
      name ∉ ctx.builtinNames → ctx.table.get id = none →
      shouldAddNamespace ctx name id = .error (.unknownName id name)) ∧
    (∀ (ctx : FlatteningContext) (ns : String) (d : QuintDef) (gen : Nat),
      d.kind = "instance" →
      addNamespaceToDef ctx ns d gen = .error .instanceInProto) ∧
    (∀ (m : QuintModule) (table : LookupTable)
      (modules : List (String × QuintModule)) (e : FlattenErr),
      (∀ oid iN iP ovr, QuintDef.instanceDef oid iN iP ovr ∈ m.defs →
        (List.lookup iP modules).isSome = true) →
      (∀ oid iN iP ovr, QuintDef.instanceDef oid iN iP ovr ∈ m.defs →
        ∀ po ∈ ovr, (LookupTable.get table po.1.id).isSome = true) →
      flatten m table modules = .error e →
      (∃ i n, e = .unknownName i n) ∨ e = .instanceInProto) := by
  refine ⟨?_, ?_, ?_⟩
  · intro ctx name id hb hg
    rw [shouldAddNamespace, if_neg hb, hg]
  · intro ctx ns d gen hk
    obtain ⟨oid, iN, iP, ovr, rfl⟩ := kind_instance_shape d hk
    rfl
  · intro m table modules e hL hOv h
    simp only [flatten] at h
    rcases hF : flattenDefs ⟨table, builtinIdentifiers⟩ modules m.defs
        ([], newIdGenerator (flattenLastId modules)) with err | ⟨defs, g⟩
    · rw [hF] at h
      simp only [Except.error.injEq] at h
      subst h
      exact flattenDefs_err ⟨table, builtinIdentifiers⟩ modules m.defs [] _ _ hF hL hOv
    · rw [hF] at h
      exact Except.noConfusion h

/-- C3 counterexample: with an instance whose prototype module is absent
from the modules map, flatten aborts with the missing-prototype crash (the
non-null assertion on modules.get), an error that is neither of the two
situations listed by the claim. -/
theorem c3_counterexample :
    flatten ⟨20, "W", [.instanceDef 3 "N" "M" []]⟩ [] [] =
      .error (.missingProto "M") ∧
    (FlattenErr.missingProto "M").isListedSituation = false :=
  ⟨rfl, rfl⟩

/-- Witness for C3: concrete runs of all three conjuncts, the third on a
prototype that itself contains an instance. -/
theorem c3_error_conditions_witness :
    shouldAddNamespace ⟨[], []⟩ "z" 5 = .error (.unknownName 5 "z") ∧
    addNamespaceToDef ⟨[], []⟩ "N" (.instanceDef 1 "X" "Y" []) 0 =
      .error .instanceInProto ∧
    ((∃ i n, (FlattenErr.instanceInProto) = FlattenErr.unknownName i n) ∨
      (FlattenErr.instanceInProto) = FlattenErr.instanceInProto) :=
  ⟨c3_error_conditions.1 ⟨[], []⟩ "z" 5 (by decide) rfl,
   c3_error_conditions.2.1 ⟨[], []⟩ "N" (.instanceDef 1 "X" "Y" []) 0 rfl,
   c3_error_conditions.2.2 c3wmod [] [("P", c3wproto)] .instanceInProto
     (by intro oid iN iP ovr hmem; simp only [c3wmod] at hmem; simp at hmem;
         obtain ⟨_, _, h3, _⟩ := hmem; subst h3; rfl)
     (by intro oid iN iP ovr hmem po hpo; simp only [c3wmod] at hmem; simp at hmem;
         obtain ⟨_, _, _, h4⟩ := hmem; subst h4; simp at hpo)
     rfl⟩

theorem resolveAlias_headIrr (table : LookupTable) :
    ∀ (f : Nat) (t t2 : QuintType), resolveAlias table f t = some t2 →
    headIrr table t2 = true := by
  intro f
  induction f with
  | zero =>
    intro t t2 h
    rw [resolveAlias] at h
    exact Option.noConfusion h
  | succ f ih =>
    intro t t2 h
    cases t with
    | tconst id name =>
      simp only [resolveAlias] at h
      by_cases hid : id ≠ 0
      · rw [if_pos hid] at h
        rcases hg : table.get id with _ | d
        · simp only [hg, Option.some.injEq] at h
          subst h
          simp [headIrr, if_pos hid, hg]
        · simp only [hg] at h
          rcases ha : d.typeAnn with _ | ann
          · simp only [ha, Option.some.injEq] at h
            subst h
            simp [headIrr, if_pos hid, hg, ha]
          · simp only [ha] at h
            exact ih ann t2 h
      · rw [if_neg hid] at h
        simp only [Option.some.injEq] at h
        subst h
        simp only [Decidable.not_not] at hid
        simp [headIrr, hid]
    | tbool i =>
      simp only [resolveAlias, Option.some.injEq] at h
      subst h
      simp [headIrr]
    | tint i =>
      simp only [resolveAlias, Option.some.injEq] at h
      subst h
      simp [headIrr]
    | tstr i =>
      simp only [resolveAlias, Option.some.injEq] at h
      subst h
      simp [headIrr]
    | tvar i n =>
      simp only [resolveAlias, Option.some.injEq] at h
      subst h
      simp [headIrr]
    | tset i e =>
      simp only [resolveAlias, Option.some.injEq] at h
      subst h
      simp [headIrr]
    | tlist i e =>
      simp only [resolveAlias, Option.some.injEq] at h
      subst h
      simp [headIrr]
    | tfun i a r =>
      simp only [resolveAlias, Option.some.injEq] at h
      subst h
      simp [headIrr]
    | toper i a r =>
      simp only [resolveAlias, Option.some.injEq] at h
      subst h
      simp [headIrr]
    | ttup i fl =>
      simp only [resolveAlias, Option.some.injEq] at h
      subst h
      simp [headIrr]
    | trec i fl =>
      simp only [resolveAlias, Option.some.injEq] at h
      subst h
      simp [headIrr]
    | tunion i tg rs =>
      simp only [resolveAlias, Option.some.injEq] at h
      subst h
      simp [headIrr]

theorem headIrr_resolveAlias (table : LookupTable) (t : QuintType)
    (h : headIrr table t = true) (f : Nat) :
    resolveAlias table (f + 1) t = some t := by
  cases t with
  | tconst id name =>
    simp only [resolveAlias]
    by_cases hid : id ≠ 0
    · rw [if_pos hid]
      rcases hg : table.get id with _ | d
      · simp
      · simp only [headIrr, if_pos hid, hg] at h
        rcases ha : d.typeAnn with _ | ann
        · simp [ha]
        · rw [ha] at h
          simp at h
    · rw [if_neg hid]
  | tbool i => simp [resolveAlias]
  | tint i => simp [resolveAlias]
  | tstr i => simp [resolveAlias]
  | tvar i n => simp [resolveAlias]
  | tset i e => simp [resolveAlias]
  | tlist i e => simp [resolveAlias]
  | tfun i a r => simp [resolveAlias]
  | toper i a r => simp [resolveAlias]
  | ttup i fl => simp [resolveAlias]
  | trec i fl => simp [resolveAlias]
  | tunion i tg rs => simp [resolveAlias]

mutual
theorem inlineType_inlined (table : LookupTable) :
    ∀ (fuel : Nat) (t t2 : QuintType), inlineType table fuel t = some t2 →
    inlinedType table t2 = true
  | 0, t, t2 => by
    intro h
    rw [inlineType] at h
    exact Option.noConfusion h
  | fuel + 1, t, t2 => by
    intro h
    rw [inlineType] at h
    rcases hr : resolveAlias table (fuel + 1) t with _ | tr
    · simp only [hr] at h
      exact Option.noConfusion h
    · simp only [hr] at h
      have hIrr := resolveAlias_headIrr table (fuel + 1) t tr hr
      cases tr with
      | tbool i =>
        simp only [Option.some.injEq] at h
        subst h
        simp [inlinedType]
      | tint i =>
        simp only [Option.some.injEq] at h
        subst h
        simp [inlinedType]
      | tstr i =>
        simp only [Option.some.injEq] at h
        subst h
        simp [inlinedType]
      | tvar i n =>
        simp only [Option.some.injEq] at h
        subst h
        simp [inlinedType]
      | tconst i n =>
        simp only [Option.some.injEq] at h
        subst h
        simpa [inlinedType] using hIrr
      | tset i e =>
        rcases he : inlineType table fuel e with _ | e2
        · simp only [he] at h
          exact Option.noConfusion h
        · simp only [he, Option.some.injEq] at h
          subst h
          simpa [inlinedType] using inlineType_inlined table fuel e e2 he
      | tlist i e =>
        rcases he : inlineType table fuel e with _ | e2
        · simp only [he] at h
          exact Option.noConfusion h
        · simp only [he, Option.some.injEq] at h
          subst h
          simpa [inlinedType] using inlineType_inlined table fuel e e2 he
      | tfun i a r =>
        rcases ha : inlineType table fuel a with _ | a2
        · simp only [ha] at h
          exact Option.noConfusion h
        · simp only [ha] at h
          rcases hr2 : inlineType table fuel r with _ | r2
          · simp only [hr2] at h
            exact Option.noConfusion h
          · simp only [hr2, Option.some.injEq] at h
            subst h
            simp only [inlinedType, Bool.and_eq_true]
            exact ⟨inlineType_inlined table fuel a a2 ha,
                   inlineType_inlined table fuel r r2 hr2⟩
      | toper i args r =>
        rcases hl : inlineTypeList table fuel args with _ | args2
        · simp only [hl] at h
          exact Option.noConfusion h
        · simp only [hl] at h
          rcases hr2 : inlineType table fuel r with _ | r2
          · simp only [hr2] at h
            exact Option.noConfusion h
          · simp only [hr2, Option.some.injEq] at h
            subst h
            simp only [inlinedType, Bool.and_eq_true]
            exact ⟨inlineTypeList_inlined table fuel args args2 hl,
                   inlineType_inlined table fuel r r2 hr2⟩
      | ttup i fl =>
        rcases hf : inlineRow table fuel fl with _ | f2
        · simp only [hf] at h
          exact Option.noConfusion h
        · simp only [hf, Option.some.injEq] at h
          subst h
          simpa [inlinedType] using inlineRow_inlined table fuel fl f2 hf
      | trec i fl =>
        rcases hf : inlineRow table fuel fl with _ | f2
        · simp only [hf] at h
          exact Option.noConfusion h
        · simp only [hf, Option.some.injEq] at h
          subst h
          simpa [inlinedType] using inlineRow_inlined table fuel fl f2 hf
      | tunion i tg rs =>
        rcases hrs : inlineRecords table fuel rs with _ | rs2
        · simp only [hrs] at h
          exact Option.noConfusion h
        · simp only [hrs, Option.some.injEq] at h
          subst h
          simpa [inlinedType] using inlineRecords_inlined table fuel rs rs2 hrs

theorem inlineTypeList_inlined (table : LookupTable) :
    ∀ (fuel : Nat) (ts ts2 : List QuintType),
    inlineTypeList table fuel ts = some ts2 → inlinedTypeList table ts2 = true
  | fuel, [], ts2 => by
    intro h
    rw [inlineTypeList] at h
    simp only [Option.some.injEq] at h
    subst h
    rfl
  | fuel, t :: ts, ts2 => by
    intro h
    rw [inlineTypeList] at h
    rcases ht : inlineType table fuel t with _ | t2
    · simp only [ht] at h
      exact Option.noConfusion h
    · simp only [ht] at h
      rcases hts : inlineTypeList table fuel ts with _ | ts3
      · simp only [hts] at h
        exact Option.noConfusion h
      · simp only [hts, Option.some.injEq] at h
        subst h
        simp only [inlinedTypeList, Bool.and_eq_true]
        exact ⟨inlineType_inlined table fuel t t2 ht,
               inlineTypeList_inlined table fuel ts ts3 hts⟩

theorem inlineRow_inlined (table : LookupTable) :
    ∀ (fuel : Nat) (r r2 : Row),
    inlineRow table fuel r = some r2 → inlinedRow table r2 = true
  | fuel, .row fields other, r2 => by
    intro h
    rw [inlineRow] at h
    rcases hf : inlineRowFields table fuel fields with _ | fs2
    · simp only [hf] at h
      exact Option.noConfusion h
    · simp only [hf] at h
      rcases ho : inlineRow table fuel other with _ | o2
      · simp only [ho] at h
        exact Option.noConfusion h
      · simp only [ho, Option.some.injEq] at h
        subst h
        simp only [inlinedRow, Bool.and_eq_true]
        exact ⟨inlineRowFields_inlined table fuel fields fs2 hf,
               inlineRow_inlined table fuel other o2 ho⟩
  | fuel, .rvar n, r2 => by
    intro h
    rw [inlineRow] at h
    simp only [Option.some.injEq] at h
    subst h
    rfl
  | fuel, .rempty, r2 => by
    intro h
    rw [inlineRow] at h
    simp only [Option.some.injEq] at h
    subst h
    rfl

theorem inlineRowFields_inlined (table : LookupTable) :
    ∀ (fuel : Nat) (fs fs2 : List (String × QuintType)),
    inlineRowFields table fuel fs = some fs2 → inlinedRowFields table fs2 = true
  | fuel, [], fs2 => by
    intro h
    rw [inlineRowFields] at h
    simp only [Option.some.injEq] at h
    subst h
    rfl
  | fuel, (fn, ft) :: fs, fs2 => by
    intro h
    rw [inlineRowFields] at h
    rcases ht : inlineType table fuel ft with _ | ft2
    · simp only [ht] at h
      exact Option.noConfusion h
    · simp only [ht] at h
      rcases hfs : inlineRowFields table fuel fs with _ | fs3
      · simp only [hfs] at h
        exact Option.noConfusion h
      · simp only [hfs, Option.some.injEq] at h
        subst h
        simp only [inlinedRowFields, Bool.and_eq_true]
        exact ⟨inlineType_inlined table fuel ft ft2 ht,
               inlineRowFields_inlined table fuel fs fs3 hfs⟩

theorem inlineRecords_inlined (table : LookupTable) :
    ∀ (fuel : Nat) (rs rs2 : List (String × Row)),
    inlineRecords table fuel rs = some rs2 → inlinedRecords table rs2 = true
  | fuel, [], rs2 => by
    intro h
    rw [inlineRecords] at h
    simp only [Option.some.injEq] at h
    subst h
    rfl
  | fuel, (tg, r) :: rs, rs2 => by
    intro h
    rw [inlineRecords] at h
    rcases hr : inlineRow table fuel r with _ | r2
    · simp only [hr] at h
      exact Option.noConfusion h
    · simp only [hr] at h
      rcases hrs : inlineRecords table fuel rs with _ | rs3
      · simp only [hrs] at h
        exact Option.noConfusion h
      · simp only [hrs, Option.some.injEq] at h
        subst h
        simp only [inlinedRecords, Bool.and_eq_true]
        exact ⟨inlineRow_inlined table fuel r r2 hr,
               inlineRecords_inlined table fuel rs rs3 hrs⟩
end

theorem inlinedType_headIrr (table : LookupTable) (t : QuintType)
    (h : inlinedType table t = true) : headIrr table t = true := by
  cases t with
  | tconst i n => simpa [inlinedType] using h
  | tbool i => rfl
  | tint i => rfl
  | tstr i => rfl
  | tvar i n => rfl
  | tset i e => rfl
  | tlist i e => rfl
  | tfun i a r => rfl
  | toper i a r => rfl
  | ttup i fl => rfl
  | trec i fl => rfl
  | tunion i tg rs => rfl

mutual
theorem inlined_inlineType (table : LookupTable) :
    ∀ (fuel : Nat) (t t2 : QuintType), inlinedType table t = true →
    inlineType table fuel t = some t2 → t2 = t
  | 0, t, t2 => by
    intro _ h
    rw [inlineType] at h
    exact Option.noConfusion h
  | fuel + 1, t, t2 => by
    intro hin h
    rw [inlineType] at h
    rw [headIrr_resolveAlias table t (inlinedType_headIrr table t hin) fuel] at h
    cases t with
    | tbool i =>
      simp only [Option.some.injEq] at h
      exact h.symm
    | tint i =>
      simp only [Option.some.injEq] at h
      exact h.symm
    | tstr i =>
      simp only [Option.some.injEq] at h
      exact h.symm
    | tvar i n =>
      simp only [Option.some.injEq] at h
      exact h.symm
    | tconst i n =>
      simp only [Option.some.injEq] at h
      exact h.symm
    | tset i e =>
      rcases he : inlineType table fuel e with _ | e2
      · simp only [he] at h
        exact Option.noConfusion h
      · simp only [he, Option.some.injEq] at h
        have := inlined_inlineType table fuel e e2 (by simpa [inlinedType] using hin) he
        rw [← h, this]
    | tlist i e =>
      rcases he : inlineType table fuel e with _ | e2
      · simp only [he] at h
        exact Option.noConfusion h
      · simp only [he, Option.some.injEq] at h
        have := inlined_inlineType table fuel e e2 (by simpa [inlinedType] using hin) he
        rw [← h, this]
    | tfun i a r =>
      simp only [inlinedType, Bool.and_eq_true] at hin
      rcases ha : inlineType table fuel a with _ | a2
      · simp only [ha] at h
        exact Option.noConfusion h
      · simp only [ha] at h
        rcases hr : inlineType table fuel r with _ | r2
        · simp only [hr] at h
          exact Option.noConfusion h
        · simp only [hr, Option.some.injEq] at h
          have h1 := inlined_inlineType table fuel a a2 hin.1 ha
          have h2 := inlined_inlineType table fuel r r2 hin.2 hr
          rw [← h, h1, h2]
    | toper i args r =>
      simp only [inlinedType, Bool.and_eq_true] at hin
      rcases hl : inlineTypeList table fuel args with _ | args2
      · simp only [hl] at h
        exact Option.noConfusion h
      · simp only [hl] at h
        rcases hr : inlineType table fuel r with _ | r2
        · simp only [hr] at h
          exact Option.noConfusion h
        · simp only [hr, Option.some.injEq] at h
          have h1 := inlined_inlineTypeList table fuel args args2 hin.1 hl
          have h2 := inlined_inlineType table fuel r r2 hin.2 hr
          rw [← h, h1, h2]
    | ttup i fl =>
      rcases hf : inlineRow table fuel fl with _ | f2
      · simp only [hf] at h
        exact Option.noConfusion h
      · simp only [hf, Option.some.injEq] at h
        have := inlined_inlineRow table fuel fl f2 (by simpa [inlinedType] using hin) hf
        rw [← h, this]
    | trec i fl =>
      rcases hf : inlineRow table fuel fl with _ | f2
      · simp only [hf] at h
        exact Option.noConfusion h
      · simp only [hf, Option.some.injEq] at h
        have := inlined_inlineRow table fuel fl f2 (by simpa [inlinedType] using hin) hf
        rw [← h, this]
    | tunion i tg rs =>
      rcases hrs : inlineRecords table fuel rs with _ | rs2
      · simp only [hrs] at h
        exact Option.noConfusion h
      · simp only [hrs, Option.some.injEq] at h
        have := inlined_inlineRecords table fuel rs rs2 (by simpa [inlinedType] using hin) hrs
        rw [← h, this]

theorem inlined_inlineTypeList (table : LookupTable) :
    ∀ (fuel : Nat) (ts ts2 : List QuintType), inlinedTypeList table ts = true →
    inlineTypeList table fuel ts = some ts2 → ts2 = ts
  | fuel, [], ts2 => by
    intro _ h
    rw [inlineTypeList] at h
    simp only [Option.some.injEq] at h
    exact h.symm
  | fuel, t :: ts, ts2 => by
    intro hin h
    simp only [inlinedTypeList, Bool.and_eq_true] at hin
    rw [inlineTypeList] at h
    rcases ht : inlineType table fuel t with _ | t2
    · simp only [ht] at h
      exact Option.noConfusion h
    · simp only [ht] at h
      rcases hts : inlineTypeList table fuel ts with _ | ts3
      · simp only [hts] at h
        exact Option.noConfusion h
      · simp only [hts, Option.some.injEq] at h
        have h1 := inlined_inlineType table fuel t t2 hin.1 ht
        have h2 := inlined_inlineTypeList table fuel ts ts3 hin.2 hts
        rw [← h, h1, h2]

theorem inlined_inlineRow (table : LookupTable) :
    ∀ (fuel : Nat) (r r2 : Row), inlinedRow table r = true →
    inlineRow table fuel r = some r2 → r2 = r
  | fuel, .row fields other, r2 => by
    intro hin h
    simp only [inlinedRow, Bool.and_eq_true] at hin
    rw [inlineRow] at h
    rcases hf : inlineRowFields table fuel fields with _ | fs2
    · simp only [hf] at h
      exact Option.noConfusion h
    · simp only [hf] at h
      rcases ho : inlineRow table fuel other with _ | o2
      · simp only [ho] at h
        exact Option.noConfusion h
      · simp only [ho, Option.some.injEq] at h
        have h1 := inlined_inlineRowFields table fuel fields fs2 hin.1 hf
        have h2 := inlined_inlineRow table fuel other o2 hin.2 ho
        rw [← h, h1, h2]
  | fuel, .rvar n, r2 => by
    intro _ h
    rw [inlineRow] at h
    simp only [Option.some.injEq] at h
    exact h.symm
  | fuel, .rempty, r2 => by
    intro _ h
    rw [inlineRow] at h
    simp only [Option.some.injEq] at h
    exact h.symm

theorem inlined_inlineRowFields (table : LookupTable) :
    ∀ (fuel : Nat) (fs fs2 : List (String × QuintType)),
    inlinedRowFields table fs = true →
    inlineRowFields table fuel fs = some fs2 → fs2 = fs
  | fuel, [], fs2 => by
    intro _ h
    rw [inlineRowFields] at h
    simp only [Option.some.injEq] at h
    exact h.symm
  | fuel, (fn, ft) :: fs, fs2 => by
    intro hin h
    simp only [inlinedRowFields, Bool.and_eq_true] at hin
    rw [inlineRowFields] at h
    rcases ht : inlineType table fuel ft with _ | ft2
    · simp only [ht] at h
      exact Option.noConfusion h
    · simp only [ht] at h
      rcases hfs : inlineRowFields table fuel fs with _ | fs3
      · simp only [hfs] at h
        exact Option.noConfusion h
      · simp only [hfs, Option.some.injEq] at h
        have h1 := inlined_inlineType table fuel ft ft2 hin.1 ht
        have h2 := inlined_inlineRowFields table fuel fs fs3 hin.2 hfs
        rw [← h, h1, h2]

theorem inlined_inlineRecords (table : LookupTable) :
    ∀ (fuel : Nat) (rs rs2 : List (String × Row)),
    inlinedRecords table rs = true →
    inlineRecords table fuel rs = some rs2 → rs2 = rs
  | fuel, [], rs2 => by
    intro _ h
    rw [inlineRecords] at h
    simp only [Option.some.injEq] at h
    exact h.symm
  | fuel, (tg, r) :: rs, rs2 => by
    intro hin h
    simp only [inlinedRecords, Bool.and_eq_true] at hin
    rw [inlineRecords] at h
    rcases hr : inlineRow table fuel r with _ | r2
    · simp only [hr] at h
      exact Option.noConfusion h
    · simp only [hr] at h
      rcases hrs : inlineRecords table fuel rs with _ | rs3
      · simp only [hrs] at h
        exact Option.noConfusion h
      · simp only [hrs, Option.some.injEq] at h
        have h1 := inlined_inlineRow table fuel r r2 hin.1 hr
        have h2 := inlined_inlineRecords table fuel rs rs3 hin.2 hrs
        rw [← h, h1, h2]
end

/-- Inlinedness of an optional type. -/
def inlinedTypeOpt (table : LookupTable) : Option QuintType → Bool
  | none => true
  | some t => inlinedType table t

mutual
/-- Inlinedness of an operator definition. -/
def inlinedOpDef (table : LookupTable) : QuintOpDef → Bool
  | .mk _ _ _ a e => inlinedTypeOpt table a && inlinedEx table e

/-- Inlinedness of an expression (its stored annotations). -/
def inlinedEx (table : LookupTable) : QuintEx → Bool
  | .eapp _ _ args => inlinedExList table args
  | .elambda _ _ body => inlinedEx table body
  | .elet _ od body => inlinedOpDef table od && inlinedEx table body
  | _ => true

/-- Inlinedness of a list of expressions. -/
def inlinedExList (table : LookupTable) : List QuintEx → Bool
  | [] => true
  | e :: es => inlinedEx table e && inlinedExList table es
end

/-- Inlinedness of instance overrides. -/
def inlinedOverrides (table : LookupTable) : List (LambdaParameter × QuintEx) → Bool
  | [] => true
  | (_, e) :: rest => inlinedEx table e && inlinedOverrides table rest

/-- Inlinedness of a declaration. -/
def inlinedDef (table : LookupTable) : QuintDef → Bool
  | .opdef od => inlinedOpDef table od
  | .constDef _ _ a => inlinedTypeOpt table a
  | .varDef _ _ a => inlinedTypeOpt table a
  | .typeDef _ _ ty => inlinedTypeOpt table ty
  | .assumeDef _ _ e => inlinedEx table e
  | .importDef _ _ _ => true
  | .instanceDef _ _ _ ovr => inlinedOverrides table ovr

/-- Inlinedness of a declaration list. -/
def inlinedDefs (table : LookupTable) : List QuintDef → Bool
  | [] => true
  | d :: ds => inlinedDef table d && inlinedDefs table ds

theorem inlineTypeOpt_inlined (table : LookupTable) (fuel : Nat) :
    ∀ (a a2 : Option QuintType), inlineTypeOpt table fuel a = some a2 →
    inlinedTypeOpt table a2 = true := by
  intro a a2 h
  cases a with
  | none =>
    simp only [inlineTypeOpt, Option.some.injEq] at h
    subst h
    rfl
  | some t =>
    simp only [inlineTypeOpt, Option.map_eq_some'] at h
    obtain ⟨t2, ht, rfl⟩ := h
    simpa [inlinedTypeOpt] using inlineType_inlined table fuel t t2 ht

theorem inlined_inlineTypeOpt (table : LookupTable) (fuel : Nat) :
    ∀ (a a2 : Option QuintType), inlinedTypeOpt table a = true →
    inlineTypeOpt table fuel a = some a2 → a2 = a := by
  intro a a2 hin h
  cases a with
  | none =>
    simp only [inlineTypeOpt, Option.some.injEq] at h
    exact h.symm
  | some t =>
    simp only [inlineTypeOpt, Option.map_eq_some'] at h
    obtain ⟨t2, ht, rfl⟩ := h
    rw [inlined_inlineType table fuel t t2 (by simpa [inlinedTypeOpt] using hin) ht]

mutual
theorem inlineOpDef_inlined (table : LookupTable) :
    ∀ (fuel : Nat) (od od2 : QuintOpDef), inlineOpDef table fuel od = some od2 →
    inlinedOpDef table od2 = true
  | fuel, .mk i n q a ex, od2 => by
    intro h
    rw [inlineOpDef] at h
    rcases ha : inlineTypeOpt table fuel a with _ | a2
    · simp only [ha] at h
      exact Option.noConfusion h
    · simp only [ha] at h
      rcases he : inlineEx table fuel ex with _ | ex2
      · simp only [he] at h
        exact Option.noConfusion h
      · simp only [he, Option.some.injEq] at h
        subst h
        simp only [inlinedOpDef, Bool.and_eq_true]
        exact ⟨inlineTypeOpt_inlined table fuel a a2 ha,
               inlineEx_inlined table fuel ex ex2 he⟩

theorem inlineEx_inlined (table : LookupTable) :
    ∀ (fuel : Nat) (e e2 : QuintEx), inlineEx table fuel e = some e2 →
    inlinedEx table e2 = true
  | fuel, .ename i n, e2 => by
    intro h
    rw [inlineEx] at h
    simp only [Option.some.injEq] at h
    subst h
    rfl
  | fuel, .ebool i v, e2 => by
    intro h
    rw [inlineEx] at h
    simp only [Option.some.injEq] at h
    subst h
    rfl
  | fuel, .eint i v, e2 => by
    intro h
    rw [inlineEx] at h
    simp only [Option.some.injEq] at h
    subst h
    rfl
  | fuel, .estr i v, e2 => by
    intro h
    rw [inlineEx] at h
    simp only [Option.some.injEq] at h
    subst h
    rfl
  | fuel, .eapp i op args, e2 => by
    intro h
    rw [inlineEx] at h
    rcases hl : inlineExList table fuel args with _ | args2
    · simp only [hl] at h
      exact Option.noConfusion h
    · simp only [hl, Option.some.injEq] at h
      subst h
      simpa [inlinedEx] using inlineExList_inlined table fuel args args2 hl
  | fuel, .elambda i ps body, e2 => by
    intro h
    rw [inlineEx] at h
    rcases hb : inlineEx table fuel body with _ | b2
    · simp only [hb] at h
      exact Option.noConfusion h
    · simp only [hb, Option.some.injEq] at h
      subst h
      simpa [inlinedEx] using inlineEx_inlined table fuel body b2 hb
  | fuel, .elet i od body, e2 => by
    intro h
    rw [inlineEx] at h
    rcases ho : inlineOpDef table fuel od with _ | od2
    · simp only [ho] at h
      exact Option.noConfusion h
    · simp only [ho] at h
      rcases hb : inlineEx table fuel body with _ | b2
      · simp only [hb] at h
        exact Option.noConfusion h
      · simp only [hb, Option.some.injEq] at h
        subst h
        simp only [inlinedEx, Bool.and_eq_true]
        exact ⟨inlineOpDef_inlined table fuel od od2 ho,
               inlineEx_inlined table fuel body b2 hb⟩

theorem inlineExList_inlined (table : LookupTable) :
    ∀ (fuel : Nat) (es es2 : List QuintEx), inlineExList table fuel es = some es2 →
    inlinedExList table es2 = true
  | fuel, [], es2 => by
    intro h
    rw [inlineExList] at h
    simp only [Option.some.injEq] at h
    subst h
    rfl
  | fuel, e :: es, es2 => by
    intro h
    rw [inlineExList] at h
    rcases he : inlineEx table fuel e with _ | e2
    · simp only [he] at h
      exact Option.noConfusion h
    · simp only [he] at h
      rcases hes : inlineExList table fuel es with _ | es3
      · simp only [hes] at h
        exact Option.noConfusion h
      · simp only [hes, Option.some.injEq] at h
        subst h
        simp only [inlinedExList, Bool.and_eq_true]
        exact ⟨inlineEx_inlined table fuel e e2 he,
               inlineExList_inlined table fuel es es3 hes⟩
end

mutual
theorem inlined_inlineOpDef (table : LookupTable) :
    ∀ (fuel : Nat) (od od2 : QuintOpDef), inlinedOpDef table od = true →
    inlineOpDef table fuel od = some od2 → od2 = od
  | fuel, .mk i n q a ex, od2 => by
    intro hin h
    simp only [inlinedOpDef, Bool.and_eq_true] at hin
    rw [inlineOpDef] at h
    rcases ha : inlineTypeOpt table fuel a with _ | a2
    · simp only [ha] at h
      exact Option.noConfusion h
    · simp only [ha] at h
      rcases he : inlineEx table fuel ex with _ | ex2
      · simp only [he] at h
        exact Option.noConfusion h
      · simp only [he, Option.some.injEq] at h
        have h1 := inlined_inlineTypeOpt table fuel a a2 hin.1 ha
        have h2 := inlined_inlineEx table fuel ex ex2 hin.2 he
        rw [← h, h1, h2]

theorem inlined_inlineEx (table : LookupTable) :
    ∀ (fuel : Nat) (e e2 : QuintEx), inlinedEx table e = true →
    inlineEx table fuel e = some e2 → e2 = e
  | fuel, .ename i n, e2 => by
    intro _ h
    rw [inlineEx] at h
    simp only [Option.some.injEq] at h
    exact h.symm
  | fuel, .ebool i v, e2 => by
    intro _ h
    rw [inlineEx] at h
    simp only [Option.some.injEq] at h
    exact h.symm
  | fuel, .eint i v, e2 => by
    intro _ h
    rw [inlineEx] at h
    simp only [Option.some.injEq] at h
    exact h.symm
  | fuel, .estr i v, e2 => by
    intro _ h
    rw [inlineEx] at h
    simp only [Option.some.injEq] at h
    exact h.symm
  | fuel, .eapp i op args, e2 => by
    intro hin h
    rw [inlineEx] at h
    rcases hl : inlineExList table fuel args with _ | args2
    · simp only [hl] at h
      exact Option.noConfusion h
    · simp only [hl, Option.some.injEq] at h
      have h1 := inlined_inlineExList table fuel args args2
        (by simpa [inlinedEx] using hin) hl
      rw [← h, h1]
  | fuel, .elambda i ps body, e2 => by
    intro hin h
    rw [inlineEx] at h
    rcases hb : inlineEx table fuel body with _ | b2
    · simp only [hb] at h
      exact Option.noConfusion h
    · simp only [hb, Option.some.injEq] at h
      have h1 := inlined_inlineEx table fuel body b2
        (by simpa [inlinedEx] using hin) hb
      rw [← h, h1]
  | fuel, .elet i od body, e2 => by
    intro hin h
    simp only [inlinedEx, Bool.and_eq_true] at hin
    rw [inlineEx] at h
    rcases ho : inlineOpDef table fuel od with _ | od2
    · simp only [ho] at h
      exact Option.noConfusion h
    · simp only [ho] at h
      rcases hb : inlineEx table fuel body with _ | b2
      · simp only [hb] at h
        exact Option.noConfusion h
      · simp only [hb, Option.some.injEq] at h
        have h1 := inlined_inlineOpDef table fuel od od2 hin.1 ho
        have h2 := inlined_inlineEx table fuel body b2 hin.2 hb
        rw [← h, h1, h2]

theorem inlined_inlineExList (table : LookupTable) :
    ∀ (fuel : Nat) (es es2 : List QuintEx), inlinedExList table es = true →
    inlineExList table fuel es = some es2 → es2 = es
  | fuel, [], es2 => by
    intro _ h
    rw [inlineExList] at h
    simp only [Option.some.injEq] at h
    exact h.symm
  | fuel, e :: es, es2 => by
    intro hin h
    simp only [inlinedExList, Bool.and_eq_true] at hin
    rw [inlineExList] at h
    rcases he : inlineEx table fuel e with _ | e2
    · simp only [he] at h
      exact Option.noConfusion h
    · simp only [he] at h
      rcases hes : inlineExList table fuel es with _ | es3
      · simp only [hes] at h
        exact Option.noConfusion h
      · simp only [hes, Option.some.injEq] at h
        have h1 := inlined_inlineEx table fuel e e2 hin.1 he
        have h2 := inlined_inlineExList table fuel es es3 hin.2 hes
        rw [← h, h1, h2]
end

theorem inlineOverrides_inlined (table : LookupTable) (fuel : Nat) :
    ∀ (ovr ovr2 : List (LambdaParameter × QuintEx)),
    inlineOverrides table fuel ovr = some ovr2 → inlinedOverrides table ovr2 = true := by
  intro ovr
  induction ovr with
  | nil =>
    intro ovr2 h
    rw [inlineOverrides] at h
    simp only [Option.some.injEq] at h
    subst h
    rfl
  | cons pe rest ih =>
    obtain ⟨p, e⟩ := pe
    intro ovr2 h
    rw [inlineOverrides] at h
    rcases he : inlineEx table fuel e with _ | e2
    · simp only [he] at h
      exact Option.noConfusion h
    · simp only [he] at h
      rcases hr : inlineOverrides table fuel rest with _ | rest2
      · simp only [hr] at h
        exact Option.noConfusion h
      · simp only [hr, Option.some.injEq] at h
        subst h
        simp only [inlinedOverrides, Bool.and_eq_true]
        exact ⟨inlineEx_inlined table fuel e e2 he, ih rest2 hr⟩

theorem inlined_inlineOverrides (table : LookupTable) (fuel : Nat) :
    ∀ (ovr ovr2 : List (LambdaParameter × QuintEx)),
    inlinedOverrides table ovr = true →
    inlineOverrides table fuel ovr = some ovr2 → ovr2 = ovr := by
  intro ovr
  induction ovr with
  | nil =>
    intro ovr2 _ h
    rw [inlineOverrides] at h
    simp only [Option.some.injEq] at h
    exact h.symm
  | cons pe rest ih =>
    obtain ⟨p, e⟩ := pe
    intro ovr2 hin h
    simp only [inlinedOverrides, Bool.and_eq_true] at hin
    rw [inlineOverrides] at h
    rcases he : inlineEx table fuel e with _ | e2
    · simp only [he] at h
      exact Option.noConfusion h
    · simp only [he] at h
      rcases hr : inlineOverrides table fuel rest with _ | rest2
      · simp only [hr] at h
        exact Option.noConfusion h
      · simp only [hr, Option.some.injEq] at h
        have h1 := inlined_inlineEx table fuel e e2 hin.1 he
        have h2 := ih rest2 hin.2 hr
        rw [← h, h1, h2]

theorem inlineDef_inlined (table : LookupTable) (fuel : Nat) :
    ∀ (d d2 : QuintDef), inlineDef table fuel d = some d2 →
    inlinedDef table d2 = true := by
  intro d d2 h
  cases d with
  | opdef od =>
    simp only [inlineDef, Option.map_eq_some'] at h
    obtain ⟨od2, ho, rfl⟩ := h
    simpa [inlinedDef] using inlineOpDef_inlined table fuel od od2 ho
  | constDef i n a =>
    simp only [inlineDef, Option.map_eq_some'] at h
    obtain ⟨a2, ha, rfl⟩ := h
    simpa [inlinedDef] using inlineTypeOpt_inlined table fuel a a2 ha
  | varDef i n a =>
    simp only [inlineDef, Option.map_eq_some'] at h
    obtain ⟨a2, ha, rfl⟩ := h
    simpa [inlinedDef] using inlineTypeOpt_inlined table fuel a a2 ha
  | typeDef i n ty =>
    simp only [inlineDef, Option.map_eq_some'] at h
    obtain ⟨a2, ha, rfl⟩ := h
    simpa [inlinedDef] using inlineTypeOpt_inlined table fuel ty a2 ha
  | assumeDef i n e =>
    simp only [inlineDef, Option.map_eq_some'] at h
    obtain ⟨e2, he, rfl⟩ := h
    simpa [inlinedDef] using inlineEx_inlined table fuel e e2 he
  | importDef i n p =>
    simp only [inlineDef, Option.some.injEq] at h
    subst h
    rfl
  | instanceDef i n pn ovr =>
    simp only [inlineDef, Option.map_eq_some'] at h
    obtain ⟨ovr2, ho, rfl⟩ := h
    simpa [inlinedDef] using inlineOverrides_inlined table fuel ovr ovr2 ho

theorem inlined_inlineDef (table : LookupTable) (fuel : Nat) :
    ∀ (d d2 : QuintDef), inlinedDef table d = true →
    inlineDef table fuel d = some d2 → d2 = d := by
  intro d d2 hin h
  cases d with
  | opdef od =>
    simp only [inlineDef, Option.map_eq_some'] at h
    obtain ⟨od2, ho, rfl⟩ := h
    rw [inlined_inlineOpDef table fuel od od2 (by simpa [inlinedDef] using hin) ho]
  | constDef i n a =>
    simp only [inlineDef, Option.map_eq_some'] at h
    obtain ⟨a2, ha, rfl⟩ := h
    rw [inlined_inlineTypeOpt table fuel a a2 (by simpa [inlinedDef] using hin) ha]
  | varDef i n a =>
    simp only [inlineDef, Option.map_eq_some'] at h
    obtain ⟨a2, ha, rfl⟩ := h
    rw [inlined_inlineTypeOpt table fuel a a2 (by simpa [inlinedDef] using hin) ha]
  | typeDef i n ty =>
    simp only [inlineDef, Option.map_eq_some'] at h
    obtain ⟨a2, ha, rfl⟩ := h
    rw [inlined_inlineTypeOpt table fuel ty a2 (by simpa [inlinedDef] using hin) ha]
  | assumeDef i n e =>
    simp only [inlineDef, Option.map_eq_some'] at h
    obtain ⟨e2, he, rfl⟩ := h
    rw [inlined_inlineEx table fuel e e2 (by simpa [inlinedDef] using hin) he]
  | importDef i n p =>
    simp only [inlineDef, Option.some.injEq] at h
    exact h.symm
  | instanceDef i n pn ovr =>
    simp only [inlineDef, Option.map_eq_some'] at h
    obtain ⟨ovr2, ho, rfl⟩ := h
    rw [inlined_inlineOverrides table fuel ovr ovr2 (by simpa [inlinedDef] using hin) ho]

theorem inlineDefs_inlined (table : LookupTable) (fuel : Nat) :
    ∀ (ds ds2 : List QuintDef), inlineDefs table fuel ds = some ds2 →
    inlinedDefs table ds2 = true := by
  intro ds
  induction ds with
  | nil =>
    intro ds2 h
    rw [inlineDefs] at h
    simp only [Option.some.injEq] at h
    subst h
    rfl
  | cons d rest ih =>
    intro ds2 h
    rw [inlineDefs] at h
    rcases hd : inlineDef table fuel d with _ | d2
    · simp only [hd] at h
      exact Option.noConfusion h
    · simp only [hd] at h
      rcases hr : inlineDefs table fuel rest with _ | rest2
      · simp only [hr] at h
        exact Option.noConfusion h
      · simp only [hr, Option.some.injEq] at h
        subst h
        simp only [inlinedDefs, Bool.and_eq_true]
        exact ⟨inlineDef_inlined table fuel d d2 hd, ih rest2 hr⟩

theorem inlined_inlineDefs (table : LookupTable) (fuel : Nat) :
    ∀ (ds ds2 : List QuintDef), inlinedDefs table ds = true →
    inlineDefs table fuel ds = some ds2 → ds2 = ds := by
  intro ds
  induction ds with
  | nil =>
    intro ds2 _ h
    rw [inlineDefs] at h
    simp only [Option.some.injEq] at h
    exact h.symm
  | cons d rest ih =>
    intro ds2 hin h
    simp only [inlinedDefs, Bool.and_eq_true] at hin
    rw [inlineDefs] at h
    rcases hd : inlineDef table fuel d with _ | d2
    · simp only [hd] at h
      exact Option.noConfusion h
    · simp only [hd] at h
      rcases hr : inlineDefs table fuel rest with _ | rest2
      · simp only [hr] at h
        exact Option.noConfusion h
      · simp only [hr, Option.some.injEq] at h
        have h1 := inlined_inlineDef table fuel d d2 hin.1 hd
        have h2 := ih rest2 hin.2 hr
        rw [← h, h1, h2]

mutual
theorem inlinedType_congr (tb1 tb2 : LookupTable)
    (hh : ∀ t, headIrr tb2 t = headIrr tb1 t) :
    ∀ t, inlinedType tb2 t = inlinedType tb1 t
  | .tconst i n => by simp only [inlinedType]; exact hh _
  | .tbool i => rfl
  | .tint i => rfl
  | .tstr i => rfl
  | .tvar i n => rfl
  | .tset i e => by
    simp only [inlinedType]
    exact inlinedType_congr tb1 tb2 hh e
  | .tlist i e => by
    simp only [inlinedType]
    exact inlinedType_congr tb1 tb2 hh e
  | .tfun i a r => by
    simp only [inlinedType]
    rw [inlinedType_congr tb1 tb2 hh a, inlinedType_congr tb1 tb2 hh r]
  | .toper i args r => by
    simp only [inlinedType]
    rw [inlinedTypeList_congr tb1 tb2 hh args, inlinedType_congr tb1 tb2 hh r]
  | .ttup i fl => by
    simp only [inlinedType]
    exact inlinedRow_congr tb1 tb2 hh fl
  | .trec i fl => by
    simp only [inlinedType]
    exact inlinedRow_congr tb1 tb2 hh fl
  | .tunion i tg rs => by
    simp only [inlinedType]
    exact inlinedRecords_congr tb1 tb2 hh rs

theorem inlinedTypeList_congr (tb1 tb2 : LookupTable)
    (hh : ∀ t, headIrr tb2 t = headIrr tb1 t) :
    ∀ ts, inlinedTypeList tb2 ts = inlinedTypeList tb1 ts
  | [] => rfl
  | t :: ts => by
    simp only [inlinedTypeList]
    rw [inlinedType_congr tb1 tb2 hh t, inlinedTypeList_congr tb1 tb2 hh ts]

theorem inlinedRow_congr (tb1 tb2 : LookupTable)
    (hh : ∀ t, headIrr tb2 t = headIrr tb1 t) :
    ∀ r, inlinedRow tb2 r = inlinedRow tb1 r
  | .row fields other => by
    simp only [inlinedRow]
    rw [inlinedRowFields_congr tb1 tb2 hh fields, inlinedRow_congr tb1 tb2 hh other]
  | .rvar n => rfl
  | .rempty => rfl

theorem inlinedRowFields_congr (tb1 tb2 : LookupTable)
    (hh : ∀ t, headIrr tb2 t = headIrr tb1 t) :
    ∀ fs, inlinedRowFields tb2 fs = inlinedRowFields tb1 fs
  | [] => rfl
  | (fn, ft) :: fs => by
    simp only [inlinedRowFields]
    rw [inlinedType_congr tb1 tb2 hh ft, inlinedRowFields_congr tb1 tb2 hh fs]

theorem inlinedRecords_congr (tb1 tb2 : LookupTable)
    (hh : ∀ t, headIrr tb2 t = headIrr tb1 t) :
    ∀ rs, inlinedRecords tb2 rs = inlinedRecords tb1 rs
  | [] => rfl
  | (tg, r) :: rs => by
    simp only [inlinedRecords]
    rw [inlinedRow_congr tb1 tb2 hh r, inlinedRecords_congr tb1 tb2 hh rs]
end

theorem inlinedTypeOpt_congr (tb1 tb2 : LookupTable)
    (hh : ∀ t, headIrr tb2 t = headIrr tb1 t) :
    ∀ a, inlinedTypeOpt tb2 a = inlinedTypeOpt tb1 a := by
  intro a
  cases a with
  | none => rfl
  | some t => simpa [inlinedTypeOpt] using inlinedType_congr tb1 tb2 hh t

mutual
theorem inlinedOpDef_congr (tb1 tb2 : LookupTable)
    (hh : ∀ t, headIrr tb2 t = headIrr tb1 t) :
    ∀ od, inlinedOpDef tb2 od = inlinedOpDef tb1 od
  | .mk i n q a e => by
    simp only [inlinedOpDef]
    rw [inlinedTypeOpt_congr tb1 tb2 hh a, inlinedEx_congr tb1 tb2 hh e]

theorem inlinedEx_congr (tb1 tb2 : LookupTable)
    (hh : ∀ t, headIrr tb2 t = headIrr tb1 t) :
    ∀ e, inlinedEx tb2 e = inlinedEx tb1 e
  | .ename i n => rfl
  | .ebool i v => rfl
  | .eint i v => rfl
  | .estr i v => rfl
  | .eapp i op args => by
    simp only [inlinedEx]
    exact inlinedExList_congr tb1 tb2 hh args
  | .elambda i ps body => by
    simp only [inlinedEx]
    exact inlinedEx_congr tb1 tb2 hh body
  | .elet i od body => by
    simp only [inlinedEx]
    rw [inlinedOpDef_congr tb1 tb2 hh od, inlinedEx_congr tb1 tb2 hh body]

theorem inlinedExList_congr (tb1 tb2 : LookupTable)
    (hh : ∀ t, headIrr tb2 t = headIrr tb1 t) :
    ∀ es, inlinedExList tb2 es = inlinedExList tb1 es
  | [] => rfl
  | e :: es => by
    simp only [inlinedExList]
    rw [inlinedEx_congr tb1 tb2 hh e, inlinedExList_congr tb1 tb2 hh es]
end

theorem inlinedOverrides_congr (tb1 tb2 : LookupTable)
    (hh : ∀ t, headIrr tb2 t = headIrr tb1 t) :
    ∀ ovr, inlinedOverrides tb2 ovr = inlinedOverrides tb1 ovr := by
  intro ovr
  induction ovr with
  | nil => rfl
  | cons pe rest ih =>
    obtain ⟨p, e⟩ := pe
    simp only [inlinedOverrides]
    rw [inlinedEx_congr tb1 tb2 hh e, ih]

theorem inlinedDef_congr (tb1 tb2 : LookupTable)
    (hh : ∀ t, headIrr tb2 t = headIrr tb1 t) :
    ∀ d, inlinedDef tb2 d = inlinedDef tb1 d := by
  intro d
  cases d with
  | opdef od => simpa [inlinedDef] using inlinedOpDef_congr tb1 tb2 hh od
  | constDef i n a => simpa [inlinedDef] using inlinedTypeOpt_congr tb1 tb2 hh a
  | varDef i n a => simpa [inlinedDef] using inlinedTypeOpt_congr tb1 tb2 hh a
  | typeDef i n ty => simpa [inlinedDef] using inlinedTypeOpt_congr tb1 tb2 hh ty
  | assumeDef i n e => simpa [inlinedDef] using inlinedEx_congr tb1 tb2 hh e
  | importDef i n p => rfl
  | instanceDef i n pn ovr => simpa [inlinedDef] using inlinedOverrides_congr tb1 tb2 hh ovr

theorem inlinedDefs_congr (tb1 tb2 : LookupTable)
    (hh : ∀ t, headIrr tb2 t = headIrr tb1 t) :
    ∀ ds, inlinedDefs tb2 ds = inlinedDefs tb1 ds := by
  intro ds
  induction ds with
  | nil => rfl
  | cons d rest ih =>
    simp only [inlinedDefs]
    rw [inlinedDef_congr tb1 tb2 hh d, ih]

theorem inlineTableEntries_get (table : LookupTable) (f : Nat) :
    ∀ (l l2 : List (Nat × LookupDef)), inlineTableEntries table f l = some l2 →
    ∀ id, (List.lookup id l = none ∧ List.lookup id l2 = none) ∨
      (∃ d d2, List.lookup id l = some d ∧ List.lookup id l2 = some d2 ∧
        d2.typeAnn.isSome = d.typeAnn.isSome) := by
  intro l
  induction l with
  | nil =>
    intro l2 h id
    rw [inlineTableEntries] at h
    simp only [Option.some.injEq] at h
    subst h
    exact Or.inl ⟨rfl, rfl⟩
  | cons p rest ih =>
    obtain ⟨k, d⟩ := p
    intro l2 h id
    rw [inlineTableEntries] at h
    rcases hA : d.typeAnn with _ | ann
    · simp only [hA] at h
      rcases hr : inlineTableEntries table f rest with _ | rest2
      · simp only [hr] at h
        exact Option.noConfusion h
      · simp only [hr, Option.some.injEq] at h
        subst h
        by_cases hk : id = k
        · subst hk
          exact Or.inr ⟨d, d, by simp [List.lookup], by simp [List.lookup], rfl⟩
        · have hbk : (id == k) = false := by simp [hk]
          have := ih rest2 hr id
          simpa [List.lookup, hbk] using this
    · simp only [hA] at h
      rcases hi : inlineType table f ann with _ | ann2
      · simp only [hi, Option.map_none'] at h
        exact Option.noConfusion h
      · simp only [hi, Option.map_some'] at h
        rcases hr : inlineTableEntries table f rest with _ | rest2
        · simp only [hr] at h
          exact Option.noConfusion h
        · simp only [hr, Option.some.injEq] at h
          subst h
          by_cases hk : id = k
          · subst hk
            refine Or.inr ⟨d, ⟨d.kind, some ann2⟩, by simp [List.lookup],
              by simp [List.lookup], ?_⟩
            simp [hA]
          · have hbk : (id == k) = false := by simp [hk]
            have := ih rest2 hr id
            simpa [List.lookup, hbk] using this

theorem inlineTableEntries_anns (table : LookupTable) (f : Nat) :
    ∀ (l l2 : List (Nat × LookupDef)), inlineTableEntries table f l = some l2 →
    ∀ p ∈ l2, ∀ a, p.2.typeAnn = some a → inlinedType table a = true := by
  intro l
  induction l with
  | nil =>
    intro l2 h p hp a ha
    rw [inlineTableEntries] at h
    simp only [Option.some.injEq] at h
    subst h
    simp at hp
  | cons q rest ih =>
    obtain ⟨k, d⟩ := q
    intro l2 h p hp a ha
    rw [inlineTableEntries] at h
    rcases hA : d.typeAnn with _ | ann
    · simp only [hA] at h
      rcases hr : inlineTableEntries table f rest with _ | rest2
      · simp only [hr] at h
        exact Option.noConfusion h
      · simp only [hr, Option.some.injEq] at h
        subst h
        rcases List.mem_cons.mp hp with hm | hm
        · subst hm
          simp only [hA] at ha
          exact Option.noConfusion ha
        · exact ih rest2 hr p hm a ha
    · simp only [hA] at h
      rcases hi : inlineType table f ann with _ | ann2
      · simp only [hi, Option.map_none'] at h
        exact Option.noConfusion h
      · simp only [hi, Option.map_some'] at h
        rcases hr : inlineTableEntries table f rest with _ | rest2
        · simp only [hr] at h
          exact Option.noConfusion h
        · simp only [hr, Option.some.injEq] at h
          subst h
          rcases List.mem_cons.mp hp with hm | hm
          · subst hm
            simp only [Option.some.injEq] at ha
            subst ha
            exact inlineType_inlined table f ann _ hi
          · exact ih rest2 hr p hm a ha

theorem inlineTableEntries_fixed (tb : LookupTable) (f : Nat) :
    ∀ (l2 l3 : List (Nat × LookupDef)),
    (∀ p ∈ l2, ∀ a, p.2.typeAnn = some a → inlinedType tb a = true) →
    inlineTableEntries tb f l2 = some l3 → l3 = l2 := by
  intro l2
  induction l2 with
  | nil =>
    intro l3 _ h
    rw [inlineTableEntries] at h
    simp only [Option.some.injEq] at h
    exact h.symm
  | cons q rest ih =>
    obtain ⟨k, d⟩ := q
    intro l3 hin h
    rw [inlineTableEntries] at h
    rcases hA : d.typeAnn with _ | ann
    · simp only [hA] at h
      rcases hr : inlineTableEntries tb f rest with _ | rest2
      · simp only [hr] at h
        exact Option.noConfusion h
      · simp only [hr, Option.some.injEq] at h
        have h2 := ih rest2 (fun p hp => hin p (by simp [hp])) hr
        rw [← h, h2]
    · simp only [hA] at h
      rcases hi : inlineType tb f ann with _ | ann2
      · simp only [hi, Option.map_none'] at h
        exact Option.noConfusion h
      · simp only [hi, Option.map_some'] at h
        rcases hr : inlineTableEntries tb f rest with _ | rest2
        · simp only [hr] at h
          exact Option.noConfusion h
        · simp only [hr, Option.some.injEq] at h
          have hina : inlinedType tb ann = true := hin (k, d) (by simp) ann hA
          have he := inlined_inlineType tb f ann ann2 hina hi
          have h2 := ih rest2 (fun p hp => hin p (by simp [hp])) hr
          rw [← h, h2, he]
          cases d with
          | mk kd ta =>
            simp only at hA
            rw [hA]

theorem headIrr_congr (tb tb2 : LookupTable)
    (hget : ∀ id, (List.lookup id tb = none ∧ List.lookup id tb2 = none) ∨
      (∃ d d2, List.lookup id tb = some d ∧ List.lookup id tb2 = some d2 ∧
        d2.typeAnn.isSome = d.typeAnn.isSome)) :
    ∀ t, headIrr tb2 t = headIrr tb t := by
  intro t
  cases t with
  | tconst id n =>
    simp only [headIrr]
    by_cases hid : id ≠ 0
    · rw [if_pos hid, if_pos hid]
      rcases hget id with ⟨h1, h2⟩ | ⟨d, d2, h1, h2, h3⟩
      · rw [show LookupTable.get tb id = none from h1,
          show LookupTable.get tb2 id = none from h2]
      · rw [show LookupTable.get tb id = some d from h1,
          show LookupTable.get tb2 id = some d2 from h2]
        rcases hd : d.typeAnn with _ | a <;> rcases hd2 : d2.typeAnn with _ | a2 <;>
          rw [hd, hd2] at h3 <;> simp_all
    · rw [if_neg hid, if_neg hid]
  | tbool i => rfl
  | tint i => rfl
  | tstr i => rfl
  | tvar i n => rfl
  | tset i e => rfl
  | tlist i e => rfl
  | tfun i a r => rfl
  | toper i a r => rfl
  | ttup i fl => rfl
  | trec i fl => rfl
  | tunion i tg rs => rfl

theorem inlineModules_inlined (table : LookupTable) (f : Nat) :
    ∀ (ms ms2 : List QuintModule), inlineModules table f ms = some ms2 →
    ∀ m ∈ ms2, inlinedDefs table m.defs = true := by
  intro ms
  induction ms with
  | nil =>
    intro ms2 h m hm
    rw [inlineModules] at h
    simp only [Option.some.injEq] at h
    subst h
    simp at hm
  | cons m0 rest ih =>
    intro ms2 h m hm
    rw [inlineModules] at h
    rcases hmod : inlineModule table f m0 with _ | m2
    · simp only [hmod] at h
      exact Option.noConfusion h
    · simp only [hmod] at h
      rcases hr : inlineModules table f rest with _ | rest2
      · simp only [hr] at h
        exact Option.noConfusion h
      · simp only [hr, Option.some.injEq] at h
        subst h
        rcases List.mem_cons.mp hm with hm2 | hm2
        · subst hm2
          simp only [inlineModule, Option.map_eq_some'] at hmod
          obtain ⟨ds, hds, hm3⟩ := hmod
          rw [← hm3]
          exact inlineDefs_inlined table f m0.defs ds hds
        · exact ih rest2 hr m hm2

theorem inlined_inlineModules (tb : LookupTable) (f : Nat) :
    ∀ (ms2 ms3 : List QuintModule),
    (∀ m ∈ ms2, inlinedDefs tb m.defs = true) →
    inlineModules tb f ms2 = some ms3 → ms3 = ms2 := by
  intro ms2
  induction ms2 with
  | nil =>
    intro ms3 _ h
    rw [inlineModules] at h
    simp only [Option.some.injEq] at h
    exact h.symm
  | cons m0 rest ih =>
    intro ms3 hin h
    rw [inlineModules] at h
    rcases hmod : inlineModule tb f m0 with _ | m2
    · simp only [hmod] at h
      exact Option.noConfusion h
    · simp only [hmod] at h
      rcases hr : inlineModules tb f rest with _ | rest2
      · simp only [hr] at h
        exact Option.noConfusion h
      · simp only [hr, Option.some.injEq] at h
        simp only [inlineModule, Option.map_eq_some'] at hmod
        obtain ⟨ds, hds, hm3⟩ := hmod
        have hds2 := inlined_inlineDefs tb f m0.defs ds (hin m0 (by simp)) hds
        have h2 := ih rest2 (fun m hm => hin m (by simp [hm])) hr
        rw [← h, h2, ← hm3, hds2]

/-- C8: for the acyclic alias chain T1 = T2, T2 = T3, T3 = int of
chainTable, inlining a reference to the head alias yields int; a const
type that the table does not resolve (an uninterpreted type, or one whose
entry has no annotation) is left unchanged by inlining; and
inlineTypeAliases is a fixed point: applying it again to its own output
modules and table, whenever that second application terminates, returns
that output unchanged. -/
theorem c8_inline_aliases :
    (inlineType chainTable 10 (.tconst 100 "T1") = some (.tint 5))
    ∧ (∀ (tb : LookupTable) (f : Nat) (id : Nat) (n : String),
        headIrr tb (.tconst id n) = true →
        inlineType tb (f + 1) (.tconst id n) = some (.tconst id n))
    ∧ (∀ (f1 f2 : Nat) (ms : List QuintModule) (table : LookupTable)
        (ms2 ms3 : List QuintModule) (t2 t3 : LookupTable),
        inlineTypeAliases f1 ms table = some (ms2, t2) →
        inlineTypeAliases f2 ms2 t2 = some (ms3, t3) →
        ms3 = ms2 ∧ t3 = t2) := by
  refine ⟨?_, ?_, ?_⟩
  · simp [inlineType, resolveAlias, chainTable, LookupTable.get, List.lookup]
  · intro tb f id n h
    rw [inlineType, headIrr_resolveAlias tb (.tconst id n) h f]
  · intro f1 f2 ms table ms2 ms3 t2 t3 h1 h2
    rw [inlineTypeAliases] at h1
    rcases hm1 : inlineModules table f1 ms with _ | ms2a
    · rw [hm1] at h1
      exact Option.noConfusion h1
    rw [hm1] at h1
    rcases ht1 : inlineTable f1 table with _ | t2a
    · rw [ht1] at h1
      exact Option.noConfusion h1
    rw [ht1] at h1
    simp only [Option.some.injEq, Prod.mk.injEq] at h1
    obtain ⟨hms2, ht2⟩ := h1
    subst hms2
    subst ht2
    rw [inlineTypeAliases] at h2
    rcases hm2 : inlineModules t2a f2 ms2a with _ | ms3a
    · rw [hm2] at h2
      exact Option.noConfusion h2
    rw [hm2] at h2
    rcases ht2b : inlineTable f2 t2a with _ | t3a
    · rw [ht2b] at h2
      exact Option.noConfusion h2
    rw [ht2b] at h2
    simp only [Option.some.injEq, Prod.mk.injEq] at h2
    obtain ⟨hms3, ht3⟩ := h2
    subst hms3
    subst ht3
    have hget := inlineTableEntries_get table f1 table t2a ht1
    have hh : ∀ t, headIrr t2a t = headIrr table t := headIrr_congr table t2a hget
    have hanns := inlineTableEntries_anns table f1 table t2a ht1
    have hmods := inlineModules_inlined table f1 ms ms2a hm1
    constructor
    · refine inlined_inlineModules t2a f2 ms2a ms3a ?_ hm2
      intro m hm
      rw [inlinedDefs_congr table t2a hh]
      exact hmods m hm
    · refine inlineTableEntries_fixed t2a f2 t2a t3a ?_ ht2b
      intro p hp a ha
      rw [inlinedType_congr table t2a hh]
      exact hanns p hp a ha

/-- C8 witness: the theorem applied at concrete inputs - the chain table
output c8wt2, the uninterpreted const type with id 999, and a one-module
forest inlined twice. -/
theorem c8_inline_aliases_witness :
    (headIrr c8wt2 (.tconst 999 "U") = true
      ∧ inlineType c8wt2 1 (.tconst 999 "U") = some (.tconst 999 "U"))
    ∧ (inlineTypeAliases 10 c8wms chainTable = some (c8wms2, c8wt2)
      ∧ inlineTypeAliases 10 c8wms2 c8wt2 = some (c8wms2, c8wt2)
      ∧ (c8wms2 = c8wms2 ∧ c8wt2 = c8wt2)) := by
  have hi : headIrr c8wt2 (.tconst 999 "U") = true := by
    simp [headIrr, c8wt2, LookupTable.get, List.lookup]
  have h1 : inlineTypeAliases 10 c8wms chainTable = some (c8wms2, c8wt2) := by
    simp [inlineTypeAliases, inlineModules, inlineModule, inlineDefs, inlineDef,
      inlineTypeOpt, inlineType, resolveAlias, inlineTable, inlineTableEntries,
      chainTable, c8wms, c8wms2, c8wt2, LookupTable.get, List.lookup]
  have h2 : inlineTypeAliases 10 c8wms2 c8wt2 = some (c8wms2, c8wt2) := by
    simp [inlineTypeAliases, inlineModules, inlineModule, inlineDefs, inlineDef,
      inlineTypeOpt, inlineType, resolveAlias, inlineTable, inlineTableEntries,
      chainTable, c8wms, c8wms2, c8wt2, LookupTable.get, List.lookup]
  exact ⟨⟨hi, c8_inline_aliases.2.1 c8wt2 0 999 "U" hi⟩,
    ⟨h1, h2,
     c8_inline_aliases.2.2 10 10 c8wms chainTable c8wms2 c8wms2 c8wt2 c8wt2 h1 h2⟩⟩

end Quint

namespace Tnt

set_option maxRecDepth 1000000
set_option maxHeartbeats 4000000

theorem lookup_append {α β : Type} [BEq α] (l1 l2 : List (α × β)) (k : α) :
    (l1 ++ l2).lookup k = ((l1.lookup k).or (l2.lookup k)) := by
  induction l1 with
  | nil => simp [List.lookup]
  | cons p r ih =>
    have hb : (k == p.1) = true ∨ (k == p.1) = false := by
      cases k == p.1 <;> simp
    rcases hb with h | h <;> simp [List.lookup, h, ih]

theorem getD_set_lt {α : Type} (l : List α) (i : Nat) (x d : α) (h : i < l.length) :
    (l.set i x).getD i d = x := by
  simp [List.getD_eq_getElem?_getD, List.getElem?_set_self, h]

theorem getD_set_ne {α : Type} (l : List α) (i j : Nat) (x d : α) (h : i ≠ j) :
    (l.set i x).getD j d = l.getD j d := by
  simp [List.getD_eq_getElem?_getD, List.getElem?_set_ne h]

theorem getD_append_left {α : Type} (l l2 : List α) (j : Nat) (d : α)
    (h : j < l.length) : (l ++ l2).getD j d = l.getD j d := by
  simp [List.getD_eq_getElem?_getD, List.getElem?_append_left h]

theorem getD_append_len {α : Type} (l : List α) (x d : α) :
    (l ++ [x]).getD l.length d = x := by
  simp [List.getD_eq_getElem?_getD]

theorem assocOfNames_isSome (b : String) :
    ∀ (ns : List String) (i : Nat), b ∈ ns →
    ((assocOfNames ns i).lookup b).isSome = true := by
  intro ns
  induction ns with
  | nil => intro i h; simp at h
  | cons n r ih =>
    intro i h
    by_cases hn : b = n
    · subst hn
      rw [assocOfNames]
      simp [List.lookup]
    · have hbn : (b == n) = false := by simp [hn]
      rw [assocOfNames]
      simp only [List.lookup, hbn]
      exact ih (i + 1) (List.mem_cons.mp h |>.resolve_left hn)

theorem defaultAssoc_isSome (b : String) (h : b ∈ builtinNames) :
    ((defaultAssoc.lookup b).isSome) = true :=
  assocOfNames_isSome b builtinNames 0 h

theorem getMap_setMap_same (st : CState) (a : Nat) (m : MapAssoc)
    (h : a < st.maps.length) : getMap (setMap st a m) a = m := by
  simp only [getMap, setMap]
  exact getD_set_lt _ _ _ _ h

theorem getMap_setMap_ne (st : CState) (a a2 : Nat) (m : MapAssoc)
    (h : a ≠ a2) : getMap (setMap st a m) a2 = getMap st a2 := by
  simp only [getMap, setMap]
  exact getD_set_ne _ _ _ _ _ h

theorem getMap_setCell (st : CState) (a : Nat) (c : DefinitionTable) (a2 : Nat) :
    getMap (setCell st a c) a2 = getMap st a2 := rfl

theorem getCell_setMap (st : CState) (a : Nat) (m : MapAssoc) (a2 : Nat) :
    getCell (setMap st a m) a2 = getCell st a2 := rfl

theorem getCell_setCell_ne (st : CState) (a a2 : Nat) (c : DefinitionTable)
    (h : a ≠ a2) : getCell (setCell st a c) a2 = getCell st a2 := by
  simp only [getCell, setCell]
  exact getD_set_ne _ _ _ _ _ h

theorem getCell_setCell_same (st : CState) (a : Nat) (c : DefinitionTable)
    (h : a < st.cells.length) : getCell (setCell st a c) a = c := by
  simp only [getCell, setCell]
  exact getD_set_lt _ _ _ _ h

theorem getMap_pushValueDef (st : CState) (a : Nat) (v : ValueDefinition) (a2 : Nat) :
    getMap (pushValueDef st a v) a2 = getMap st a2 := rfl

theorem getMap_pushTypeDef (st : CState) (a : Nat) (t : TypeDefinition) (a2 : Nat) :
    getMap (pushTypeDef st a t) a2 = getMap st a2 := rfl

theorem getMap_allocCell (st : CState) (i : String) (a2 : Nat)
    (h : st.currentTable ≠ a2) :
    getMap (allocCell st i) a2 = getMap st a2 := by
  rw [allocCell, getMap_setMap_ne _ _ _ _ h]
  rfl

theorem getMap_allocCell_cur (st : CState) (i : String)
    (h : st.currentTable < st.maps.length) :
    getMap (allocCell st i) st.currentTable
      = getMap st st.currentTable ++ [(i, st.cells.length)] := by
  rw [allocCell, getMap_setMap_same]
  exact h

theorem ctrlEq_refl (st : CState) : CtrlEq st st := ⟨rfl, rfl, rfl, rfl, rfl⟩

theorem ctrlEq_trans {s1 s2 s3 : CState} (h1 : CtrlEq s1 s2) (h2 : CtrlEq s2 s3) :
    CtrlEq s1 s3 := by
  obtain ⟨a1, b1, c1, d1, e1⟩ := h1
  obtain ⟨a2, b2, c2, d2, e2⟩ := h2
  exact ⟨a2.trans a1, b2.trans b1, c2.trans c1, d2.trans d1, e2.trans e1⟩

theorem pushValueDef_ctrlEq (st : CState) (a : Nat) (v : ValueDefinition) :
    CtrlEq st (pushValueDef st a v) := ⟨rfl, rfl, rfl, rfl, rfl⟩

theorem pushTypeDef_ctrlEq (st : CState) (a : Nat) (t : TypeDefinition) :
    CtrlEq st (pushTypeDef st a t) := ⟨rfl, rfl, rfl, rfl, rfl⟩

theorem allocCell_ctrlEq (st : CState) (i : String) :
    CtrlEq st (allocCell st i) := ⟨rfl, rfl, rfl, rfl, by simp [allocCell, setMap]⟩

theorem cvd_ctrlEq (st : CState) (k i : String) (r s : Option Nat) :
    CtrlEq st (collectValueDefinition st k i r s) := by
  rw [collectValueDefinition]
  by_cases h : i = "_"
  · rw [if_pos h]; exact ctrlEq_refl st
  · rw [if_neg h]
    rcases h1 : (getMap st st.currentTable).lookup i with _ | a
    · exact ctrlEq_trans (allocCell_ctrlEq st i) (pushValueDef_ctrlEq _ _ _)
    · exact pushValueDef_ctrlEq st a _

theorem ctd_ctrlEq (st : CState) (i : String) (ty : Option TntType) (r : Option Nat) :
    CtrlEq st (collectTypeDefinition st i ty r) := by
  rw [collectTypeDefinition]
  rcases h1 : (getMap st st.currentTable).lookup i with _ | a
  · exact ctrlEq_trans (allocCell_ctrlEq st i) (pushTypeDef_ctrlEq _ _ _)
  · exact pushTypeDef_ctrlEq st a _

theorem ctrlEq_foldl {α : Type} (f : CState → α → CState)
    (hf : ∀ s x, CtrlEq s (f s x)) :
    ∀ (l : List α) (s : CState), CtrlEq s (l.foldl f s) := by
  intro l
  induction l with
  | nil => intro s; exact ctrlEq_refl s
  | cons x r ih =>
    intro s
    exact ctrlEq_trans (hf s x) (ih (f s x))

theorem enterOpDef_ctrlEq (st : CState) (n : String) (id : Nat) :
    CtrlEq st (enterOpDef st n id) := by
  rw [enterOpDef]
  rcases h : st.scopeStack with _ | ⟨sc, r⟩ <;> exact cvd_ctrlEq st _ _ _ _

theorem enterLambda_ctrlEq (st : CState) (ps : List String) (id : Nat) :
    CtrlEq st (enterLambda st ps id) :=
  ctrlEq_foldl _ (fun s p => cvd_ctrlEq s "param" p (some id) (some id)) ps st

theorem ucm_nil (st : CState) (h : st.moduleStack = []) :
    updateCurrentModule st = st := by
  rw [updateCurrentModule, h]

theorem ucm_found (st : CState) (name : String) (r : List String) (a : Nat)
    (h : st.moduleStack = name :: r) (h2 : st.tables.lookup name = some a) :
    updateCurrentModule st = { st with currentTable := a } := by
  rw [updateCurrentModule, h]
  simp only [h2]

theorem ucm_new (st : CState) (name : String) (r : List String)
    (h : st.moduleStack = name :: r) (h2 : st.tables.lookup name = none) :
    updateCurrentModule st =
      { st with maps := st.maps ++ [getMap st 0],
                tables := st.tables ++ [(name, st.maps.length)],
                currentTable := st.maps.length } := by
  rw [updateCurrentModule, h]
  simp only [h2]

theorem exit_copy_ctrlEq (st : CState) (name : String) (inner : MapAssoc) :
    CtrlEq st (inner.foldl (fun s p =>
      ((getCell s p.2).valueDefinitions.filter (fun d => falsyScope d.scope)).foldl
        (fun s2 d =>
          collectValueDefinition s2 d.kind (name ++ "::" ++ d.identifier) d.reference none)
        s) st) :=
  ctrlEq_foldl _
    (fun s p => ctrlEq_foldl _ (fun s2 d => cvd_ctrlEq s2 _ _ _ _) _ s) inner st

theorem exit_top (st : CState) (n : String) (id : Nat)
    (h : st.moduleStack = [n]) :
    exitModuleDef st n id = { st with moduleStack := [] } := by
  have hlit : ({ st with moduleStack := st.moduleStack.tail } : CState)
      = { st with moduleStack := [] } := by rw [h]; rfl
  rw [exitModuleDef, hlit, ucm_nil _ rfl, if_neg (by simp)]

theorem exit_ctrl (st : CState) (n : String) (id : Nat) (out : String)
    (rest : List String) (oaddr : Nat)
    (h1 : st.moduleStack = n :: out :: rest)
    (h2 : st.tables.lookup out = some oaddr) :
    (exitModuleDef st n id).tables = st.tables ∧
    (exitModuleDef st n id).currentTable = oaddr ∧
    (exitModuleDef st n id).moduleStack = out :: rest ∧
    (exitModuleDef st n id).scopeStack = st.scopeStack ∧
    (exitModuleDef st n id).maps.length = st.maps.length := by
  have hlit : ({ st with moduleStack := st.moduleStack.tail } : CState)
      = { st with moduleStack := out :: rest } := by rw [h1]; rfl
  have hu : updateCurrentModule ({ st with moduleStack := out :: rest } : CState)
      = { st with moduleStack := out :: rest, currentTable := oaddr } := by
    apply ucm_found _ out rest oaddr rfl
    exact h2
  rw [exitModuleDef, hlit, hu, if_pos (by simp)]
  have hc := exit_copy_ctrlEq
    ({ st with moduleStack := out :: rest, currentTable := oaddr } : CState) n
    (getMap st st.currentTable)
  have ht := ctrlEq_trans hc (cvd_ctrlEq _ "module" n (some id) none)
  obtain ⟨a, b, c, d, e⟩ := ht
  exact ⟨a, b, c, d, e⟩

theorem replay_append (l1 l2 : List Event) :
    replay (l1 ++ l2) = l2.foldl step (replay l1) := by
  simp [replay, List.foldl_append]

theorem lookup_mem {α β : Type} [BEq α] [LawfulBEq α] :
    ∀ (l : List (α × β)) (k : α) (v : β), l.lookup k = some v → (k, v) ∈ l := by
  intro l
  induction l with
  | nil => intro k v h; simp [List.lookup] at h
  | cons p r ih =>
    intro k v h
    rcases hb : k == p.1 with _ | _
    · simp only [List.lookup, hb] at h
      exact List.mem_cons.mpr (Or.inr (ih k v h))
    · simp only [List.lookup, hb, Option.some.injEq] at h
      have : k = p.1 := eq_of_beq hb
      subst this
      subst h
      exact List.mem_cons.mpr (Or.inl rfl)

theorem inv_pushValueDef (st : CState) (a : Nat) (v : ValueDefinition)
    (h : Inv st) : Inv (pushValueDef st a v) := by
  obtain ⟨h1, h2, h3, h4, h5⟩ := h
  exact ⟨h1, h2, h3, h4, h5⟩

theorem inv_pushTypeDef (st : CState) (a : Nat) (t : TypeDefinition)
    (h : Inv st) : Inv (pushTypeDef st a t) := by
  obtain ⟨h1, h2, h3, h4, h5⟩ := h
  exact ⟨h1, h2, h3, h4, h5⟩

theorem inv_allocCell (st : CState) (i : String) (h : Inv st) :
    Inv (allocCell st i) := by
  obtain ⟨h1, h2, h3, h4, h5⟩ := h
  refine ⟨?_, h2, ?_, ?_, ?_⟩
  · rw [getMap_allocCell st i 0 h2]
    exact h1
  · simpa [allocCell, setMap] using h3
  · intro p hp
    obtain ⟨hp1, hp2⟩ := h4 p hp
    exact ⟨hp1, by simpa [allocCell, setMap] using hp2⟩
  · intro p hp b hb
    by_cases hc : st.currentTable = p.2
    · rw [← hc, getMap_allocCell_cur st i h3, lookup_append]
      rw [hc, h5 p hp b hb]
      have hs := defaultAssoc_isSome b hb
      rcases hd : defaultAssoc.lookup b with _ | x
      · rw [hd] at hs; simp at hs
      · rfl
    · rw [getMap_allocCell st i p.2 hc]
      exact h5 p hp b hb

theorem inv_cvd (st : CState) (k i : String) (r s : Option Nat) (h : Inv st) :
    Inv (collectValueDefinition st k i r s) := by
  rw [collectValueDefinition]
  by_cases hu : i = "_"
  · rw [if_pos hu]; exact h
  · rw [if_neg hu]
    rcases h1 : (getMap st st.currentTable).lookup i with _ | a
    · exact inv_pushValueDef _ _ _ (inv_allocCell st i h)
    · exact inv_pushValueDef _ _ _ h

theorem inv_ctd (st : CState) (i : String) (ty : Option TntType) (r : Option Nat)
    (h : Inv st) : Inv (collectTypeDefinition st i ty r) := by
  rw [collectTypeDefinition]
  rcases h1 : (getMap st st.currentTable).lookup i with _ | a
  · exact inv_pushTypeDef _ _ _ (inv_allocCell st i h)
  · exact inv_pushTypeDef _ _ _ h

theorem inv_withModuleStack (st : CState) (ms : List String) (h : Inv st) :
    Inv { st with moduleStack := ms } := by
  obtain ⟨h1, h2, h3, h4, h5⟩ := h
  exact ⟨h1, h2, h3, h4, h5⟩

theorem inv_withScopeStack (st : CState) (sc : List Nat) (h : Inv st) :
    Inv { st with scopeStack := sc } := by
  obtain ⟨h1, h2, h3, h4, h5⟩ := h
  exact ⟨h1, h2, h3, h4, h5⟩

theorem inv_ucm (st : CState) (h : Inv st) : Inv (updateCurrentModule st) := by
  obtain ⟨h1, h2, h3, h4, h5⟩ := h
  rcases hm : st.moduleStack with _ | ⟨name, r⟩
  · rw [ucm_nil st hm]
    exact ⟨h1, h2, h3, h4, h5⟩
  · rcases ht : st.tables.lookup name with _ | a
    · rw [ucm_new st name r hm ht]
      have hlen : 0 < st.maps.length := Nat.lt_of_le_of_lt (Nat.zero_le _) h3
      refine ⟨?_, ?_, ?_, ?_, ?_⟩
      · show (st.maps ++ [getMap st 0]).getD 0 [] = defaultAssoc
        rw [getD_append_left _ _ _ _ hlen]
        exact h1
      · exact Nat.pos_iff_ne_zero.mp hlen
      · show st.maps.length < (st.maps ++ [getMap st 0]).length
        simp
      · intro p hp
        rcases List.mem_append.mp hp with hp2 | hp2
        · obtain ⟨hpa, hpb⟩ := h4 p hp2
          refine ⟨hpa, ?_⟩
          show p.2 < (st.maps ++ [getMap st 0]).length
          simp
          omega
        · simp at hp2
          subst hp2
          refine ⟨Nat.pos_iff_ne_zero.mp hlen, ?_⟩
          show st.maps.length < (st.maps ++ [getMap st 0]).length
          simp
      · intro p hp b hb
        rcases List.mem_append.mp hp with hp2 | hp2
        · obtain ⟨hpa, hpb⟩ := h4 p hp2
          show ((st.maps ++ [getMap st 0]).getD p.2 []).lookup b = _
          rw [getD_append_left _ _ _ _ hpb]
          exact h5 p hp2 b hb
        · simp at hp2
          subst hp2
          show ((st.maps ++ [getMap st 0]).getD st.maps.length []).lookup b = _
          rw [getD_append_len]
          rw [h1]
    · rw [ucm_found st name r a hm ht]
      have hmem := lookup_mem st.tables name a ht
      obtain ⟨ha1, ha2⟩ := h4 (name, a) hmem
      exact ⟨h1, ha1, ha2, h4, h5⟩

theorem inv_foldl {α : Type} (f : CState → α → CState)
    (hf : ∀ s x, Inv s → Inv (f s x)) :
    ∀ (l : List α) (s : CState), Inv s → Inv (l.foldl f s) := by
  intro l
  induction l with
  | nil => intro s h; exact h
  | cons x r ih =>
    intro s h
    exact ih (f s x) (hf s x h)

theorem inv_enterModuleDef (st : CState) (n : String) (h : Inv st) :
    Inv (enterModuleDef st n) :=
  inv_ucm _ (inv_withModuleStack st _ h)

theorem inv_exitModuleDef (st : CState) (n : String) (id : Nat) (h : Inv st) :
    Inv (exitModuleDef st n id) := by
  rw [exitModuleDef]
  have h1 : Inv (updateCurrentModule { st with moduleStack := st.moduleStack.tail }) :=
    inv_ucm _ (inv_withModuleStack st _ h)
  by_cases hc : (updateCurrentModule
      { st with moduleStack := st.moduleStack.tail }).moduleStack.length > 0
  · rw [if_pos hc]
    refine inv_cvd _ _ _ _ _ ?_
    refine inv_foldl _ ?_ _ _ h1
    intro s p hs
    exact inv_foldl _ (fun s2 d hs2 => inv_cvd s2 _ _ _ _ hs2) _ s hs
  · rw [if_neg hc]
    exact h1

theorem inv_enterOpDef (st : CState) (n : String) (id : Nat) (h : Inv st) :
    Inv (enterOpDef st n id) := by
  rw [enterOpDef]
  rcases hs : st.scopeStack with _ | ⟨sc, r⟩
  · exact inv_cvd st _ _ _ _ h
  · exact inv_cvd st _ _ _ _ h

theorem inv_step (st : CState) (e : Event) (h : Inv st) : Inv (step st e) := by
  cases e with
  | enterModule name => exact inv_enterModuleDef st name h
  | exitModule name id => exact inv_exitModuleDef st name id h
  | evar name id => exact inv_cvd st _ _ _ _ h
  | econst name id => exact inv_cvd st _ _ _ _ h
  | eop name id => exact inv_enterOpDef st name id h
  | etype name ty id => exact inv_ctd st _ _ _ h
  | eassume name id => exact inv_cvd st _ _ _ _ h
  | elambda params id =>
    exact inv_foldl _ (fun s p hs => inv_cvd s _ _ _ _ hs) params st h
  | eletEnter id => exact inv_withScopeStack st _ h
  | eletExit => exact inv_withScopeStack st _ h

theorem inv_initState : Inv initState := by
  refine ⟨rfl, by simp [initState], by simp [initState], ?_, ?_⟩
  · intro p hp
    simp [initState] at hp
  · intro p hp
    simp [initState] at hp

theorem inv_replay (evs : List Event) : Inv (replay evs) :=
  inv_foldl step inv_step evs initState inv_initState

theorem inv_collectDefinitions (m : TntModule) : Inv (collectDefinitions m) :=
  inv_replay (eventsOfModule m)

theorem getCell_setCell_cases (st : CState) (a : Nat) (c : DefinitionTable)
    (a2 : Nat) :
    getCell (setCell st a c) a2 = getCell st a2 ∨ getCell (setCell st a c) a2 = c := by
  by_cases he : a = a2
  · subst he
    by_cases hl : a < st.cells.length
    · exact Or.inr (getCell_setCell_same st a c hl)
    · left
      simp only [getCell, setCell]
      rw [List.set_eq_of_length_le (Nat.le_of_not_lt hl)]
  · exact Or.inl (getCell_setCell_ne st a a2 c he)

theorem getCell_allocCell_cases (st : CState) (i : String) (a : Nat) :
    getCell (allocCell st i) a = getCell st a ∨ getCell (allocCell st i) a = emptyTable := by
  simp only [getCell, allocCell, setMap]
  by_cases hl : a < st.cells.length
  · left
    exact getD_append_left _ _ _ _ hl
  · by_cases he : a = st.cells.length
    · subst he
      exact Or.inr (getD_append_len _ _ _)
    · left
      have h1 : (st.cells ++ [emptyTable]).getD a emptyTable = emptyTable := by
        simp only [List.getD_eq_getElem?_getD]
        rw [List.getElem?_eq_none]
        · rfl
        · simp
          omega
      have h2 : st.cells.getD a emptyTable = emptyTable := by
        simp only [List.getD_eq_getElem?_getD]
        rw [List.getElem?_eq_none (Nat.le_of_not_lt hl)]
        rfl
      rw [h1, h2]

theorem ndv_pushValueDef (st : CState) (a : Nat) (v : ValueDefinition)
    (h : NoDiscardValues st) (hv : v.identifier ≠ "_") :
    NoDiscardValues (pushValueDef st a v) := by
  intro a2 v2 hv2
  rw [pushValueDef] at hv2
  rcases getCell_setCell_cases st a
      ⟨(getCell st a).valueDefinitions ++ [v], (getCell st a).typeDefinitions⟩ a2 with
    hc | hc
  · rw [hc] at hv2
    exact h a2 v2 hv2
  · rw [hc] at hv2
    rcases List.mem_append.mp hv2 with hm | hm
    · exact h a v2 hm
    · rw [List.mem_singleton.mp hm]
      exact hv

theorem ndv_pushTypeDef (st : CState) (a : Nat) (t : TypeDefinition)
    (h : NoDiscardValues st) : NoDiscardValues (pushTypeDef st a t) := by
  intro a2 v2 hv2
  rw [pushTypeDef] at hv2
  rcases getCell_setCell_cases st a
      ⟨(getCell st a).valueDefinitions, (getCell st a).typeDefinitions ++ [t]⟩ a2 with
    hc | hc
  · rw [hc] at hv2
    exact h a2 v2 hv2
  · rw [hc] at hv2
    exact h a v2 hv2

theorem ndv_allocCell (st : CState) (i : String) (h : NoDiscardValues st) :
    NoDiscardValues (allocCell st i) := by
  intro a v hv
  rcases getCell_allocCell_cases st i a with hc | hc
  · rw [hc] at hv
    exact h a v hv
  · rw [hc] at hv
    simp [emptyTable] at hv

theorem ndv_cvd (st : CState) (k i : String) (r s : Option Nat)
    (h : NoDiscardValues st) : NoDiscardValues (collectValueDefinition st k i r s) := by
  rw [collectValueDefinition]
  by_cases hu : i = "_"
  · rw [if_pos hu]; exact h
  · rw [if_neg hu]
    rcases h1 : (getMap st st.currentTable).lookup i with _ | a
    · exact ndv_pushValueDef _ _ _ (ndv_allocCell st i h) hu
    · exact ndv_pushValueDef _ _ _ h hu

theorem ndv_ctd (st : CState) (i : String) (ty : Option TntType) (r : Option Nat)
    (h : NoDiscardValues st) : NoDiscardValues (collectTypeDefinition st i ty r) := by
  rw [collectTypeDefinition]
  rcases h1 : (getMap st st.currentTable).lookup i with _ | a
  · exact ndv_pushTypeDef _ _ _ (ndv_allocCell st i h)
  · exact ndv_pushTypeDef _ _ _ h

theorem ndv_cellsEq (st st2 : CState) (h : st2.cells = st.cells)
    (hn : NoDiscardValues st) : NoDiscardValues st2 := by
  intro a v hv
  refine hn a v ?_
  rw [show getCell st a = getCell st2 a by simp only [getCell, h]]
  exact hv

theorem ndv_ucm (st : CState) (h : NoDiscardValues st) :
    NoDiscardValues (updateCurrentModule st) := by
  rcases hm : st.moduleStack with _ | ⟨name, r⟩
  · rw [ucm_nil st hm]; exact h
  · rcases ht : st.tables.lookup name with _ | a
    · rw [ucm_new st name r hm ht]
      exact ndv_cellsEq st _ rfl h
    · rw [ucm_found st name r a hm ht]
      exact ndv_cellsEq st _ rfl h

theorem ndv_foldl {α : Type} (f : CState → α → CState)
    (hf : ∀ s x, NoDiscardValues s → NoDiscardValues (f s x)) :
    ∀ (l : List α) (s : CState), NoDiscardValues s → NoDiscardValues (l.foldl f s) := by
  intro l
  induction l with
  | nil => intro s h; exact h
  | cons x r ih =>
    intro s h
    exact ih (f s x) (hf s x h)

theorem ndv_step (st : CState) (e : Event) (h : NoDiscardValues st) :
    NoDiscardValues (step st e) := by
  cases e with
  | enterModule name => exact ndv_ucm _ (ndv_cellsEq st _ rfl h)
  | exitModule name id =>
    rw [step, exitModuleDef]
    have h1 : NoDiscardValues
        (updateCurrentModule { st with moduleStack := st.moduleStack.tail }) :=
      ndv_ucm _ (ndv_cellsEq st _ rfl h)
    by_cases hc : (updateCurrentModule
        { st with moduleStack := st.moduleStack.tail }).moduleStack.length > 0
    · rw [if_pos hc]
      refine ndv_cvd _ _ _ _ _ ?_
      refine ndv_foldl _ ?_ _ _ h1
      intro s p hs
      exact ndv_foldl _ (fun s2 d hs2 => ndv_cvd s2 _ _ _ _ hs2) _ s hs
    · rw [if_neg hc]
      exact h1
  | evar name id => exact ndv_cvd st _ _ _ _ h
  | econst name id => exact ndv_cvd st _ _ _ _ h
  | eop name id =>
    rw [step, enterOpDef]
    rcases hs : st.scopeStack with _ | ⟨sc, r⟩
    · exact ndv_cvd st _ _ _ _ h
    · exact ndv_cvd st _ _ _ _ h
  | etype name ty id => exact ndv_ctd st _ _ _ h
  | eassume name id => exact ndv_cvd st _ _ _ _ h
  | elambda params id =>
    exact ndv_foldl _ (fun s p hs => ndv_cvd s _ _ _ _ hs) params st h
  | eletEnter id => exact ndv_cellsEq st _ rfl h
  | eletExit => exact ndv_cellsEq st _ rfl h

theorem builtin_ne_discard (b : String) (h : b ∈ builtinNames) : b ≠ "_" := by
  intro he
  subst he
  revert h
  decide

theorem ndv_initState : NoDiscardValues initState := by
  intro a v hv
  have hcell : getCell initState a
      = (defaultCells.getD a emptyTable) := rfl
  rw [hcell] at hv
  by_cases hl : a < defaultCells.length
  · have hg : defaultCells.getD a emptyTable = defaultCells[a] := by
      simp [List.getD_eq_getElem?_getD, List.getElem?_eq_getElem hl]
    rw [hg] at hv
    have hlen : a < builtinNames.length := by
      simpa [defaultCells] using hl
    have hval : defaultCells[a] = ⟨[⟨"def", builtinNames[a], none, none⟩], []⟩ := by
      simp [defaultCells]
    rw [hval] at hv
    rw [List.mem_singleton.mp hv]
    exact builtin_ne_discard _ (builtinNames.getElem_mem hlen)
  · have hg : defaultCells.getD a emptyTable = emptyTable := by
      simp only [List.getD_eq_getElem?_getD]
      rw [List.getElem?_eq_none (Nat.le_of_not_lt hl)]
      rfl
    rw [hg] at hv
    simp [emptyTable] at hv

theorem ndv_replay (evs : List Event) : NoDiscardValues (replay evs) :=
  ndv_foldl step ndv_step evs initState ndv_initState

/-- C4: for every input module, every per-module table produced by
collectDefinitions - the tables of nested modules included, since every
module name entered gets a table seeded from defaultDefinitions and keys
are never removed - records every identifier of the builtin registry. -/
theorem c4_builtins_in_every_table (m : TntModule) :
    ∀ p ∈ (collectDefinitions m).tables, ∀ b ∈ builtinNames,
    ((getMap (collectDefinitions m) p.2).lookup b).isSome = true := by
  intro p hp b hb
  have h := (inv_collectDefinitions m).2.2.2.2 p hp b hb
  rw [h]
  exact defaultAssoc_isSome b hb

/-- C4 witness: a concrete run on an empty module named M, whose table is
recorded at map address 2 and contains the built-in head. -/
theorem c4_builtins_in_every_table_witness :
    (("M", 2) ∈ (collectDefinitions c4wmod).tables) ∧ ("head" ∈ builtinNames) ∧
    ((getMap (collectDefinitions c4wmod) 2).lookup "head").isSome = true := by
  have hm : ("M", 2) ∈ (collectDefinitions c4wmod).tables := by
    rw [show (collectDefinitions c4wmod).tables = [("M", 2)] from rfl]
    exact List.mem_singleton.mpr rfl
  have hb : "head" ∈ builtinNames := by decide
  exact ⟨hm, hb, c4_builtins_in_every_table c4wmod ("M", 2) hm "head" hb⟩

/-- C6: the true part of the claim, for every input module: no value
definition recorded in any cell of the collector's heap - hence none
reachable through any table - has the identifier of the anonymous
discard, because collectValueDefinition skips it; the claim's inclusion
of type declarations is refuted separately, since collectTypeDefinition
has no such guard. -/
theorem c6_no_discard_value_definitions (m : TntModule) :
    ∀ (a : Nat), ∀ v ∈ (getCell (collectDefinitions m) a).valueDefinitions,
    v.identifier ≠ "_" :=
  ndv_replay (eventsOfModule m)

/-- C6 witness: the theorem applied to the built-in not definition found
in the heap after a concrete run. -/
theorem c6_no_discard_value_definitions_witness :
    ((⟨"def", "not", none, none⟩ : ValueDefinition)
      ∈ (getCell (collectDefinitions c4wmod) 0).valueDefinitions) ∧
    (⟨"def", "not", none, none⟩ : ValueDefinition).identifier ≠ "_" := by
  have hm : (⟨"def", "not", none, none⟩ : ValueDefinition)
      ∈ (getCell (collectDefinitions c4wmod) 0).valueDefinitions := by
    rw [show (getCell (collectDefinitions c4wmod) 0).valueDefinitions
        = [⟨"def", "not", none, none⟩] from rfl]
    exact List.mem_singleton.mpr rfl
  exact ⟨hm, c6_no_discard_value_definitions c4wmod 0 _ hm⟩

/-- C6 counterexample: a type declaration named with the anonymous
discard IS recorded: collecting module M containing an uninterpreted
type declaration named underscore leaves an entry under the underscore
key of module M's table, holding that type definition. -/
theorem c6_counterexample :
    ("M", 2) ∈ (collectDefinitions c6xmod).tables ∧
    lookupCell (collectDefinitions c6xmod) 2 "_"
      = some ⟨[], [⟨"_", none, some 5⟩]⟩ := by
  constructor
  · rw [show (collectDefinitions c6xmod).tables = [("M", 2)] from rfl]
    exact List.mem_singleton.mpr rfl
  · rfl

theorem valuesGrow_refl (st : CState) : ValuesGrow st st := fun _ _ h => h

theorem valuesGrow_trans {s1 s2 s3 : CState} (h1 : ValuesGrow s1 s2)
    (h2 : ValuesGrow s2 s3) : ValuesGrow s1 s3 :=
  fun a v h => h2 a v (h1 a v h)

theorem valuesGrow_cellsEq (st st2 : CState) (h : st2.cells = st.cells) :
    ValuesGrow st st2 := by
  intro a v hv
  rw [show getCell st2 a = getCell st a by simp only [getCell, h]]
  exact hv

theorem getCell_pushValueDef_same (st : CState) (a : Nat) (v : ValueDefinition)
    (h : a < st.cells.length) :
    getCell (pushValueDef st a v) a
      = ⟨(getCell st a).valueDefinitions ++ [v], (getCell st a).typeDefinitions⟩ := by
  rw [pushValueDef]
  exact getCell_setCell_same st a _ h

theorem valuesGrow_pushValueDef (st : CState) (a : Nat) (v : ValueDefinition) :
    ValuesGrow st (pushValueDef st a v) := by
  intro a2 v2 hv2
  rw [pushValueDef]
  by_cases he : a2 = a
  · subst he
    rcases getCell_setCell_cases st a2
        ⟨(getCell st a2).valueDefinitions ++ [v], (getCell st a2).typeDefinitions⟩ a2 with
      hc | hc
    · rw [hc]; exact hv2
    · rw [hc]
      exact List.mem_append.mpr (Or.inl hv2)
  · rw [getCell_setCell_ne st a a2 _ (fun hx => he hx.symm)]
    exact hv2

theorem valuesGrow_pushTypeDef (st : CState) (a : Nat) (t : TypeDefinition) :
    ValuesGrow st (pushTypeDef st a t) := by
  intro a2 v2 hv2
  rw [pushTypeDef]
  by_cases he : a2 = a
  · subst he
    rcases getCell_setCell_cases st a2
        ⟨(getCell st a2).valueDefinitions, (getCell st a2).typeDefinitions ++ [t]⟩ a2 with
      hc | hc
    · rw [hc]; exact hv2
    · rw [hc]
      exact hv2
  · rw [getCell_setCell_ne st a a2 _ (fun hx => he hx.symm)]
    exact hv2

theorem valuesGrow_allocCell (st : CState) (i : String) :
    ValuesGrow st (allocCell st i) := by
  intro a v hv
  by_cases hl : a < st.cells.length
  · rw [show getCell (allocCell st i) a = getCell st a by
      simp only [getCell, allocCell, setMap]
      exact getD_append_left _ _ _ _ hl]
    exact hv
  · have hz : getCell st a = emptyTable := by
      simp only [getCell, List.getD_eq_getElem?_getD]
      rw [List.getElem?_eq_none (Nat.le_of_not_lt hl)]
      rfl
    rw [hz] at hv
    simp [emptyTable] at hv

theorem valuesGrow_cvd (st : CState) (k i : String) (r s : Option Nat) :
    ValuesGrow st (collectValueDefinition st k i r s) := by
  rw [collectValueDefinition]
  by_cases hu : i = "_"
  · rw [if_pos hu]; exact valuesGrow_refl st
  · rw [if_neg hu]
    rcases h1 : (getMap st st.currentTable).lookup i with _ | a
    · exact valuesGrow_trans (valuesGrow_allocCell st i) (valuesGrow_pushValueDef _ _ _)
    · exact valuesGrow_pushValueDef st a _

theorem valuesGrow_ctd (st : CState) (i : String) (ty : Option TntType)
    (r : Option Nat) : ValuesGrow st (collectTypeDefinition st i ty r) := by
  rw [collectTypeDefinition]
  rcases h1 : (getMap st st.currentTable).lookup i with _ | a
  · exact valuesGrow_trans (valuesGrow_allocCell st i) (valuesGrow_pushTypeDef _ _ _)
  · exact valuesGrow_pushTypeDef st a _

theorem ucm_cells (st : CState) : (updateCurrentModule st).cells = st.cells := by
  rcases hm : st.moduleStack with _ | ⟨name, r⟩
  · rw [ucm_nil st hm]
  · rcases ht : st.tables.lookup name with _ | a
    · rw [ucm_new st name r hm ht]
    · rw [ucm_found st name r a hm ht]

theorem valuesGrow_foldl {α : Type} (f : CState → α → CState)
    (hf : ∀ s x, ValuesGrow s (f s x)) :
    ∀ (l : List α) (s : CState), ValuesGrow s (l.foldl f s) := by
  intro l
  induction l with
  | nil => intro s; exact valuesGrow_refl s
  | cons x r ih =>
    intro s
    exact valuesGrow_trans (hf s x) (ih (f s x))

theorem valuesGrow_exitModuleDef (st : CState) (n : String) (id : Nat) :
    ValuesGrow st (exitModuleDef st n id) := by
  rw [exitModuleDef]
  have h1 : ValuesGrow st
      (updateCurrentModule { st with moduleStack := st.moduleStack.tail }) :=
    valuesGrow_cellsEq st _ (ucm_cells _)
  by_cases hc : (updateCurrentModule
      { st with moduleStack := st.moduleStack.tail }).moduleStack.length > 0
  · rw [if_pos hc]
    refine valuesGrow_trans (valuesGrow_trans h1 ?_) (valuesGrow_cvd _ _ _ _ _)
    refine valuesGrow_foldl _ ?_ _ _
    intro s p
    exact valuesGrow_foldl _ (fun s2 d => valuesGrow_cvd s2 _ _ _ _) _ s
  · rw [if_neg hc]
    exact h1

theorem valuesGrow_enterModuleDef (st : CState) (n : String) :
    ValuesGrow st (enterModuleDef st n) := by
  rw [enterModuleDef]
  exact valuesGrow_cellsEq st _ (by rw [ucm_cells])

theorem valuesGrow_enterOpDef (st : CState) (n : String) (id : Nat) :
    ValuesGrow st (enterOpDef st n id) := by
  rw [enterOpDef]
  rcases hs : st.scopeStack with _ | ⟨sc, r⟩
  · exact valuesGrow_cvd st _ _ _ _
  · exact valuesGrow_cvd st _ _ _ _

theorem valuesGrow_step (st : CState) (e : Event) : ValuesGrow st (step st e) := by
  cases e with
  | enterModule name => exact valuesGrow_enterModuleDef st name
  | exitModule name id => exact valuesGrow_exitModuleDef st name id
  | evar name id => exact valuesGrow_cvd st _ _ _ _
  | econst name id => exact valuesGrow_cvd st _ _ _ _
  | eop name id => exact valuesGrow_enterOpDef st name id
  | etype name ty id => exact valuesGrow_ctd st _ _ _
  | eassume name id => exact valuesGrow_cvd st _ _ _ _
  | elambda params id =>
    exact valuesGrow_foldl _ (fun s p => valuesGrow_cvd s _ _ _ _) params st
  | eletEnter id => exact valuesGrow_cellsEq st _ rfl
  | eletExit => exact valuesGrow_cellsEq st _ rfl

theorem valuesGrow_foldl_step (l : List Event) (s : CState) :
    ValuesGrow s (l.foldl step s) :=
  valuesGrow_foldl step valuesGrow_step l s

theorem c10_ev : eventsOfModule c10mod =
    [.enterModule "R", .enterModule "A", .eop "head" 7, .exitModule "A" 2,
     .enterModule "B", .exitModule "B" 3, .exitModule "R" 1] := by rfl

theorem c10_s1 : step initState (Event.enterModule "R") = c10st1 := by
  show updateCurrentModule
    ({ initState with moduleStack := "R" :: initState.moduleStack } : CState) = c10st1
  rw [ucm_new ({ initState with moduleStack := "R" :: initState.moduleStack } : CState)
    "R" [] rfl (by rfl)]
  rfl

theorem c10_s2 : step c10st1 (Event.enterModule "A") = c10st2 := by
  show updateCurrentModule
    ({ c10st1 with moduleStack := "A" :: c10st1.moduleStack } : CState) = c10st2
  rw [ucm_new ({ c10st1 with moduleStack := "A" :: c10st1.moduleStack } : CState)
    "A" ["R"] rfl (by rfl)]
  rfl

theorem c10_s3 : step c10st2 (Event.eop "head" 7) = pushValueDef c10st2 38 c10vd := by
  rfl

theorem c10_run : collectDefinitions c10mod
    = exitModuleDef (exitModuleDef (enterModuleDef
        (exitModuleDef (pushValueDef c10st2 38 c10vd) "A" 2) "B") "B" 3) "R" 1 := by
  have h0 : collectDefinitions c10mod
      = List.foldl step initState
          [.enterModule "R", .enterModule "A", .eop "head" 7, .exitModule "A" 2,
           .enterModule "B", .exitModule "B" 3, .exitModule "R" 1] := by
    show replay (eventsOfModule c10mod) = _
    rw [c10_ev]
    rfl
  rw [h0, List.foldl_cons, c10_s1, List.foldl_cons, c10_s2, List.foldl_cons, c10_s3,
    List.foldl_cons, List.foldl_cons, List.foldl_cons, List.foldl_cons, List.foldl_nil]
  rfl

theorem enter_ctrl (st : CState) (name : String) (tb : List (String × Nat)) (ln : Nat)
    (htab : st.tables = tb) (hlen : st.maps.length = ln)
    (hnone : tb.lookup name = none) :
    (enterModuleDef st name).tables = tb ++ [(name, ln)] ∧
    (enterModuleDef st name).currentTable = ln ∧
    (enterModuleDef st name).moduleStack = name :: st.moduleStack ∧
    (enterModuleDef st name).maps.length = ln + 1 ∧
    (enterModuleDef st name).cells = st.cells := by
  have hu := ucm_new ({ st with moduleStack := name :: st.moduleStack } : CState)
    name st.moduleStack rfl
    (by show st.tables.lookup name = none; rw [htab]; exact hnone)
  rw [show enterModuleDef st name = updateCurrentModule
    ({ st with moduleStack := name :: st.moduleStack } : CState) from rfl, hu]
  refine ⟨?_, ?_, rfl, ?_, rfl⟩
  · show st.tables ++ [(name, st.maps.length)] = tb ++ [(name, ln)]
    rw [htab, hlen]
  · show st.maps.length = ln
    exact hlen
  · show (st.maps ++ [getMap st 0]).length = ln + 1
    simp [hlen]

theorem exit_top_tables (st : CState) (n : String) (id : Nat)
    (h : st.moduleStack = [n]) :
    (exitModuleDef st n id).tables = st.tables := by
  rw [exit_top st n id h]

theorem c10_run_facts :
    (collectDefinitions c10mod).tables = [("R", 2), ("A", 3), ("B", 4)]
    ∧ c10vd ∈ (getCell (collectDefinitions c10mod) 38).valueDefinitions := by
  have hmem3 : c10vd ∈ (getCell (pushValueDef c10st2 38 c10vd) 38).valueDefinitions := by
    rw [getCell_pushValueDef_same _ _ _ (by decide)]
    exact List.mem_append.mpr (Or.inr (List.mem_singleton.mpr rfl))
  obtain ⟨h4tab, h4ct, h4ms, h4sc, h4len⟩ :=
    exit_ctrl (pushValueDef c10st2 38 c10vd) "A" 2 "R" [] 2 rfl rfl
  have h4tabLit : (exitModuleDef (pushValueDef c10st2 38 c10vd) "A" 2).tables
      = [("R", 2), ("A", 3)] := h4tab.trans rfl
  have h4lenLit : (exitModuleDef (pushValueDef c10st2 38 c10vd) "A" 2).maps.length
      = 4 := h4len.trans rfl
  obtain ⟨h5tab, h5ct, h5ms, h5len, h5cells⟩ :=
    enter_ctrl (exitModuleDef (pushValueDef c10st2 38 c10vd) "A" 2) "B"
      [("R", 2), ("A", 3)] 4 h4tabLit h4lenLit rfl
  have h5tabLit : (enterModuleDef (exitModuleDef (pushValueDef c10st2 38 c10vd) "A" 2)
      "B").tables = [("R", 2), ("A", 3), ("B", 4)] := h5tab.trans rfl
  have h5msLit : (enterModuleDef (exitModuleDef (pushValueDef c10st2 38 c10vd) "A" 2)
      "B").moduleStack = "B" :: "R" :: [] := by rw [h5ms, h4ms]
  obtain ⟨h6tab, h6ct, h6ms, h6sc, h6len⟩ :=
    exit_ctrl (enterModuleDef (exitModuleDef (pushValueDef c10st2 38 c10vd) "A" 2) "B")
      "B" 3 "R" [] 2 h5msLit (by rw [h5tabLit]; rfl)
  have h7tab := exit_top_tables (exitModuleDef (enterModuleDef
      (exitModuleDef (pushValueDef c10st2 38 c10vd) "A" 2) "B") "B" 3) "R" 1 h6ms
  constructor
  · rw [c10_run, h7tab, h6tab, h5tabLit]
  · rw [c10_run]
    have g4 := valuesGrow_exitModuleDef (pushValueDef c10st2 38 c10vd) "A" 2
    have g5 := valuesGrow_enterModuleDef
      (exitModuleDef (pushValueDef c10st2 38 c10vd) "A" 2) "B"
    have g6 := valuesGrow_exitModuleDef (enterModuleDef
      (exitModuleDef (pushValueDef c10st2 38 c10vd) "A" 2) "B") "B" 3
    have g7 := valuesGrow_exitModuleDef (exitModuleDef (enterModuleDef
      (exitModuleDef (pushValueDef c10st2 38 c10vd) "A" 2) "B") "B" 3) "R" 1
    exact g7 38 c10vd (g6 38 c10vd (g5 38 c10vd (g4 38 c10vd hmem3)))

/-- C10: the tables produced by collectDefinitions share their builtin
cells rather than holding independent copies. First conjunct, for every
input module: any two recorded module tables resolve every built-in
identifier to the very same cell, so their entries for it are equal.
Second conjunct, the claim's concrete scenario: in a forest where nested
module A declares a module-level operator named head (a built-in name)
and nested module B declares nothing, A's definition appears in B's
table entry for head. -/
theorem c10_shared_builtin_cells :
    (∀ (m : TntModule), ∀ pA ∈ (collectDefinitions m).tables,
      ∀ pB ∈ (collectDefinitions m).tables, ∀ b ∈ builtinNames,
      lookupCell (collectDefinitions m) pA.2 b
        = lookupCell (collectDefinitions m) pB.2 b)
    ∧ (("A", 3) ∈ (collectDefinitions c10mod).tables
      ∧ ("B", 4) ∈ (collectDefinitions c10mod).tables
      ∧ ∃ cell, lookupCell (collectDefinitions c10mod) 4 "head" = some cell
          ∧ (⟨"def", "head", some 7, none⟩ : ValueDefinition)
            ∈ cell.valueDefinitions) := by
  constructor
  · intro m pA hA pB hB b hb
    have h5 := (inv_collectDefinitions m).2.2.2.2
    rw [lookupCell, lookupCell, h5 pA hA b hb, h5 pB hB b hb]
  · obtain ⟨htab, hmem⟩ := c10_run_facts
    refine ⟨by rw [htab]; simp, by rw [htab]; simp, getCell (collectDefinitions c10mod) 38, ?_, hmem⟩
    have hB : ("B", 4) ∈ (collectDefinitions c10mod).tables := by rw [htab]; simp
    have h5 := (inv_collectDefinitions c10mod).2.2.2.2 ("B", 4) hB "head" (by decide)
    rw [lookupCell, h5]
    rw [show defaultAssoc.lookup "head" = some 38 from by decide]
    rfl

/-- C10 witness: the sharing conjunct applied to the concrete forest,
giving equal head entries for the two sibling tables A and B. -/
theorem c10_shared_builtin_cells_witness :
    ("A", 3) ∈ (collectDefinitions c10mod).tables ∧
    ("B", 4) ∈ (collectDefinitions c10mod).tables ∧
    "head" ∈ builtinNames ∧
    lookupCell (collectDefinitions c10mod) 3 "head"
      = lookupCell (collectDefinitions c10mod) 4 "head" := by
  have hA := c10_shared_builtin_cells.2.1
  have hB := c10_shared_builtin_cells.2.2.1
  have hb : "head" ∈ builtinNames := by decide
  exact ⟨hA, hB, hb,
    c10_shared_builtin_cells.1 c10mod ("A", 3) hA ("B", 4) hB "head" hb⟩

theorem lookup_single {β : Type} (i k : String) (v : β) :
    ([(i, v)] : List (String × β)).lookup k
      = if k = i then some v else none := by
  by_cases h : k = i
  · have hb : (k == i) = true := by simp [h]
    simp [List.lookup, hb, h]
  · have hb : (k == i) = false := by simp [h]
    simp [List.lookup, hb, h]

theorem getCell_allocCell_lt (st : CState) (i : String) (a : Nat)
    (h : a < st.cells.length) : getCell (allocCell st i) a = getCell st a := by
  simp only [getCell, allocCell, setMap]
  exact getD_append_left _ _ _ _ h

theorem getCell_allocCell_len (st : CState) (i : String) :
    getCell (allocCell st i) st.cells.length = emptyTable := by
  simp only [getCell, allocCell, setMap]
  exact getD_append_len _ _ _

theorem cvd_fresh_eq (s : CState) (k i : String) (r sc : Option Nat)
    (hu : i ≠ "_") (hf : (getMap s s.currentTable).lookup i = none) :
    collectValueDefinition s k i r sc
      = pushValueDef (allocCell s i) s.cells.length ⟨k, i, r, sc⟩ := by
  rw [collectValueDefinition, if_neg hu, hf]

theorem applyCvd_fresh (s : CState) (d : ValueDefinition)
    (hu : d.identifier ≠ "_")
    (hf : (getMap s s.currentTable).lookup d.identifier = none) :
    applyCvd s d = pushValueDef (allocCell s d.identifier) s.cells.length d := by
  rw [applyCvd, cvd_fresh_eq s d.kind d.identifier d.reference d.scope hu hf]

theorem fresh_step_map (s : CState) (d : ValueDefinition)
    (hct : s.currentTable < s.maps.length) (hu : d.identifier ≠ "_")
    (hf : (getMap s s.currentTable).lookup d.identifier = none) :
    getMap (applyCvd s d) s.currentTable
      = getMap s s.currentTable ++ [(d.identifier, s.cells.length)] := by
  rw [applyCvd_fresh s d hu hf, getMap_pushValueDef]
  exact getMap_allocCell_cur s d.identifier hct

theorem fresh_step_len (s : CState) (d : ValueDefinition)
    (hu : d.identifier ≠ "_")
    (hf : (getMap s s.currentTable).lookup d.identifier = none) :
    (applyCvd s d).cells.length = s.cells.length + 1 := by
  rw [applyCvd_fresh s d hu hf]
  simp [pushValueDef, setCell, allocCell, setMap]

theorem fresh_step_cell_lt (s : CState) (d : ValueDefinition) (a : Nat)
    (hu : d.identifier ≠ "_")
    (hf : (getMap s s.currentTable).lookup d.identifier = none)
    (ha : a < s.cells.length) :
    getCell (applyCvd s d) a = getCell s a := by
  rw [applyCvd_fresh s d hu hf, pushValueDef]
  rw [getCell_setCell_ne _ _ _ _ (Nat.ne_of_gt ha)]
  exact getCell_allocCell_lt s d.identifier a ha

theorem fresh_step_cell_new (s : CState) (d : ValueDefinition)
    (hu : d.identifier ≠ "_")
    (hf : (getMap s s.currentTable).lookup d.identifier = none) :
    getCell (applyCvd s d) s.cells.length = ⟨[d], []⟩ := by
  rw [applyCvd_fresh s d hu hf, pushValueDef]
  have hl : s.cells.length < (allocCell s d.identifier).cells.length := by
    simp [allocCell, setMap]
  rw [getCell_setCell_same _ _ _ hl, getCell_allocCell_len]
  rfl

theorem fresh_step_ct (s : CState) (d : ValueDefinition) :
    (applyCvd s d).currentTable = s.currentTable :=
  (cvd_ctrlEq s d.kind d.identifier d.reference d.scope).2.1

theorem fresh_step_mapsLen (s : CState) (d : ValueDefinition) :
    (applyCvd s d).maps.length = s.maps.length :=
  (cvd_ctrlEq s d.kind d.identifier d.reference d.scope).2.2.2.2

theorem cvdFold_fresh : ∀ (DS : List ValueDefinition) (s : CState),
    s.currentTable < s.maps.length →
    (∀ d ∈ DS, d.identifier ≠ "_") →
    (∀ q ∈ getMap s s.currentTable, q.2 < s.cells.length) →
    (∀ d ∈ DS, (getMap s s.currentTable).lookup d.identifier = none) →
    ((DS.map (fun d => d.identifier)).Nodup) →
    (∀ k a, (getMap s s.currentTable).lookup k = some a →
      (getMap (DS.foldl applyCvd s) s.currentTable).lookup k = some a)
    ∧ (∀ a, a < s.cells.length → getCell (DS.foldl applyCvd s) a = getCell s a)
    ∧ (∀ d ∈ DS, ∃ a,
        (getMap (DS.foldl applyCvd s) s.currentTable).lookup d.identifier = some a
        ∧ s.cells.length ≤ a ∧ getCell (DS.foldl applyCvd s) a = ⟨[d], []⟩)
    ∧ (∀ k, (getMap s s.currentTable).lookup k = none →
        (∀ d ∈ DS, d.identifier ≠ k) →
        (getMap (DS.foldl applyCvd s) s.currentTable).lookup k = none)
    ∧ s.cells.length ≤ (DS.foldl applyCvd s).cells.length
    ∧ (∀ q ∈ getMap (DS.foldl applyCvd s) s.currentTable,
        q.2 < (DS.foldl applyCvd s).cells.length) := by
  intro DS
  induction DS with
  | nil =>
    intro s hct hu hv hf hn
    refine ⟨fun k a h => h, fun a _ => rfl, ?_, fun k h _ => h, Nat.le_refl _, hv⟩
    intro d hd
    simp at hd
  | cons d R ih =>
    intro s hct hu hv hf hn
    have hud : d.identifier ≠ "_" := hu d (List.mem_cons_self d R)
    have hfd : (getMap s s.currentTable).lookup d.identifier = none :=
      hf d (List.mem_cons_self d R)
    have hmap1 : getMap (applyCvd s d) s.currentTable
        = getMap s s.currentTable ++ [(d.identifier, s.cells.length)] :=
      fresh_step_map s d hct hud hfd
    have hlen1 : (applyCvd s d).cells.length = s.cells.length + 1 :=
      fresh_step_len s d hud hfd
    have hct1 : (applyCvd s d).currentTable = s.currentTable := fresh_step_ct s d
    have hctlt1 : (applyCvd s d).currentTable < (applyCvd s d).maps.length := by
      rw [hct1, fresh_step_mapsLen]
      exact hct
    have hnid : ∀ d2 ∈ R, d2.identifier ≠ d.identifier := by
      intro d2 hd2 he
      have h1 := (List.nodup_cons.mp hn).1
      have h2 : d.identifier ∈ List.map (fun x => x.identifier) R := by
        rw [← he]
        exact List.mem_map_of_mem (fun x => x.identifier) hd2
      exact h1 h2
    have hmap1ct : getMap (applyCvd s d) (applyCvd s d).currentTable
        = getMap s s.currentTable ++ [(d.identifier, s.cells.length)] := by
      rw [hct1]
      exact hmap1
    have hv1 : ∀ q ∈ getMap (applyCvd s d) (applyCvd s d).currentTable,
        q.2 < (applyCvd s d).cells.length := by
      intro q hq
      rw [hmap1ct] at hq
      rcases List.mem_append.mp hq with hq2 | hq2
      · have := hv q hq2
        omega
      · simp at hq2
        subst hq2
        simp only []
        omega
    have hf1 : ∀ d2 ∈ R, (getMap (applyCvd s d)
        (applyCvd s d).currentTable).lookup d2.identifier = none := by
      intro d2 hd2
      rw [hmap1ct, lookup_append, hf d2 (List.mem_cons_of_mem d hd2)]
      rw [lookup_single, if_neg (hnid d2 hd2)]
      rfl
    have ihr := ih (applyCvd s d) hctlt1 (fun d2 hd2 => hu d2 (List.mem_cons_of_mem d hd2))
      hv1 hf1 (List.nodup_cons.mp hn).2
    obtain ⟨ih1, ih2, ih3, ih4, ih5, ih6⟩ := ihr
    have hfold : (d :: R).foldl applyCvd s = R.foldl applyCvd (applyCvd s d) := rfl
    have hctEq : (applyCvd s d).currentTable = s.currentTable := hct1
    refine ⟨?_, ?_, ?_, ?_, ?_, ?_⟩
    · intro k a h
      rw [hfold]
      have h1 : (getMap (applyCvd s d) (applyCvd s d).currentTable).lookup k = some a := by
        rw [hmap1ct, lookup_append, h]
        rfl
      have := ih1 k a h1
      rw [hctEq] at this
      exact this
    · intro a ha
      rw [hfold]
      have ha1 : a < (applyCvd s d).cells.length := by omega
      rw [ih2 a ha1]
      exact fresh_step_cell_lt s d a hud hfd ha
    · intro d2 hd2
      rcases List.mem_cons.mp hd2 with hd3 | hd3
      · subst hd3
        refine ⟨s.cells.length, ?_, Nat.le_refl _, ?_⟩
        · rw [hfold]
          have h1 : (getMap (applyCvd s d2)
              (applyCvd s d2).currentTable).lookup d2.identifier
              = some s.cells.length := by
            rw [hmap1ct, lookup_append, hfd, lookup_single, if_pos rfl]
            rfl
          have := ih1 d2.identifier s.cells.length h1
          rw [hctEq] at this
          exact this
        · rw [hfold]
          have hlt : s.cells.length < (applyCvd s d2).cells.length := by omega
          rw [ih2 s.cells.length hlt]
          exact fresh_step_cell_new s d2 hud hfd
      · obtain ⟨a, ha1, ha2, ha3⟩ := ih3 d2 hd3
        refine ⟨a, ?_, by omega, ?_⟩
        · rw [hfold]
          rw [hctEq] at ha1
          exact ha1
        · rw [hfold]
          exact ha3
    · intro k hk hne
      rw [hfold]
      have h1 : (getMap (applyCvd s d) (applyCvd s d).currentTable).lookup k = none := by
        rw [hmap1ct, lookup_append, hk, lookup_single,
          if_neg (fun he => hne d (List.mem_cons_self d R) he.symm)]
        rfl
      have := ih4 k h1 (fun d2 hd2 => hne d2 (List.mem_cons_of_mem d hd2))
      rw [hctEq] at this
      exact this
    · rw [hfold]
      omega
    · intro q hq
      rw [hfold] at hq ⊢
      rw [← hctEq] at hq
      exact ih6 q hq

theorem prefixed_ne_discard (n x : String) : n ++ "::" ++ x ≠ "_" := by
  intro h
  have hl := congrArg String.length h
  rw [String.length_append, String.length_append] at hl
  rw [show String.length "::" = 2 from rfl, show String.length "_" = 1 from rfl] at hl
  omega

theorem foldl_retag (n : String) (l : List ValueDefinition) (s : CState) :
    l.foldl (fun s2 d =>
      collectValueDefinition s2 d.kind (n ++ "::" ++ d.identifier) d.reference none) s
    = (l.map (retagDef n)).foldl applyCvd s := by
  rw [List.foldl_map]
  rfl

theorem applyCvd_fold_ct (DS : List ValueDefinition) (s : CState) :
    (DS.foldl applyCvd s).currentTable = s.currentTable :=
  (ctrlEq_foldl applyCvd
    (fun x d => cvd_ctrlEq x d.kind d.identifier d.reference d.scope) DS s).2.1

theorem applyCvd_fold_mapsLen (DS : List ValueDefinition) (s : CState) :
    (DS.foldl applyCvd s).maps.length = s.maps.length :=
  (ctrlEq_foldl applyCvd
    (fun x d => cvd_ctrlEq x d.kind d.identifier d.reference d.scope) DS s).2.2.2.2

theorem exitFold_flatten : ∀ (ps : List (String × Nat)) (s : CState) (base : CState)
    (n : String) (L : Nat),
    s.currentTable < s.maps.length →
    (∀ p ∈ ps, p.2 < L) →
    (∀ a, a < L → getCell s a = getCell base a) →
    L ≤ s.cells.length →
    (∀ q ∈ getMap s s.currentTable, q.2 < s.cells.length) →
    (∀ d ∈ ps.flatMap (fun p => prefixedCopies n (getCell base p.2)),
      d.identifier ≠ "_") →
    (∀ d ∈ ps.flatMap (fun p => prefixedCopies n (getCell base p.2)),
      (getMap s s.currentTable).lookup d.identifier = none) →
    ((ps.flatMap (fun p => prefixedCopies n (getCell base p.2))).map
      (fun d => d.identifier)).Nodup →
    ps.foldl (fun x p =>
      ((getCell x p.2).valueDefinitions.filter (fun d => falsyScope d.scope)).foldl
        (fun s2 d =>
          collectValueDefinition s2 d.kind (n ++ "::" ++ d.identifier) d.reference none)
        x) s
    = (ps.flatMap (fun p => prefixedCopies n (getCell base p.2))).foldl applyCvd s := by
  intro ps
  induction ps with
  | nil =>
    intro s base n L _ _ _ _ _ _ _ _
    rfl
  | cons p ps ih =>
    intro s base n L hct hcell heq hL hv hu hf hn
    have hflat : (p :: ps).flatMap (fun q => prefixedCopies n (getCell base q.2))
        = prefixedCopies n (getCell base p.2)
          ++ ps.flatMap (fun q => prefixedCopies n (getCell base q.2)) := by
      simp [List.flatMap_cons]
    rw [hflat] at hu hf hn
    have hnd := hn
    rw [List.map_append] at hnd
    obtain ⟨hn1, hn2, hdisj⟩ := List.nodup_append.mp hnd
    have hfoldc : (p :: ps).foldl (fun x q =>
        ((getCell x q.2).valueDefinitions.filter (fun d => falsyScope d.scope)).foldl
          (fun s2 d =>
            collectValueDefinition s2 d.kind (n ++ "::" ++ d.identifier) d.reference none)
          x) s
        = ps.foldl (fun x q =>
        ((getCell x q.2).valueDefinitions.filter (fun d => falsyScope d.scope)).foldl
          (fun s2 d =>
            collectValueDefinition s2 d.kind (n ++ "::" ++ d.identifier) d.reference none)
          x)
          (((getCell s p.2).valueDefinitions.filter (fun d => falsyScope d.scope)).foldl
            (fun s2 d =>
              collectValueDefinition s2 d.kind (n ++ "::" ++ d.identifier) d.reference none)
            s) := rfl
    have hcellp : getCell s p.2 = getCell base p.2 :=
      heq p.2 (hcell p (List.mem_cons_self p ps))
    have hseg : ((getCell s p.2).valueDefinitions.filter
          (fun d => falsyScope d.scope)).foldl
        (fun s2 d =>
          collectValueDefinition s2 d.kind (n ++ "::" ++ d.identifier) d.reference none) s
        = (prefixedCopies n (getCell base p.2)).foldl applyCvd s := by
      rw [foldl_retag, ← hcellp]
      rfl
    have hseg_u : ∀ d ∈ prefixedCopies n (getCell base p.2), d.identifier ≠ "_" :=
      fun d hd => hu d (List.mem_append.mpr (Or.inl hd))
    have hseg_f : ∀ d ∈ prefixedCopies n (getCell base p.2),
        (getMap s s.currentTable).lookup d.identifier = none :=
      fun d hd => hf d (List.mem_append.mpr (Or.inl hd))
    obtain ⟨g1, g2, g3, g4, g5, g6⟩ := cvdFold_fresh
      (prefixedCopies n (getCell base p.2)) s hct hseg_u hv hseg_f hn1
    have hs1 := (prefixedCopies n (getCell base p.2)).foldl applyCvd s
    have hct1 : ((prefixedCopies n (getCell base p.2)).foldl applyCvd s).currentTable
        = s.currentTable := applyCvd_fold_ct _ s
    have hctlt1 : ((prefixedCopies n (getCell base p.2)).foldl applyCvd s).currentTable
        < ((prefixedCopies n (getCell base p.2)).foldl applyCvd s).maps.length := by
      rw [hct1, applyCvd_fold_mapsLen]
      exact hct
    have hrest_f : ∀ d ∈ ps.flatMap (fun q => prefixedCopies n (getCell base q.2)),
        (getMap ((prefixedCopies n (getCell base p.2)).foldl applyCvd s)
          ((prefixedCopies n (getCell base p.2)).foldl applyCvd s).currentTable).lookup
          d.identifier = none := by
      intro d hd
      rw [hct1]
      refine g4 d.identifier (hf d (List.mem_append.mpr (Or.inr hd))) ?_
      intro d2 hd2 he
      exact hdisj (he ▸ List.mem_map_of_mem (fun x => x.identifier) hd2)
        (List.mem_map_of_mem (fun x => x.identifier) hd)
    have hrest_v : ∀ q ∈ getMap ((prefixedCopies n (getCell base p.2)).foldl applyCvd s)
        ((prefixedCopies n (getCell base p.2)).foldl applyCvd s).currentTable,
        q.2 < ((prefixedCopies n (getCell base p.2)).foldl applyCvd s).cells.length := by
      intro q hq
      rw [hct1] at hq
      exact g6 q hq
    have hrest_eq : ∀ a, a < L →
        getCell ((prefixedCopies n (getCell base p.2)).foldl applyCvd s) a
          = getCell base a := by
      intro a ha
      rw [g2 a (Nat.lt_of_lt_of_le ha hL)]
      exact heq a ha
    have hrest_L : L ≤ ((prefixedCopies n (getCell base p.2)).foldl applyCvd s).cells.length :=
      Nat.le_trans hL g5
    have hrest := ih ((prefixedCopies n (getCell base p.2)).foldl applyCvd s) base n L
      hctlt1 (fun q hq => hcell q (List.mem_cons_of_mem p hq)) hrest_eq hrest_L
      hrest_v (fun d hd => hu d (List.mem_append.mpr (Or.inr hd))) hrest_f hn2
    rw [hfoldc, hseg, hrest, hflat, List.foldl_append]

theorem exitContribs_shape (st : CState) (n : String) :
    ∀ d ∈ exitContribs st n, (∃ x, d.identifier = n ++ "::" ++ x) ∧ d.scope = none := by
  intro d hd
  simp only [exitContribs] at hd
  rw [List.mem_flatMap] at hd
  obtain ⟨p, _, hd2⟩ := hd
  simp only [prefixedCopies] at hd2
  rw [List.mem_map] at hd2
  obtain ⟨d0, _, h⟩ := hd2
  rw [← h]
  exact ⟨⟨d0.identifier, rfl⟩, rfl⟩

theorem exitContribs_ne_discard (st : CState) (n : String) :
    ∀ d ∈ exitContribs st n, d.identifier ≠ "_" := by
  intro d hd
  obtain ⟨⟨x, hx⟩, _⟩ := exitContribs_shape st n d hd
  rw [hx]
  exact prefixed_ne_discard n x

theorem c5_exit_run (st : CState) (n : String) (id : Nat) (out : String)
    (rest : List String) (oaddr : Nat)
    (h_stack : st.moduleStack = n :: out :: rest)
    (h_out : st.tables.lookup out = some oaddr) :
    exitModuleDef st n id
      = collectValueDefinition
          ((getMap st st.currentTable).foldl (fun x p =>
            ((getCell x p.2).valueDefinitions.filter (fun d => falsyScope d.scope)).foldl
              (fun s2 d =>
                collectValueDefinition s2 d.kind (n ++ "::" ++ d.identifier)
                  d.reference none) x)
            ({ st with moduleStack := out :: rest, currentTable := oaddr } : CState))
          "module" n (some id) none := by
  rw [exitModuleDef]
  have hlit : ({ st with moduleStack := st.moduleStack.tail } : CState)
      = { st with moduleStack := out :: rest } := by rw [h_stack]; rfl
  have hu2 : updateCurrentModule ({ st with moduleStack := out :: rest } : CState)
      = ({ st with moduleStack := out :: rest, currentTable := oaddr } : CState) := by
    apply ucm_found _ out rest oaddr rfl
    exact h_out
  rw [hlit, hu2, if_pos (by simp)]

/-- C5 (amended): when collection exits a nested module n into an
enclosing module - under hygiene hypotheses: the copied names and the
module name are fresh in the outer table, pairwise distinct, and all
addresses valid - exactly the value definitions of the inner table whose
scope is falsy (absent or zero) are copied into the outer table, each
renamed under the n:: prefix and recorded unscoped in its own fresh
cell with an empty type-definition list; a module-kind entry for n is
recorded; pre-existing outer entries are untouched; and no other key is
added. In particular truly-scoped value definitions are not copied, but
a definition scoped to id 0 IS copied (0n is falsy in JS), and the
inner table's type definitions are never copied - the two divergences
from the original claim. -/
theorem c5_exit_copies (st : CState) (n : String) (id : Nat) (out : String)
    (rest : List String) (oaddr : Nat)
    (h_stack : st.moduleStack = n :: out :: rest)
    (h_out : st.tables.lookup out = some oaddr)
    (h_oaddr : oaddr < st.maps.length)
    (h_outer_valid : ∀ q ∈ getMap st oaddr, q.2 < st.cells.length)
    (h_inner_valid : ∀ p ∈ getMap st st.currentTable, p.2 < st.cells.length)
    (h_fresh : ∀ d ∈ exitContribs st n, (getMap st oaddr).lookup d.identifier = none)
    (h_nodup : ((exitContribs st n).map (fun d => d.identifier)).Nodup)
    (h_modfresh : (getMap st oaddr).lookup n = none)
    (h_modnc : ∀ d ∈ exitContribs st n, d.identifier ≠ n)
    (h_n : n ≠ "_") :
    (∀ d ∈ exitContribs st n, d.scope = none)
    ∧ ((exitModuleDef st n id).currentTable = oaddr
      ∧ (exitModuleDef st n id).moduleStack = out :: rest)
    ∧ (∀ k a, (getMap st oaddr).lookup k = some a →
        (getMap (exitModuleDef st n id) oaddr).lookup k = some a
        ∧ getCell (exitModuleDef st n id) a = getCell st a)
    ∧ (∀ d ∈ exitContribs st n, ∃ a,
        (getMap (exitModuleDef st n id) oaddr).lookup d.identifier = some a
        ∧ st.cells.length ≤ a
        ∧ getCell (exitModuleDef st n id) a = ⟨[d], []⟩)
    ∧ (∃ a, (getMap (exitModuleDef st n id) oaddr).lookup n = some a
        ∧ getCell (exitModuleDef st n id) a = ⟨[⟨"module", n, some id, none⟩], []⟩)
    ∧ (∀ k, (getMap st oaddr).lookup k = none → k ≠ n →
        (∀ d ∈ exitContribs st n, d.identifier ≠ k) →
        (getMap (exitModuleDef st n id) oaddr).lookup k = none) := by
  have hflat := exitFold_flatten (getMap st st.currentTable)
    ({ st with moduleStack := out :: rest, currentTable := oaddr } : CState) st n
    st.cells.length h_oaddr h_inner_valid (fun a _ => rfl) (Nat.le_refl _)
    h_outer_valid (exitContribs_ne_discard st n) h_fresh h_nodup
  have hrun2 : exitModuleDef st n id
      = collectValueDefinition
          ((exitContribs st n).foldl applyCvd
            ({ st with moduleStack := out :: rest, currentTable := oaddr } : CState))
          "module" n (some id) none := by
    rw [c5_exit_run st n id out rest oaddr h_stack h_out, hflat]
    rfl
  obtain ⟨g1, g2, g3, g4, g5, g6⟩ := cvdFold_fresh (exitContribs st n)
    ({ st with moduleStack := out :: rest, currentTable := oaddr } : CState)
    h_oaddr (exitContribs_ne_discard st n) h_outer_valid h_fresh h_nodup
  have hct2 : ((exitContribs st n).foldl applyCvd
      ({ st with moduleStack := out :: rest, currentTable := oaddr } : CState)).currentTable
      = oaddr := applyCvd_fold_ct _ _
  have hlen2 : ((exitContribs st n).foldl applyCvd
      ({ st with moduleStack := out :: rest, currentTable := oaddr } : CState)).maps.length
      = st.maps.length := applyCvd_fold_mapsLen _ _
  have hmodn : (getMap ((exitContribs st n).foldl applyCvd
      ({ st with moduleStack := out :: rest, currentTable := oaddr } : CState))
      oaddr).lookup n = none := g4 n h_modfresh h_modnc
  have hcvd : collectValueDefinition
      ((exitContribs st n).foldl applyCvd
        ({ st with moduleStack := out :: rest, currentTable := oaddr } : CState))
      "module" n (some id) none
      = pushValueDef
          (allocCell ((exitContribs st n).foldl applyCvd
            ({ st with moduleStack := out :: rest, currentTable := oaddr } : CState)) n)
          ((exitContribs st n).foldl applyCvd
            ({ st with moduleStack := out :: rest, currentTable := oaddr } : CState)).cells.length
          ⟨"module", n, some id, none⟩ := by
    apply cvd_fresh_eq _ _ _ _ _ h_n
    rw [hct2]
    exact hmodn
  have hrun3 : exitModuleDef st n id
      = pushValueDef
          (allocCell ((exitContribs st n).foldl applyCvd
            ({ st with moduleStack := out :: rest, currentTable := oaddr } : CState)) n)
          ((exitContribs st n).foldl applyCvd
            ({ st with moduleStack := out :: rest, currentTable := oaddr } : CState)).cells.length
          ⟨"module", n, some id, none⟩ := hrun2.trans hcvd
  have hctlt2 : ((exitContribs st n).foldl applyCvd
      ({ st with moduleStack := out :: rest, currentTable := oaddr } : CState)).currentTable
      < ((exitContribs st n).foldl applyCvd
      ({ st with moduleStack := out :: rest, currentTable := oaddr } : CState)).maps.length := by
    rw [hct2, hlen2]
    exact h_oaddr
  have hfinalmap : getMap (exitModuleDef st n id) oaddr
      = getMap ((exitContribs st n).foldl applyCvd
          ({ st with moduleStack := out :: rest, currentTable := oaddr } : CState)) oaddr
        ++ [(n, ((exitContribs st n).foldl applyCvd
          ({ st with moduleStack := out :: rest, currentTable := oaddr } : CState)).cells.length)] := by
    rw [hrun3, getMap_pushValueDef]
    have := getMap_allocCell_cur ((exitContribs st n).foldl applyCvd
      ({ st with moduleStack := out :: rest, currentTable := oaddr } : CState)) n hctlt2
    rw [hct2] at this
    exact this
  have hfinalcell_lt : ∀ a, a < ((exitContribs st n).foldl applyCvd
      ({ st with moduleStack := out :: rest, currentTable := oaddr } : CState)).cells.length →
      getCell (exitModuleDef st n id) a
        = getCell ((exitContribs st n).foldl applyCvd
            ({ st with moduleStack := out :: rest, currentTable := oaddr } : CState)) a := by
    intro a ha
    rw [hrun3, pushValueDef, getCell_setCell_ne _ _ _ _ (Nat.ne_of_gt ha)]
    exact getCell_allocCell_lt _ n a ha
  refine ⟨fun d hd => (exitContribs_shape st n d hd).2,
    ⟨(exit_ctrl st n id out rest oaddr h_stack h_out).2.1,
     (exit_ctrl st n id out rest oaddr h_stack h_out).2.2.1⟩, ?_, ?_, ?_, ?_⟩
  · intro k a hk
    have hs2 := g1 k a hk
    have hmem := lookup_mem _ k a hk
    have halt : a < st.cells.length := h_outer_valid (k, a) hmem
    constructor
    · rw [hfinalmap, lookup_append, hs2]
      rfl
    · have ha2 : a < ((exitContribs st n).foldl applyCvd
          ({ st with moduleStack := out :: rest, currentTable := oaddr } : CState)).cells.length :=
        Nat.lt_of_lt_of_le halt g5
      rw [hfinalcell_lt a ha2, g2 a halt]
      rfl
  · intro d hd
    obtain ⟨a, ha1, ha2, ha3⟩ := g3 d hd
    have hmem := lookup_mem _ d.identifier a ha1
    have halt := g6 (d.identifier, a) hmem
    refine ⟨a, ?_, ha2, ?_⟩
    · rw [hfinalmap, lookup_append, ha1]
      rfl
    · rw [hfinalcell_lt a halt]
      exact ha3
  · refine ⟨((exitContribs st n).foldl applyCvd
      ({ st with moduleStack := out :: rest, currentTable := oaddr } : CState)).cells.length,
      ?_, ?_⟩
    · rw [hfinalmap, lookup_append, hmodn, lookup_single, if_pos rfl]
      rfl
    · rw [hrun3, pushValueDef]
      have hl : ((exitContribs st n).foldl applyCvd
          ({ st with moduleStack := out :: rest, currentTable := oaddr } : CState)).cells.length
          < (allocCell ((exitContribs st n).foldl applyCvd
            ({ st with moduleStack := out :: rest, currentTable := oaddr } : CState)) n).cells.length := by
        simp [allocCell, setMap]
      rw [getCell_setCell_same _ _ _ hl, getCell_allocCell_len]
      rfl
  · intro k hk hkn hknc
    rw [hfinalmap, lookup_append, g4 k hk hknc, lookup_single, if_neg hkn]
    rfl

/-- C5 counterexample: exiting inner module In of c5xstate copies the
definition f - although it is scoped (to id 0, which is falsy as a JS
bigint) - renamed and unscoped, while the type definition T of the inner
table is not copied at all (no In::T key appears); the truly scoped g is
not copied, and the module entry is recorded. -/
theorem c5_counterexample :
    lookupCell (exitModuleDef c5xstate "In" 9) 2 "In::f"
      = some ⟨[⟨"def", "In::f", some 4, none⟩], []⟩
    ∧ (getMap (exitModuleDef c5xstate "In" 9) 2).lookup "In::T" = none
    ∧ (getMap (exitModuleDef c5xstate "In" 9) 2).lookup "In::g" = none
    ∧ lookupCell (exitModuleDef c5xstate "In" 9) 2 "In"
      = some ⟨[⟨"module", "In", some 9, none⟩], []⟩ :=
  ⟨rfl, rfl, rfl, rfl⟩

/-- C5 witness: the exit theorem applied to the concrete state c5wstate,
giving the module-kind entry for In and the copied In::x definition. -/
theorem c5_exit_copies_witness :
    (c5wstate.moduleStack = "In" :: "Out" :: []) ∧
    ((⟨"var", "In::x", some 4, none⟩ : ValueDefinition) ∈ exitContribs c5wstate "In") ∧
    (∃ a, (getMap (exitModuleDef c5wstate "In" 9) 2).lookup "In" = some a
      ∧ getCell (exitModuleDef c5wstate "In" 9) a
        = ⟨[⟨"module", "In", some 9, none⟩], []⟩) ∧
    (∃ a, (getMap (exitModuleDef c5wstate "In" 9) 2).lookup "In::x" = some a
      ∧ c5wstate.cells.length ≤ a
      ∧ getCell (exitModuleDef c5wstate "In" 9) a
        = ⟨[⟨"var", "In::x", some 4, none⟩], []⟩) := by
  have h := c5_exit_copies c5wstate "In" 9 "Out" [] 2 rfl rfl (by decide) (by decide)
    (by decide) (by decide) (by decide) (by decide) (by decide) (by decide)
  have hmem : (⟨"var", "In::x", some 4, none⟩ : ValueDefinition)
      ∈ exitContribs c5wstate "In" := by decide
  exact ⟨rfl, hmem, h.2.2.2.2.1, h.2.2.2.1 _ hmem⟩

/-- C7: resolveImports returns an error result exactly when some
declaration is unresolved. First conjunct: the result is the error
constructor holding precisely the accumulated error list if and only if
that list is nonempty, and an ok result implies the list is empty - so
no merged table is returned when any error is present. Second conjunct:
a named import, wildcard import or instantiation naming a module absent
from the tables contributes exactly one error entry carrying that module
name. Third conjunct: a named import of an identifier absent from an
existing module's table contributes exactly one error entry carrying
that definition name. Fourth conjunct: errors accumulate across
declarations in order - the entries contributed by the first declaration
are followed by those of the remaining ones, so processing does not stop
at the first failure. -/
theorem c7_resolve_imports :
    (∀ (name : String) (decls : List ImportDecl) (tables : RTableByModule),
      (resolveImports name decls tables = .err (importErrors tables decls)
        ↔ importErrors tables decls ≠ [])
      ∧ (∀ defs, resolveImports name decls tables = .ok defs →
          importErrors tables decls = []))
    ∧ (∀ (tables : RTableByModule) (X : String), tables.lookup X = none →
        (∀ y, resolveDecl tables (.importNamed X y) = ([⟨some X, none⟩], []))
        ∧ resolveDecl tables (.importAll X) = ([⟨some X, none⟩], [])
        ∧ (∀ n ovr, resolveDecl tables (.instanceDecl n X ovr)
            = ([⟨some X, none⟩], [])))
    ∧ (∀ (tables : RTableByModule) (M : String) (mt : RTable) (y : String),
        tables.lookup M = some mt → mt.lookup y = none →
        resolveDecl tables (.importNamed M y) = ([⟨none, some y⟩], []))
    ∧ (∀ (tables : RTableByModule) (d : ImportDecl) (ds : List ImportDecl),
        importErrors tables (d :: ds)
          = (resolveDecl tables d).1 ++ importErrors tables ds) := by
  refine ⟨?_, ?_, ?_, ?_⟩
  · intro name decls tables
    constructor
    · constructor
      · intro h he
        rw [resolveImports] at h
        rw [he] at h
        simp at h
      · intro h
        rw [resolveImports, if_neg (by simpa using h)]
    · intro defs h
      rw [resolveImports] at h
      by_cases he : (importErrors tables decls).isEmpty
      · simpa using he
      · rw [if_neg he] at h
        exact ResolutionResult.noConfusion h
  · intro tables X hX
    refine ⟨?_, ?_, ?_⟩
    · intro y
      rw [resolveDecl, hX]
    · rw [resolveDecl, hX]
    · intro n ovr
      rw [resolveDecl, hX]
  · intro tables M mt y hM hy
    rw [resolveDecl, hM]
    simp only [hy]
  · intro tables d ds
    rw [importErrors, importErrors, List.flatMap_cons]

/-- C7 witness: the theorem applied to the concrete tables of the test
file - importing from the absent module unexisting_module yields exactly
one moduleName error, importing the absent name x from test_module
yields one defName error, and the two-declaration trace accumulates
both; a successful wildcard import of test_module returns ok with a and
b visible in wrapper and the error list empty. -/
theorem c7_resolve_imports_witness :
    (c7tables.lookup "nonexistent" = none
      ∧ resolveDecl c7tables (.importAll "nonexistent")
          = ([⟨some "nonexistent", none⟩], []))
    ∧ (c7tables.lookup "test_module" ≠ none
      ∧ resolveDecl c7tables (.importNamed "test_module" "x")
          = ([⟨none, some "x"⟩], []))
    ∧ importErrors c7tables
        [.importAll "nonexistent", .importNamed "test_module" "x"]
        = [⟨some "nonexistent", none⟩, ⟨none, some "x"⟩]
    ∧ resolveImports "wrapper" [.importAll "nonexistent"] c7tables
        = .err [⟨some "nonexistent", none⟩]
    ∧ importErrors c7tables [.importAll "test_module"] = [] := by
  have h1 : c7tables.lookup "nonexistent" = none := by rfl
  have h2 := (c7_resolve_imports.2.1 c7tables "nonexistent" h1).2.1
  have h3 : c7tables.lookup "test_module"
      = some [("a", ⟨[⟨"def", "a", some 1, none⟩], []⟩),
        ("b", ⟨[⟨"def", "b", some 2, none⟩], []⟩),
        ("c", ⟨[⟨"def", "c", some 3, some 10⟩], []⟩),
        ("nested_module", ⟨[⟨"module", "nested_module", some 4, none⟩], []⟩),
        ("unexisting_module", ⟨[⟨"module", "unexisting_module", some 5, none⟩], []⟩)] := by
    rfl
  have h4 := c7_resolve_imports.2.2.1 c7tables "test_module" _ "x" h3 (by rfl)
  refine ⟨⟨h1, h2⟩, ⟨by rw [h3]; simp, h4⟩, ?_, ?_, by rfl⟩
  · rw [c7_resolve_imports.2.2.2 c7tables (.importAll "nonexistent")
      [.importNamed "test_module" "x"], h2]
    rw [c7_resolve_imports.2.2.2 c7tables (.importNamed "test_module" "x") [], h4]
    rfl
  · have he : importErrors c7tables [.importAll "nonexistent"]
        = [⟨some "nonexistent", none⟩] := by
      rw [c7_resolve_imports.2.2.2 c7tables (.importAll "nonexistent") [], h2]
      rfl
    rw [resolveImports, he]
    rfl

end Tnt
